import Mathlib

/-!
Verification of the TREC record-model library (TREC.py): five components
(Query, ProbabilisticRelevance, Relevance, Result, Run), each an
insertion-ordered mapping with `read`/`write` over line-oriented text files.

Modelling conventions:
* A text file is a list of lines (`List Str`) without the trailing newline
  character (for the CSV-based Result component, a list of field rows);
  every parser in the source first strips whitespace, so the terminator is
  immaterial and `write`-emitted lines are the contents before `linebreak`.
* Python strings are `List Char`; Python dicts are insertion-ordered
  association lists whose update keeps the position (and the originally
  stored key object) of an existing key.
* Python floats are modelled exactly as signed decimals `m / 10 ^ e`
  (plus infinities and NaN), not as IEEE doubles; values whose decimal
  forms are indistinguishable as doubles are distinguished here, and
  overflow to infinity on parse is not modelled.
* `int()` / `float()` are modelled without PEP-515 underscore separators.
* `sorted(...)` (CPython's stable sort) is modelled by `List.insertionSort`,
  which is stable and produces the same result for the total preorders used.
-/

set_option synthInstance.maxSize 1024

set_option synthInstance.maxHeartbeats 1000000

deriving instance DecidableEq for Except

abbrev Str := List Char

/-- ASCII whitespace matched by Python's `\s` and stripped by `str.strip`
(the unicode whitespace code points are not modelled). -/
def isPyWs (c : Char) : Bool :=
  c == ' ' || c == '\t' || c == '\n' || c == '\r' || c == '\x0b' || c == '\x0c'

/-- Python `str.rstrip()`. -/
def rstripL (l : Str) : Str := (l.reverse.dropWhile isPyWs).reverse

/-- Python `str.strip()`. -/
def stripL (l : Str) : Str := rstripL (l.dropWhile isPyWs)

/-- Python `str.split(sep, 1)` for a one-character separator. -/
def splitSep1 (sep : Char) (l : Str) : List Str :=
  match l.dropWhile (fun c => !(c == sep)) with
  | [] => [l]
  | _ :: t => [l.takeWhile (fun c => !(c == sep)), t]

/-- Python `re.split('\\s+', l, n)` for `n ≥ 1`: split on whitespace runs,
performing at most `n` splits; the remainder after the last split is kept
verbatim. -/
def splitWsMax : Nat → Str → List Str
  | 0, l => [l]
  | n + 1, l =>
    match l.dropWhile (fun c => !(isPyWs c)) with
    | [] => [l.takeWhile (fun c => !(isPyWs c))]
    | rest => l.takeWhile (fun c => !(isPyWs c)) :: splitWsMax n (rest.dropWhile isPyWs)

/-- `sep.join` for the one-character separator `' '`. -/
def joinSep : List Str → Str
  | [] => []
  | [t] => t
  | t :: ts => t ++ ' ' :: joinSep ts

def decDigit : Nat → Char
  | 0 => '0'
  | 1 => '1'
  | 2 => '2'
  | 3 => '3'
  | 4 => '4'
  | 5 => '5'
  | 6 => '6'
  | 7 => '7'
  | 8 => '8'
  | _ => '9'

def digitVal? (c : Char) : Option Nat :=
  if 48 ≤ c.toNat ∧ c.toNat ≤ 57 then some (c.toNat - 48) else none

/-- Decimal rendering of a natural number, with fuel for structural recursion. -/
def natDecAux : Nat → Nat → Str
  | 0, _ => []
  | fuel + 1, n => if n < 10 then [decDigit n] else natDecAux fuel (n / 10) ++ [decDigit (n % 10)]

def natDec (n : Nat) : Str := natDecAux (n + 1) n

/-- Python `str(i)` for an int. -/
def intDec (i : Int) : Str := if i < 0 then '-' :: natDec i.natAbs else natDec i.natAbs

/-- Scan a maximal digit run, returning its value, its length and the rest. -/
def scanDigits : Str → Nat → Nat → Nat × Nat × Str
  | [], acc, cnt => (acc, cnt, [])
  | c :: t, acc, cnt =>
    match digitVal? c with
    | some d => scanDigits t (10 * acc + d) (cnt + 1)
    | none => (acc, cnt, c :: t)

def parseSign : Str → Int × Str
  | '+' :: t => (1, t)
  | '-' :: t => (-1, t)
  | l => (1, l)

/-- Python `int(s)` (without underscore separators). -/
def parsePyInt (l : Str) : Option Int :=
  match parseSign (stripL l) with
  | (sgn, l2) =>
    match scanDigits l2 0 0 with
    | (v, cnt, []) => if cnt == 0 then none else some (sgn * v)
    | _ => none

/-- An exact decimal `m / 10 ^ e`, the model of a finite Python float. -/
structure Dec where
  m : Int
  e : Nat
deriving DecidableEq

/-- Value-level equality of decimals (Python float `==`). -/
def decEqvB (a b : Dec) : Bool := a.m * (10 : Int) ^ b.e == b.m * (10 : Int) ^ a.e

/-- Value-level strict order on decimals (Python float `<`). -/
def decLtB (a b : Dec) : Bool := decide (a.m * (10 : Int) ^ b.e < b.m * (10 : Int) ^ a.e)

/-- A Python float: NaN, an infinity, or a finite decimal. -/
inductive PyF where
  | nan : PyF
  | pinf : PyF
  | ninf : PyF
  | fin : Dec → PyF
deriving DecidableEq

/-- Python float `==` (false on NaN, value-level on finite decimals). -/
def pyfEqB : PyF → PyF → Bool
  | .pinf, .pinf => true
  | .ninf, .ninf => true
  | .fin a, .fin b => decEqvB a b
  | _, _ => false

def lowerEq (l : Str) (s : Str) : Bool := (l.map Char.toLower) == s

def parseExpDigits (mant : Int) (nf : Nat) (l : Str) : Option PyF :=
  match parseSign l with
  | (esgn, l2) =>
    match scanDigits l2 0 0 with
    | (ev, cnt, []) =>
      if cnt == 0 then none
      else if esgn < 0 then some (.fin ⟨mant, nf + ev⟩)
      else some (.fin ⟨mant * (10 : Int) ^ ev, nf⟩)
    | _ => none

def parseExpPart (mant : Int) (nf : Nat) (l : Str) : Option PyF :=
  match l with
  | [] => some (.fin ⟨mant, nf⟩)
  | 'e' :: t => parseExpDigits mant nf t
  | 'E' :: t => parseExpDigits mant nf t
  | _ => none

/-- Python `float(s)`: optional sign, then `inf`/`infinity`/`nan`
(case-insensitive) or a decimal literal with optional fraction and exponent. -/
def parsePyFloat (l : Str) : Option PyF :=
  match parseSign (stripL l) with
  | (sgn, l1) =>
    if lowerEq l1 "inf".data || lowerEq l1 "infinity".data then
      some (if sgn < 0 then .ninf else .pinf)
    else if lowerEq l1 "nan".data then some .nan
    else
      match scanDigits l1 0 0 with
      | (ip, ni, rest1) =>
        match rest1 with
        | '.' :: t =>
          match scanDigits t 0 0 with
          | (fp, nf, rest2) =>
            if ni + nf == 0 then none
            else parseExpPart (sgn * ((ip : Int) * (10 : Int) ^ nf + fp)) nf rest2
        | _ => if ni == 0 then none else parseExpPart (sgn * ip) 0 rest1

def padSix (l : Str) : Str := List.replicate (6 - l.length) '0' ++ l

/-- Python `'{0:.6f}'.format` on a finite decimal: round to six places
(ties rounded up in magnitude; exact decimal ties at binary doubles are
not representable anyway) and pad the fraction to six digits. -/
def dec6 (d : Dec) : Str :=
  let n : Nat :=
    if d.e ≤ 6 then d.m.natAbs * 10 ^ (6 - d.e)
    else (2 * d.m.natAbs + 10 ^ (d.e - 6)) / (2 * 10 ^ (d.e - 6))
  (if d.m < 0 then ['-'] else []) ++ natDec (n / 1000000) ++ '.' :: padSix (natDec (n % 1000000))

/-- Python `'{0:.6f}'.format` on a float. -/
def format6 : PyF → Str
  | .pinf => "inf".data
  | .ninf => "-inf".data
  | .nan => "nan".data
  | .fin d => dec6 d

/-- Python `str(f)` for a finite float: a plain signed decimal with a point.
The exact shortest-repr digits of CPython are not reproduced; any decimal
spelling of the same value is emitted (it parses back to the same value,
which is all the library relies on). -/
def decRepr (d : Dec) : Str :=
  let ds := natDec d.m.natAbs
  let ds2 := List.replicate (d.e + 1 - ds.length) '0' ++ ds
  (if d.m < 0 then ['-'] else []) ++
    ds2.take (ds2.length - d.e) ++ '.' :: ds2.drop (ds2.length - d.e)

/-- Python `str(f)` for a float. -/
def pyfRepr : PyF → Str
  | .nan => "nan".data
  | .pinf => "inf".data
  | .ninf => "-inf".data
  | .fin d => decRepr d

def chLtB (a b : Char) : Bool := decide (a.toNat < b.toNat)

/-- Python string `<`: lexicographic by code point. -/
def lexLtB : Str → Str → Bool
  | [], [] => false
  | [], _ :: _ => true
  | _ :: _, [] => false
  | a :: as, b :: bs => if a == b then lexLtB as bs else chLtB a b

def strLeB (a b : Str) : Bool := !(lexLtB b a)

/-! ### Insertion-ordered mappings (Python dicts as association lists) -/

/-- Dict lookup under the key-equality `keq`. -/
def luB (keq : κ → κ → Bool) : List (κ × α) → κ → Option α
  | [], _ => none
  | (k, v) :: t, q => if keq k q then some v else luB keq t q

/-- Dict assignment `d[q] = x`: replaces the value of an existing key in
place keeping the originally stored key object, else appends. -/
def setB (keq : κ → κ → Bool) (q : κ) (x : α) : List (κ × α) → List (κ × α)
  | [] => [(q, x)]
  | (k, v) :: t => if keq k q then (k, x) :: t else (k, v) :: setB keq q x t

def getOr (keq : κ → κ → Bool) (t : List (κ × α)) (k : κ) (d : α) : α :=
  (luB keq t k).getD d

/-- `defaultdict(list)` append: `g[k].append(x)`. -/
def appendB (keq : κ → κ → Bool) (k : κ) (x : α) (t : List (κ × List α)) :
    List (κ × List α) :=
  match luB keq t k with
  | some l => setB keq k (l ++ [x]) t
  | none => t ++ [(k, [x])]

/-- Python dict `==`: same keys and equal values. -/
def alEqB (keq : κ → κ → Bool) (veq : α → α → Bool) (t1 t2 : List (κ × α)) : Bool :=
  t1.all (fun p => match luB keq t2 p.1 with | some v => veq p.2 v | none => false) &&
  t2.all (fun p => match luB keq t1 p.1 with | some v => veq v p.2 | none => false)

/-- The keys of a dict have no `keq`-duplicates. -/
def NodKeys (keq : κ → κ → Bool) (l : List (κ × α)) : Prop :=
  l.Pairwise (fun p q => keq p.1 q.1 = false)

def strEqB (a b : Str) : Bool := a == b

/-- Sorting a dict's entries by string key: the model of
`for k in sorted(list(d.keys())): v = d[k]` (keys are distinct, so sorting
the key/value pairs by key visits the same sequence). -/
def keyLe (p q : Str × α) : Prop := strLeB p.1 q.1 = true

instance : DecidableRel (@keyLe α) := fun _ _ => inferInstanceAs (Decidable (_ = true))

/-! ### The five components -/

/-- The `Query` table: id → text.  A plain `dict` subclass (no `__missing__`). -/
abbrev QueryT := List (Str × Str)

/-- One line of `Query.read`: `line.split(':', 1)` then `rstrip` on the text;
a line without the separator raises (ValueError), carried as `.error`. -/
def Query.readLine (t : QueryT) (line : Str) : Except QueryT QueryT :=
  match splitSep1 ':' line with
  | [qid, q] => .ok (setB strEqB qid (rstripL q) t)
  | _ => .error t

/-- Sequential line folding shared by the `read` operations: the error
value carries the table state at the moment the exception is raised. -/
def readFoldE (f : T → L → Except T T) (t : T) : List L → Except T T
  | [] => .ok t
  | x :: rest =>
    match f t x with
    | .ok t2 => readFoldE f t2 rest
    | .error t2 => .error t2

def Query.read (t : QueryT) (lines : List Str) : Except QueryT QueryT :=
  readFoldE Query.readLine t lines

def Query.write (t : QueryT) : List Str :=
  (t.insertionSort keyLe).map (fun p => p.1 ++ ':' :: p.2)

def Query.eqB (t1 t2 : QueryT) : Bool := alEqB strEqB strEqB t1 t2

/-- `Query` item lookup: a plain dict, so an absent key raises KeyError,
modelled as `none`. -/
def Query.getItem (t : QueryT) (k : Str) : Option Str := luB strEqB t k

/-- A `ProbabilisticRelevance.relevance` value: an int subclass carrying
`method_id` and `probability`; `attrs = none` models a bare int stored
programmatically (the write path coerces it with the default attributes). -/
structure PRel where
  value : Int
  attrs : Option (Str × PyF)
deriving DecidableEq

abbrev PRDocT := List (Str × PRel)
abbrev PRIntT := List (Str × PRDocT)
abbrev PRT := List (Str × PRIntT)

/-- `relevance(*args)` for the ≤ 3 arguments after query and document:
defaults `relevance='0'`, `method_id='-1'`, `probability='nan'`. -/
def mkRelevance (args : List Str) : Option PRel :=
  match parsePyInt (args.getD 0 "0".data), parsePyFloat (args.getD 2 "nan".data) with
  | some v, some p => some ⟨v, some (args.getD 1 "-1".data, p)⟩
  | _, _ => none

/-- `self[q][i][d] = x` on the nested defaultdict shape shared by the two
relevance tables (an absent key auto-creates an empty nested map at the end). -/
def setQID (t : List (Str × List (Str × List (Str × α)))) (q i d : Str) (x : α) :
    List (Str × List (Str × List (Str × α))) :=
  let im := getOr strEqB t q []
  let dm := getOr strEqB im i []
  setB strEqB q (setB strEqB i (setB strEqB d x dm) im) t

def ProbabilisticRelevance.readLine (t : PRT) (line : Str) : Except PRT PRT :=
  match splitWsMax 4 (stripL line) with
  | q :: d :: args =>
    match mkRelevance args with
    | some r => .ok (setQID t q "0".data d r)
    | none => .error t
  | _ => .error t

def ProbabilisticRelevance.read (t : PRT) (lines : List Str) : Except PRT PRT :=
  readFoldE ProbabilisticRelevance.readLine t lines

def ProbabilisticRelevance.write (t : PRT) : List Str :=
  (t.insertionSort keyLe).flatMap (fun p =>
    let fromD := getOr strEqB p.2 "0".data []
    (fromD.insertionSort keyLe).map (fun dp =>
      let a := dp.2.attrs.getD ("-1".data, PyF.nan)
      joinSep [p.1, dp.1, intDec dp.2.value, a.1, pyfRepr a.2]))

def ProbabilisticRelevance.eqB (t1 t2 : PRT) : Bool :=
  alEqB strEqB (alEqB strEqB (alEqB strEqB (fun r1 r2 => r1.value == r2.value))) t1 t2

def ProbabilisticRelevance.getItem (t : PRT) (q : Str) : PRIntT × PRT :=
  match luB strEqB t q with
  | some l => (l, t)
  | none => ([], t ++ [(q, [])])

/-- The `Relevance` table: query → intent → document → int grade. -/
abbrev RelDocT := List (Str × Int)
abbrev RelIntT := List (Str × RelDocT)
abbrev RelT := List (Str × RelIntT)

def Relevance.readLine (t : RelT) (line : Str) : Except RelT RelT :=
  match splitWsMax 3 (stripL line) with
  | [q, i, d, r] =>
    match parsePyInt r with
    | some v => .ok (setQID t q i d v)
    | none => .error t
  | _ => .error t

def Relevance.read (t : RelT) (lines : List Str) : Except RelT RelT :=
  readFoldE Relevance.readLine t lines

def Relevance.write (t : RelT) : List Str :=
  (t.insertionSort keyLe).flatMap (fun p =>
    (p.2.insertionSort keyLe).flatMap (fun ip =>
      (ip.2.insertionSort keyLe).map (fun dp =>
        joinSep [p.1, ip.1, dp.1, intDec dp.2])))

def Relevance.eqB (t1 t2 : RelT) : Bool :=
  alEqB strEqB (alEqB strEqB (alEqB strEqB (fun v1 v2 : Int => v1 == v2))) t1 t2

def Relevance.getItem (t : RelT) (q : Str) : RelIntT × RelT :=
  match luB strEqB t q with
  | some l => (l, t)
  | none => ([], t ++ [(q, [])])

/-- A `Result.query_id` key: a str subclass carrying `run_id`; dict key
identity is the text alone.  `runId = none` models a plain-str key stored
programmatically (the write path substitutes the default `'_'`). -/
structure RKey where
  text : Str
  runId : Option Str
deriving DecidableEq

abbrev MRec := List (Str × Option PyF)
abbrev ResT := List (RKey × MRec)

def rkEqB (a b : RKey) : Bool := a.text == b.text

/-- `l = self[query_id]`: auto-creates an empty record, keeping the first
stored key object when the text is already present. -/
def Result.vivify (t : ResT) (k : RKey) : ResT :=
  match luB rkEqB t k with
  | some _ => t
  | none => t ++ [(k, [])]

def Result.setMeas (t : ResT) (k : RKey) (m : Str) (v : Option PyF) : ResT :=
  match luB rkEqB t k with
  | some r0 => setB rkEqB k (setB strEqB m v r0) t
  | none => t ++ [(k, [(m, v)])]

/-- The per-measure assignments of one row (`l[measure] = …`), in header
order; a value failing `float()` raises, leaving the row partially applied. -/
def Result.measSteps (k : RKey) (t : ResT) : List (Str × Str) → Except ResT ResT
  | [] => .ok t
  | (m, s) :: rest =>
    match parsePyFloat s with
    | none => .error t
    | some .nan => Result.measSteps k (Result.setMeas t k m none) rest
    | some v => Result.measSteps k (Result.setMeas t k m (some v)) rest

/-- One `csv.DictReader` row: pop `topic` and `runid` (the latter
`rstrip`-ped), then store each remaining column as a measure.  A row whose
length differs from the header's is modelled as an immediate failure
(CPython pads/collects and then fails on `float(None)` / `float(list)`,
possibly after creating the topic key; the difference is not observable
through the claims below). -/
def Result.readRow (header : List Str) (t : ResT) (row : List Str) : Except ResT ResT :=
  if row.length ≠ header.length then .error t else
  let pm := header.zip row
  match luB strEqB pm "topic".data, luB strEqB pm "runid".data with
  | some tp, some rn =>
    let k : RKey := ⟨tp, some (rstripL rn)⟩
    let ms := pm.filter (fun p => !(p.1 == "topic".data) && !(p.1 == "runid".data))
    Result.measSteps k (Result.vivify t k) ms
  | _, _ => .error t

/-- `Result.read` over the CSV abstracted as rows of fields (the csv module's
quoting layer is a faithful bijection and is not re-modelled); the first row
is the header. -/
def Result.read (t : ResT) (rows : List (List Str)) : Except ResT ResT :=
  match rows with
  | [] => .ok t
  | header :: rest => readFoldE (Result.readRow header) t rest

inductive WErr where
  | emptyTable : WErr
  | extraField : WErr
deriving DecidableEq

def rkeyLe (p q : RKey × MRec) : Prop := strLeB p.1.text q.1.text = true

instance : DecidableRel rkeyLe := fun _ _ => inferInstanceAs (Decidable (_ = true))

/-- `Result.write`: derives the header from the first record (insertion
order, not sorted), rows sorted by key text; a record with a measure not in
the header raises in `csv.DictWriter` (`.error .extraField`); an empty table
raises deriving the header (IndexError — the spec's `EmptyTableError`),
before anything is written. -/
def Result.write (t : ResT) : Except WErr (List (List Str)) :=
  match t with
  | [] => .error .emptyTable
  | (_, r0) :: _ =>
    let measures := r0.map Prod.fst
    if t.all (fun p => p.2.all (fun mp => measures.any (fun m => m == mp.1))) then
      .ok (("runid".data :: "topic".data :: measures) ::
        (t.insertionSort rkeyLe).map (fun p =>
          (p.1.runId.getD "_".data) :: p.1.text ::
            measures.map (fun m =>
              match luB strEqB p.2 m with
              | none => []
              | some none => "-nan".data
              | some (some v) => format6 v)))
    else .error .extraField

def mvalEqB : Option PyF → Option PyF → Bool
  | none, none => true
  | some a, some b => pyfEqB a b
  | _, _ => false

def Result.eqB (t1 t2 : ResT) : Bool := alEqB rkEqB (alEqB strEqB mvalEqB) t1 t2

def Result.getItem (t : ResT) (k : RKey) : MRec × ResT :=
  match luB rkEqB t k with
  | some l => (l, t)
  | none => ([], t ++ [(k, [])])

/-- A non-NaN float, the sort key of `Run.read`.  CPython accepts a NaN
score and then sorts with an inconsistent comparator (every comparison
false), making the order an artefact of Timsort's internals; `Run.read`
below restricts its domain to non-NaN scores (where the comparator is a
total preorder), and the `Run.readPy` variant further down keeps the
source's full float semantics, NaN keys included. -/
inductive FinF where
  | ninf : FinF
  | fin : Dec → FinF
  | pinf : FinF
deriving DecidableEq

def finfEqB : FinF → FinF → Bool
  | .ninf, .ninf => true
  | .pinf, .pinf => true
  | .fin a, .fin b => decEqvB a b
  | _, _ => false

def finfLtB : FinF → FinF → Bool
  | .ninf, .pinf => true
  | .ninf, .fin _ => true
  | .fin _, .pinf => true
  | .fin a, .fin b => decLtB a b
  | _, _ => false

def finfNeg : FinF → FinF
  | .ninf => .pinf
  | .pinf => .ninf
  | .fin d => .fin ⟨-d.m, d.e⟩

def parseRunScore (l : Str) : Option FinF :=
  match parsePyFloat l with
  | some .pinf => some .pinf
  | some .ninf => some .ninf
  | some (.fin d) => some (.fin d)
  | _ => none

/-- A `Run.document_id` entry: a str subclass carrying score (kept as its
input text), key and run id; `attrs = none` models a bare string stored
programmatically (the write path substitutes `'Q0'`, `-rank`, `'_'`). -/
structure REnt where
  text : Str
  attrs : Option (Str × Str × Str)
deriving DecidableEq

abbrev RunT := List (Str × List REnt)

/-- Python's comparison of the sort-key lists `[-score, document_id]`. -/
def rpLtB (p q : FinF × REnt) : Bool :=
  if finfEqB p.1 q.1 then lexLtB p.2.text q.2.text else finfLtB p.1 q.1

def rpLe (p q : FinF × REnt) : Prop := rpLtB q p = false

instance : DecidableRel rpLe := fun _ _ => inferInstanceAs (Decidable (_ = false))

/-- `Run.read`, first pass: parse every line into
`query_id_to_pairs[query_id].append([-float(score), document_id(...)])`;
any malformed line raises before the table itself is touched. -/
def Run.parseLine (line : Str) : Option (Str × FinF × REnt) :=
  match splitWsMax 5 (stripL line) with
  | [q, k, d, _rank, score, rid] =>
    match parseRunScore score with
    | some v => some (q, finfNeg v, ⟨d, some (score, k, rid)⟩)
    | none => none
  | _ => none

def Run.collect (g : List (Str × List (FinF × REnt))) :
    List Str → Option (List (Str × List (FinF × REnt)))
  | [] => some g
  | line :: rest =>
    match Run.parseLine line with
    | some (q, kv, en) => Run.collect (appendB strEqB q (kv, en) g) rest
    | none => none

/-- `Run.read`, second pass: per query (in first-occurrence order) extend
`self[query_id]` with the documents sorted by `[-score, document_id]`. -/
def Run.mergeGroups (t : RunT) : List (Str × List (FinF × REnt)) → RunT
  | [] => t
  | (q, prs) :: rest =>
    Run.mergeGroups
      (setB strEqB q (getOr strEqB t q [] ++ (prs.insertionSort rpLe).map Prod.snd) t) rest

def Run.read (t : RunT) (lines : List Str) : Except RunT RunT :=
  match Run.collect [] lines with
  | some g => .ok (Run.mergeGroups t g)
  | none => .error t

def Run.entryLine (q : Str) (rank : Nat) (en : REnt) : Str :=
  match en.attrs with
  | some (score, k, rid) => joinSep [q, k, en.text, natDec rank ++ ".0".data, score, rid]
  | none =>
    joinSep [q, "Q0".data, en.text, natDec rank ++ ".0".data,
      '-' :: (natDec rank ++ ".0".data), "_".data]

/-- The per-query block of `Run.write`: stored sequence order with the
freshly regenerated rank counter `1.0, 2.0, …` (the exact integer-valued
floats, modelled as naturals rendered with a trailing `.0`). -/
def Run.writeBlock (q : Str) : Nat → List REnt → List Str
  | _, [] => []
  | rank, e :: rest => Run.entryLine q rank e :: Run.writeBlock q (rank + 1) rest

def Run.write (t : RunT) : List Str :=
  (t.insertionSort keyLe).flatMap (fun p => Run.writeBlock p.1 1 p.2)

/-- Python `==` on the stored lists compares `document_id` entries as
strings, so only the text participates. -/
def Run.eqB (t1 t2 : RunT) : Bool :=
  alEqB strEqB (fun l1 l2 => l1.map REnt.text == l2.map REnt.text) t1 t2

def Run.getItem (t : RunT) (q : Str) : List REnt × RunT :=
  match luB strEqB t q with
  | some l => (l, t)
  | none => ([], t ++ [(q, [])])

/-- Python negation of a float: `-float('nan')` is still a NaN. -/
def pyfNeg : PyF → PyF
  | .nan => .nan
  | .ninf => .pinf
  | .pinf => .ninf
  | .fin d => .fin ⟨-d.m, d.e⟩

/-- Python float `<`: every comparison involving a NaN is false. -/
def pyfLtB : PyF → PyF → Bool
  | .ninf, .pinf => true
  | .ninf, .fin _ => true
  | .fin _, .pinf => true
  | .fin a, .fin b => decLtB a b
  | _, _ => false

/-- Python's comparison of the sort-key lists `[-score, document_id]` with
the full float semantics: `==` and `<` are both false on a NaN, so a pair
whose key is NaN is never less than, equal to, or greater than anything. -/
def rqLtB (p q : PyF × REnt) : Bool :=
  if pyfEqB p.1 q.1 then lexLtB p.2.text q.2.text else pyfLtB p.1 q.1

def rqLe (p q : PyF × REnt) : Prop := rqLtB q p = false

instance : DecidableRel rqLe := fun _ _ => inferInstanceAs (Decidable (_ = false))

/-- `Run.read`, first pass, with the source's full float semantics:
`float('nan')` succeeds, so a line whose score field is a NaN literal is
accepted and its pair `[-float(score), document_id(...)]` enters the buffer
with a NaN sort key (`Run.parseLine` instead models that score as a read
failure). -/
def Run.parseLinePy (line : Str) : Option (Str × PyF × REnt) :=
  match splitWsMax 5 (stripL line) with
  | [q, k, d, _rank, score, rid] =>
    match parsePyFloat score with
    | some v => some (q, pyfNeg v, ⟨d, some (score, k, rid)⟩)
    | none => none
  | _ => none

def Run.collectPy (g : List (Str × List (PyF × REnt))) :
    List Str → Option (List (Str × List (PyF × REnt)))
  | [] => some g
  | line :: rest =>
    match Run.parseLinePy line with
    | some (q, kv, en) => Run.collectPy (appendB strEqB q (kv, en) g) rest
    | none => none

/-- `Run.read`, second pass, with the full float semantics.  `sorted` is
CPython's Timsort; on the NaN-bearing counterexample files below every
comparison against the NaN key is false, the whole buffer is a single
non-descending run, and Timsort returns it unchanged — exactly what the
stable insertion sort used here returns on those files. -/
def Run.mergeGroupsPy (t : RunT) : List (Str × List (PyF × REnt)) → RunT
  | [] => t
  | (q, prs) :: rest =>
    Run.mergeGroupsPy
      (setB strEqB q (getOr strEqB t q [] ++ (prs.insertionSort rqLe).map Prod.snd) t) rest

def Run.readPy (t : RunT) (lines : List Str) : Except RunT RunT :=
  match Run.collectPy [] lines with
  | some g => .ok (Run.mergeGroupsPy t g)
  | none => .error t

/-! ### Lemmas: whitespace, tokens, splitting and joining -/

/-- A whitespace-free, nonempty token (what a split can produce away from
the final remainder position). -/
def tokOkB (t : Str) : Bool := !t.isEmpty && t.all (fun c => !isPyWs c)

theorem takeWhile_append_all {p : Char → Bool} :
    ∀ {t : Str}, t.all p = true → ∀ r : Str, (t ++ r).takeWhile p = t ++ r.takeWhile p := by
  intro t
  induction t with
  | nil => intro _ r; rfl
  | cons c cs ih =>
    intro h r
    simp only [List.all_cons, Bool.and_eq_true] at h
    simp [List.takeWhile_cons, h.1, ih h.2 r]

theorem dropWhile_append_all {p : Char → Bool} :
    ∀ {t : Str}, t.all p = true → ∀ r : Str, (t ++ r).dropWhile p = r.dropWhile p := by
  intro t
  induction t with
  | nil => intro _ r; rfl
  | cons c cs ih =>
    intro h r
    simp only [List.all_cons, Bool.and_eq_true] at h
    simp [List.dropWhile_cons, h.1, ih h.2 r]

theorem takeWhile_cons_neg {p : Char → Bool} {c : Char} (h : p c = false) (r : Str) :
    (c :: r).takeWhile p = [] := by
  simp [List.takeWhile_cons, h]

theorem dropWhile_cons_neg {p : Char → Bool} {c : Char} (h : p c = false) (r : Str) :
    (c :: r).dropWhile p = c :: r := by
  simp [List.dropWhile_cons, h]

theorem joinSep_cons {t : Str} {ts : List Str} (h : ts ≠ []) :
    joinSep (t :: ts) = t ++ ' ' :: joinSep ts := by
  cases ts with
  | nil => exact absurd rfl h
  | cons u us => rfl

theorem splitWsMax_joinSep :
    ∀ (n : Nat) (ts : List Str), ts.length = n + 1 →
      (∀ t ∈ ts.dropLast, tokOkB t = true) →
      (∀ c cs, ts.getLast? = some (c :: cs) → isPyWs c = false) →
      (ts.getLast? ≠ some []) →
      splitWsMax n (joinSep ts) = ts := by
  intro n
  induction n with
  | zero =>
    intro ts hlen _ _ _
    match ts, hlen with
    | [t], _ => rfl
  | succ n ih =>
    intro ts hlen hmid hlast hne
    match ts, hlen with
    | t :: ts', hlen =>
      have hts' : ts' ≠ [] := by
        intro h; subst h; simp at hlen
      obtain ⟨u, us, rfl⟩ : ∃ u us, ts' = u :: us := by
        cases ts' with
        | nil => exact absurd rfl hts'
        | cons u us => exact ⟨u, us, rfl⟩
      have hdl : (t :: u :: us).dropLast = t :: (u :: us).dropLast := rfl
      have hgl : (t :: u :: us).getLast? = (u :: us).getLast? := List.getLast?_cons_cons ..
      have htok : tokOkB t = true := by
        apply hmid; rw [hdl]; exact List.mem_cons_self _ _
      have htall : t.all (fun c => !isPyWs c) = true :=
        (Bool.and_eq_true .. |>.mp htok).2
      -- the next token is nonempty and begins with a non-whitespace character
      have hhead : ∃ c cs, u = c :: cs ∧ isPyWs c = false := by
        cases us with
        | nil =>
          have hl : (u :: ([] : List Str)).getLast? = some u := rfl
          cases u with
          | nil => exact absurd (hgl.trans hl) hne
          | cons c cs => exact ⟨c, cs, rfl, hlast c cs (hgl.trans hl)⟩
        | cons w ws =>
          have hu : tokOkB u = true := by
            apply hmid
            rw [hdl]
            refine List.mem_cons_of_mem _ ?_
            show u ∈ (u :: w :: ws).dropLast
            rw [List.dropLast_cons₂]
            exact List.mem_cons_self _ _
          rcases Bool.and_eq_true .. |>.mp hu with ⟨h1, h2⟩
          cases u with
          | nil => simp [List.isEmpty] at h1
          | cons c cs =>
            refine ⟨c, cs, rfl, ?_⟩
            have h3 := (Bool.and_eq_true .. |>.mp (List.all_cons .. ▸ h2)).1
            simpa using h3
      rcases hhead with ⟨c, cs, hu, hcws⟩
      have hjoin : ∃ js, joinSep (u :: us) = c :: js := by
        cases us with
        | nil => exact ⟨cs, by rw [hu]; rfl⟩
        | cons w ws =>
          refine ⟨cs ++ ' ' :: joinSep (w :: ws), ?_⟩
          rw [joinSep_cons (by simp), hu]
          rfl
      rcases hjoin with ⟨js, hjs⟩
      rw [joinSep_cons (by simp : (u :: us) ≠ [])]
      have hdrop1 : (t ++ ' ' :: joinSep (u :: us)).dropWhile (fun c => !isPyWs c) =
          ' ' :: joinSep (u :: us) := by
        rw [dropWhile_append_all htall]
        exact dropWhile_cons_neg (by decide) _
      have htake1 : (t ++ ' ' :: joinSep (u :: us)).takeWhile (fun c => !isPyWs c) = t := by
        rw [takeWhile_append_all htall, takeWhile_cons_neg (by decide), List.append_nil]
      have hdrop2 : (' ' :: joinSep (u :: us)).dropWhile isPyWs = joinSep (u :: us) := by
        rw [List.dropWhile_cons]
        simp only [show isPyWs ' ' = true from rfl, if_true]
        rw [hjs]
        exact dropWhile_cons_neg hcws _
      show splitWsMax (n + 1) (t ++ ' ' :: joinSep (u :: us)) = t :: u :: us
      rw [splitWsMax, hdrop1]
      simp only [htake1, hdrop2]
      congr 1
      exact ih (u :: us) (by simpa using hlen)
        (fun v hv => hmid v (by rw [hdl]; exact List.mem_cons_of_mem _ hv))
        (fun c' cs' h => hlast c' cs' (hgl.trans h |> fun x => x))
        (fun h => hne (hgl.trans h))

theorem dropWhile_head_false (p : Char → Bool) :
    ∀ {l : Str} {w : Char} {rest : Str}, l.dropWhile p = w :: rest → p w = false := by
  intro l
  induction l with
  | nil => intro w rest h; simp at h
  | cons c cs ih =>
    intro w rest h
    rw [List.dropWhile_cons] at h
    by_cases hp : p c = true
    · rw [if_pos hp] at h; exact ih h
    · rw [if_neg hp] at h
      injection h with h1 _
      subst h1
      simpa using hp

theorem dropWhile_idem (p : Char → Bool) (l : Str) :
    (l.dropWhile p).dropWhile p = l.dropWhile p := by
  cases hdw : l.dropWhile p with
  | nil => rfl
  | cons w rest => exact dropWhile_cons_neg (dropWhile_head_false p hdw) _

theorem dropWhile_suffix (p : Char → Bool) (l : Str) : l.dropWhile p <:+ l := by
  induction l with
  | nil => exact List.suffix_rfl
  | cons c cs ih =>
    rw [List.dropWhile_cons]
    by_cases hp : p c = true
    · rw [if_pos hp]; exact ih.trans (List.suffix_cons c cs)
    · rw [if_neg hp]

theorem rstripL_idem (l : Str) : rstripL (rstripL l) = rstripL l := by
  unfold rstripL
  rw [List.reverse_reverse, dropWhile_idem]

theorem rstripL_last_not_ws {l : Str} {c : Char} {cs : Str}
    (h : l.reverse = c :: cs) (hc : isPyWs c = false) : rstripL l = l := by
  unfold rstripL
  rw [h, dropWhile_cons_neg hc, ← h, List.reverse_reverse]

theorem stripL_eq_self {l : Str} {a b : Char} {t1 t2 : Str}
    (h1 : l = a :: t1) (ha : isPyWs a = false)
    (h2 : l.reverse = b :: t2) (hb : isPyWs b = false) : stripL l = l := by
  unfold stripL
  rw [h1, dropWhile_cons_neg ha, ← h1]
  exact rstripL_last_not_ws h2 hb

/-- `rstripL l` is a prefix of `l`. -/
theorem rstripL_isPrefix (l : Str) : rstripL l <+: l := by
  apply List.reverse_suffix.mp
  unfold rstripL
  rw [List.reverse_reverse]
  exact dropWhile_suffix isPyWs l.reverse

theorem stripL_head_ws {l : Str} {c : Char} {t : Str}
    (h : stripL l = c :: t) : isPyWs c = false := by
  unfold stripL at h
  rcases rstripL_isPrefix (l.dropWhile isPyWs) with ⟨r, hr⟩
  rw [h] at hr
  exact dropWhile_head_false isPyWs hr.symm

theorem stripL_last_ws {l : Str} {c : Char} {t : Str}
    (h : (stripL l).reverse = c :: t) : isPyWs c = false := by
  unfold stripL rstripL at h
  rw [List.reverse_reverse] at h
  exact dropWhile_head_false isPyWs h

theorem all_takeWhile (p : Char → Bool) (l : Str) : (l.takeWhile p).all p = true := by
  induction l with
  | nil => rfl
  | cons c cs ih =>
    rw [List.takeWhile_cons]
    by_cases h : p c = true
    · simp only [h, if_true, List.all_cons, h, Bool.true_and]; exact ih
    · simp [h]

theorem splitWsMax_ne_nil (n : Nat) (l : Str) : splitWsMax n l ≠ [] := by
  cases n with
  | zero => simp [splitWsMax]
  | succ n =>
    rw [splitWsMax]
    cases l.dropWhile (fun c => !isPyWs c) <;> simp

/-- Shape of the tokens of a whitespace split of a stripped string: all
tokens before the remainder are nonempty and whitespace-free; the final
remainder is nonempty with non-whitespace first and last characters. -/
theorem splitWsMax_shape :
    ∀ (n : Nat) (l : Str),
      (∀ c t, l = c :: t → isPyWs c = false) →
      (∀ c t, l.reverse = c :: t → isPyWs c = false) →
      (∀ t ∈ (splitWsMax n l).dropLast, tokOkB t = true) ∧
      (∀ t, (splitWsMax n l).getLast? = some t → l ≠ [] →
        t ≠ [] ∧ (∀ c u, t = c :: u → isPyWs c = false) ∧
          (∀ c u, t.reverse = c :: u → isPyWs c = false)) := by
  intro n
  induction n with
  | zero =>
    intro l hh hl
    refine ⟨by intro t ht; simp [splitWsMax] at ht, ?_⟩
    intro t ht hnil
    simp only [splitWsMax, List.getLast?] at ht
    injection ht with ht
    subst ht
    exact ⟨hnil, hh, hl⟩
  | succ n ih =>
    intro l hh hl
    cases hdw : l.dropWhile (fun c => !isPyWs c) with
    | nil =>
      have hred : splitWsMax (n + 1) l = [l.takeWhile (fun c => !isPyWs c)] := by
        rw [splitWsMax, hdw]
      rw [hred]
      have htok : l.takeWhile (fun c => !isPyWs c) = l := by
        have h := List.takeWhile_append_dropWhile (p := fun c => !isPyWs c) (l := l)
        rw [hdw, List.append_nil] at h
        exact h
      refine ⟨by intro t ht; simp at ht, ?_⟩
      intro t ht hnil
      simp only [List.getLast?] at ht
      injection ht with ht
      subst ht
      rw [htok]
      exact ⟨hnil, hh, hl⟩
    | cons w rest =>
      have hred : splitWsMax (n + 1) l = l.takeWhile (fun c => !isPyWs c) ::
          splitWsMax n ((w :: rest).dropWhile isPyWs) := by
        rw [splitWsMax, hdw]
      rw [hred]
      have hlne : l ≠ [] := by
        intro h; subst h; simp at hdw
      obtain ⟨c0, l0, hl0⟩ : ∃ c0 l0, l = c0 :: l0 := by
        cases l with
        | nil => exact absurd rfl hlne
        | cons a b => exact ⟨a, b, rfl⟩
      have hc0 : isPyWs c0 = false := hh c0 l0 hl0
      have htokne : l.takeWhile (fun c => !isPyWs c) ≠ [] := by
        rw [hl0, List.takeWhile_cons, if_pos (by simp [hc0])]
        simp
      have htokall : (l.takeWhile (fun c => !isPyWs c)).all (fun c => !isPyWs c) = true :=
        all_takeWhile _ l
      have htokok : tokOkB (l.takeWhile (fun c => !isPyWs c)) = true := by
        unfold tokOkB
        rw [Bool.and_eq_true]
        exact ⟨by simpa [List.isEmpty_iff] using htokne, htokall⟩
      -- the suffix after the whitespace run
      have hsuf1 : (w :: rest) <:+ l := hdw ▸ dropWhile_suffix _ l
      have hsuf2 : (w :: rest).dropWhile isPyWs <:+ l :=
        (dropWhile_suffix isPyWs (w :: rest)).trans hsuf1
      have hlastl : ∀ c u, ((w :: rest).dropWhile isPyWs).reverse = c :: u → isPyWs c = false := by
        intro c u hrev
        have hpre : ((w :: rest).dropWhile isPyWs).reverse <+: l.reverse :=
          List.reverse_prefix.mpr hsuf2
        rcases hpre with ⟨r, hr⟩
        rw [hrev] at hr
        exact hl c (u ++ r) (by rw [← hr]; simp)
      have hr2ne : (w :: rest).dropWhile isPyWs ≠ [] := by
        intro hem
        have hall : ∀ x ∈ w :: rest, isPyWs x = true := by
          have := List.dropWhile_eq_nil_iff.mp hem
          simpa using this
        rcases List.reverse_prefix.mpr hsuf1 with ⟨r, hr⟩
        obtain ⟨b, bs, hb⟩ : ∃ b bs, (w :: rest).reverse = b :: bs := by
          cases hx : (w :: rest).reverse with
          | nil =>
            have hlen : (w :: rest).length = 0 := by
              rw [← List.length_reverse, hx]; rfl
            simp at hlen
          | cons b bs => exact ⟨b, bs, rfl⟩
        have hbmem : b ∈ w :: rest := by
          have hm : b ∈ (w :: rest).reverse := by rw [hb]; exact List.mem_cons_self _ _
          exact List.mem_reverse.mp hm
        have : isPyWs b = false := by
          apply hl b (bs ++ r)
          rw [← hr, hb]
          simp
        rw [hall b hbmem] at this
        cases this
      have hheadr2 : ∀ c u, (w :: rest).dropWhile isPyWs = c :: u → isPyWs c = false := by
        intro c u h
        exact dropWhile_head_false isPyWs h
      have hIH := ih ((w :: rest).dropWhile isPyWs) hheadr2 hlastl
      have hSne := splitWsMax_ne_nil n ((w :: rest).dropWhile isPyWs)
      constructor
      · intro t ht
        cases hS : splitWsMax n ((w :: rest).dropWhile isPyWs) with
        | nil => exact absurd hS hSne
        | cons s ss =>
          rw [hS, List.dropLast_cons₂] at ht
          rcases List.mem_cons.mp ht with h | h
          · rw [h]; exact htokok
          · exact hIH.1 t (by rw [hS]; exact h)
      · intro t ht _
        have hgl : (l.takeWhile (fun c => !isPyWs c) ::
            splitWsMax n ((w :: rest).dropWhile isPyWs)).getLast? =
            (splitWsMax n ((w :: rest).dropWhile isPyWs)).getLast? := by
          cases hS : splitWsMax n ((w :: rest).dropWhile isPyWs) with
          | nil => exact absurd hS hSne
          | cons s ss => exact List.getLast?_cons_cons ..
        rw [hgl] at ht
        exact hIH.2 t ht hr2ne

/-! ### Lemmas: decimal rendering and parsing -/

theorem splitSep1_exact {sep : Char} {k v : Str}
    (hk : k.all (fun c => !(c == sep)) = true) :
    splitSep1 sep (k ++ sep :: v) = [k, v] := by
  unfold splitSep1
  rw [dropWhile_append_all hk, dropWhile_cons_neg (by simp), takeWhile_append_all hk,
    takeWhile_cons_neg (by simp), List.append_nil]


theorem digit_toNat {c : Char} (h : (digitVal? c).isSome = true) :
    48 ≤ c.toNat ∧ c.toNat ≤ 57 := by
  unfold digitVal? at h
  by_cases hc : 48 ≤ c.toNat ∧ c.toNat ≤ 57
  · exact hc
  · rw [if_neg hc] at h; simp at h

theorem char_beq_false_of_toNat {c x : Char} (hx : c.toNat ≠ x.toNat) : (c == x) = false := by
  rw [beq_eq_false_iff_ne]
  intro he
  subst he
  exact hx rfl

theorem not_ws_of_toNat {c : Char} (h1 : 31 < c.toNat) (h2 : c.toNat ≠ 32) :
    isPyWs c = false := by
  unfold isPyWs
  rw [char_beq_false_of_toNat (x := ' ') (show c.toNat ≠ 32 from h2),
    char_beq_false_of_toNat (x := '\t') (show c.toNat ≠ 9 by omega),
    char_beq_false_of_toNat (x := '\n') (show c.toNat ≠ 10 by omega),
    char_beq_false_of_toNat (x := '\r') (show c.toNat ≠ 13 by omega),
    char_beq_false_of_toNat (x := '\x0b') (show c.toNat ≠ 11 by omega),
    char_beq_false_of_toNat (x := '\x0c') (show c.toNat ≠ 12 by omega)]
  rfl

theorem digit_not_ws {c : Char} (h : (digitVal? c).isSome = true) : isPyWs c = false := by
  have ht := digit_toNat h
  exact not_ws_of_toNat (by omega) (by omega)

theorem decDigit_val {d : Nat} (h : d < 10) : digitVal? (decDigit d) = some d := by
  interval_cases d <;> decide

theorem decDigit_isSome {d : Nat} (h : d < 10) : (digitVal? (decDigit d)).isSome = true := by
  rw [decDigit_val h]; rfl

/-- The value accumulated by scanning digits with seed `acc`. -/
def digitsValFrom (acc : Nat) (l : Str) : Nat :=
  l.foldl (fun a c => 10 * a + (digitVal? c).getD 0) acc

theorem digitsValFrom_append (acc : Nat) (l1 l2 : Str) :
    digitsValFrom acc (l1 ++ l2) = digitsValFrom (digitsValFrom acc l1) l2 := by
  unfold digitsValFrom
  exact List.foldl_append ..

theorem digitsValFrom_acc :
    ∀ (l : Str) (acc : Nat), digitsValFrom acc l = acc * 10 ^ l.length + digitsValFrom 0 l := by
  intro l
  induction l with
  | nil => intro acc; simp [digitsValFrom]
  | cons c cs ih =>
    intro acc
    have h1 : ∀ a : Nat, digitsValFrom a (c :: cs) =
        digitsValFrom (10 * a + (digitVal? c).getD 0) cs := fun a => rfl
    rw [h1, h1, ih, ih (10 * 0 + (digitVal? c).getD 0)]
    simp only [List.length_cons]
    ring

/-- Specification of `natDecAux`: with positive, sufficient fuel it renders a
nonempty digit string of bounded length with the right value. -/
theorem natDecAux_spec :
    ∀ (fuel n : Nat), 0 < fuel → n < 10 ^ fuel →
      natDecAux fuel n ≠ [] ∧
      (natDecAux fuel n).all (fun c => (digitVal? c).isSome) = true ∧
      (natDecAux fuel n).length ≤ fuel ∧
      digitsValFrom 0 (natDecAux fuel n) = n := by
  intro fuel
  induction fuel with
  | zero => intro n hpos _; simp at hpos
  | succ fuel ih =>
    intro n _ h
    by_cases h10 : n < 10
    · rw [natDecAux, if_pos h10]
      refine ⟨by simp, by simp [decDigit_isSome h10], by simp, ?_⟩
      show digitsValFrom 0 [decDigit n] = n
      simp [digitsValFrom, decDigit_val h10]
    · rw [natDecAux, if_neg h10]
      have hfpos : 0 < fuel := by
        rcases Nat.eq_zero_or_pos fuel with hf | hf
        · subst hf; simp at h; omega
        · exact hf
      have hdivlt : n / 10 < 10 ^ fuel := by
        have hlt : n < 10 ^ fuel * 10 := by
          calc n < 10 ^ (fuel + 1) := h
          _ = 10 ^ fuel * 10 := by ring
        omega
      rcases ih (n / 10) hfpos hdivlt with ⟨hne, hall, hlen, hval⟩
      have hmod : n % 10 < 10 := Nat.mod_lt _ (by omega)
      refine ⟨by simp, ?_, ?_, ?_⟩
      · rw [List.all_append]
        simp only [Bool.and_eq_true]
        exact ⟨hall, by simp [decDigit_isSome hmod]⟩
      · rw [List.length_append]
        simp only [List.length_singleton]
        omega
      · rw [digitsValFrom_append, hval]
        have hstep : digitsValFrom (n / 10) [decDigit (n % 10)] =
            10 * (n / 10) + n % 10 := by
          show 10 * (n / 10) + (digitVal? (decDigit (n % 10))).getD 0 = _
          rw [decDigit_val hmod]
          rfl
        rw [hstep]
        omega

theorem nat_lt_pow10 (n : Nat) : n < 10 ^ (n + 1) := by
  calc n < 2 ^ n := Nat.lt_two_pow n
  _ ≤ 10 ^ n := Nat.pow_le_pow_left (by omega) n
  _ ≤ 10 ^ (n + 1) := Nat.pow_le_pow_right (by omega) (by omega)

theorem natDec_ne_nil (n : Nat) : natDec n ≠ [] :=
  (natDecAux_spec (n + 1) n (by omega) (nat_lt_pow10 n)).1

theorem natDec_all_digits (n : Nat) :
    (natDec n).all (fun c => (digitVal? c).isSome) = true :=
  (natDecAux_spec (n + 1) n (by omega) (nat_lt_pow10 n)).2.1

theorem natDec_val (n : Nat) : digitsValFrom 0 (natDec n) = n :=
  (natDecAux_spec (n + 1) n (by omega) (nat_lt_pow10 n)).2.2.2

/-- The rendering does not depend on the fuel once it is sufficient. -/
theorem natDecAux_fuel_eq :
    ∀ (f1 : Nat), ∀ (f2 n : Nat), 0 < f1 → 0 < f2 → n < 10 ^ f1 → n < 10 ^ f2 →
      natDecAux f1 n = natDecAux f2 n := by
  intro f1
  induction f1 with
  | zero => intro f2 n hp _ _ _; simp at hp
  | succ f1 ih =>
    intro f2 n _ hp2 h1 h2
    cases f2 with
    | zero => simp at hp2
    | succ f2 =>
      by_cases h10 : n < 10
      · rw [natDecAux, natDecAux, if_pos h10, if_pos h10]
      · have hf1 : 0 < f1 := by
          rcases Nat.eq_zero_or_pos f1 with hf | hf
          · subst hf; simp at h1; omega
          · exact hf
        have hf2 : 0 < f2 := by
          rcases Nat.eq_zero_or_pos f2 with hf | hf
          · subst hf; simp at h2; omega
          · exact hf
        rw [natDecAux, natDecAux, if_neg h10, if_neg h10]
        congr 1
        apply ih _ _ hf1 hf2
        · have hlt : n < 10 ^ f1 * 10 := by
            calc n < 10 ^ (f1 + 1) := h1
            _ = 10 ^ f1 * 10 := by ring
          omega
        · have hlt : n < 10 ^ f2 * 10 := by
            calc n < 10 ^ (f2 + 1) := h2
            _ = 10 ^ f2 * 10 := by ring
          omega

/-- `natDec` stays within `k` characters whenever `n < 10 ^ k`, `k > 0`. -/
theorem natDec_length_le {n k : Nat} (hk : 0 < k) (h : n < 10 ^ k) :
    (natDec n).length ≤ k := by
  have heq : natDec n = natDecAux k n :=
    natDecAux_fuel_eq (n + 1) k n (by omega) hk (nat_lt_pow10 n) h
  rw [heq]
  exact (natDecAux_spec k n hk h).2.2.1

theorem scanDigits_eq :
    ∀ (ds : Str) (acc cnt : Nat) (r : Str),
      ds.all (fun c => (digitVal? c).isSome) = true →
      (∀ c u, r = c :: u → digitVal? c = none) →
      scanDigits (ds ++ r) acc cnt = (digitsValFrom acc ds, cnt + ds.length, r) := by
  intro ds
  induction ds with
  | nil =>
    intro acc cnt r _ hr
    cases r with
    | nil => rfl
    | cons c u =>
      show scanDigits (c :: u) acc cnt = _
      rw [scanDigits, hr c u rfl]
      rfl
  | cons d ds ih =>
    intro acc cnt r hall hr
    rcases Bool.and_eq_true .. |>.mp (List.all_cons .. ▸ hall) with ⟨h1, h2⟩
    obtain ⟨v, hv⟩ : ∃ v, digitVal? d = some v := Option.isSome_iff_exists.mp h1
    show scanDigits (d :: (ds ++ r)) acc cnt = _
    rw [scanDigits, hv]
    show scanDigits (ds ++ r) (10 * acc + v) (cnt + 1) = _
    rw [ih (10 * acc + v) (cnt + 1) r h2 hr]
    have hfrom : digitsValFrom acc (d :: ds) = digitsValFrom (10 * acc + v) ds := by
      show digitsValFrom (10 * acc + (digitVal? d).getD 0) ds = _
      rw [hv]
      rfl
    rw [hfrom]
    have hcnt : cnt + 1 + ds.length = cnt + (d :: ds).length := by
      simp only [List.length_cons]
      omega
    rw [hcnt]

theorem scanDigits_all (ds : Str) (acc cnt : Nat)
    (h : ds.all (fun c => (digitVal? c).isSome) = true) :
    scanDigits ds acc cnt = (digitsValFrom acc ds, cnt + ds.length, []) := by
  have := scanDigits_eq ds acc cnt [] h (by intro c u hc; cases hc)
  simpa using this

theorem dropWhile_of_all_neg {p : Char → Bool} :
    ∀ {l : Str}, l.all (fun c => !p c) = true → l.dropWhile p = l := by
  intro l
  induction l with
  | nil => intro _; rfl
  | cons c cs _ =>
    intro h
    rcases Bool.and_eq_true .. |>.mp (List.all_cons .. ▸ h) with ⟨h1, _⟩
    exact dropWhile_cons_neg (by simpa using h1) _

theorem stripL_of_all_not_ws {l : Str} (h : l.all (fun c => !isPyWs c) = true) :
    stripL l = l := by
  unfold stripL rstripL
  rw [dropWhile_of_all_neg h, dropWhile_of_all_neg (by simpa using h), List.reverse_reverse]

theorem all_imp {p q : Char → Bool} {l : Str} (h : l.all p = true)
    (himp : ∀ c, p c = true → q c = true) : l.all q = true := by
  rw [List.all_eq_true] at h ⊢
  exact fun c hc => himp c (h c hc)

theorem natDec_all_not_ws (n : Nat) : (natDec n).all (fun c => !isPyWs c) = true :=
  all_imp (natDec_all_digits n) (fun c hc => by rw [digit_not_ws hc]; rfl)

theorem intDec_all_not_ws (i : Int) : (intDec i).all (fun c => !isPyWs c) = true := by
  unfold intDec
  by_cases h : i < 0
  · rw [if_pos h, List.all_cons]
    rw [Bool.and_eq_true]
    exact ⟨by decide, natDec_all_not_ws _⟩
  · rw [if_neg h]
    exact natDec_all_not_ws _

theorem tokOkB_natDec (n : Nat) : tokOkB (natDec n) = true := by
  unfold tokOkB
  rw [Bool.and_eq_true]
  exact ⟨by simpa [List.isEmpty_iff] using natDec_ne_nil n, natDec_all_not_ws n⟩

theorem tokOkB_intDec (i : Int) : tokOkB (intDec i) = true := by
  unfold tokOkB intDec
  rw [Bool.and_eq_true]
  by_cases h : i < 0
  · rw [if_pos h]
    exact ⟨by simp [List.isEmpty_iff], by
      rw [List.all_cons, Bool.and_eq_true]
      exact ⟨by decide, natDec_all_not_ws _⟩⟩
  · rw [if_neg h]
    exact ⟨by simpa [List.isEmpty_iff] using natDec_ne_nil i.natAbs, natDec_all_not_ws _⟩

theorem parseSign_pos (t : Str) : parseSign ('+' :: t) = (1, t) := rfl

theorem parseSign_neg (t : Str) : parseSign ('-' :: t) = (-1, t) := rfl

theorem parseSign_other {l : Str} (h : ∀ c u, l = c :: u → c ≠ '+' ∧ c ≠ '-') :
    parseSign l = (1, l) := by
  unfold parseSign
  split
  · rename_i t
    exact absurd rfl (h '+' t rfl).1
  · rename_i t
    exact absurd rfl (h '-' t rfl).2
  · rfl

theorem parseSign_digit_head {l : Str} {c : Char} {u : Str} (hl : l = c :: u)
    (hc : (digitVal? c).isSome = true) : parseSign l = (1, l) := by
  apply parseSign_other
  intro c' u' hl'
  rw [hl] at hl'
  injection hl' with h1 _
  subst h1
  have hd := digit_toNat hc
  constructor
  · exact fun he => by subst he; exact absurd hd (by decide)
  · exact fun he => by subst he; exact absurd hd (by decide)

theorem parsePyInt_natDec (n : Nat) : parsePyInt (natDec n) = some n := by
  unfold parsePyInt
  rw [stripL_of_all_not_ws (natDec_all_not_ws n)]
  obtain ⟨c, u, hcu⟩ : ∃ c u, natDec n = c :: u := by
    cases h : natDec n with
    | nil => exact absurd h (natDec_ne_nil n)
    | cons c u => exact ⟨c, u, rfl⟩
  have hc : (digitVal? c).isSome = true := by
    have := natDec_all_digits n
    rw [hcu, List.all_cons, Bool.and_eq_true] at this
    exact this.1
  rw [parseSign_digit_head hcu hc]
  dsimp only
  rw [scanDigits_all _ 0 0 (natDec_all_digits n)]
  dsimp only
  have hlen : (natDec n).length ≠ 0 := by
    intro h
    exact natDec_ne_nil n (List.eq_nil_of_length_eq_zero h)
  rw [natDec_val n]
  simp only [Nat.zero_add]
  rw [if_neg (by simpa using hlen)]
  simp

theorem parsePyInt_intDec (i : Int) : parsePyInt (intDec i) = some i := by
  by_cases h : i < 0
  · unfold parsePyInt intDec
    rw [if_pos h]
    have hstrip : stripL ('-' :: natDec i.natAbs) = '-' :: natDec i.natAbs := by
      apply stripL_of_all_not_ws
      rw [List.all_cons, Bool.and_eq_true]
      exact ⟨by decide, natDec_all_not_ws _⟩
    rw [hstrip, parseSign_neg]
    dsimp only
    rw [scanDigits_all _ 0 0 (natDec_all_digits _)]
    dsimp only
    have hlen : (natDec i.natAbs).length ≠ 0 := by
      intro hc
      exact natDec_ne_nil _ (List.eq_nil_of_length_eq_zero hc)
    rw [natDec_val]
    simp only [Nat.zero_add]
    rw [if_neg (by simpa using hlen)]
    congr 1
    omega
  · unfold intDec
    rw [if_neg h]
    rw [parsePyInt_natDec]
    exact congrArg some (Int.natAbs_of_nonneg (by omega))

theorem digitsValFrom_replicate_zero :
    ∀ k : Nat, digitsValFrom 0 (List.replicate k '0') = 0 := by
  intro k
  induction k with
  | zero => rfl
  | succ k ih =>
    rw [List.replicate_succ]
    show digitsValFrom (10 * 0 + (digitVal? '0').getD 0) (List.replicate k '0') = 0
    have h : (10 : Nat) * 0 + (digitVal? '0').getD 0 = 0 := by decide
    rw [h, ih]

theorem toLower_of_lt {c : Char} (h : c.toNat < 65) : Char.toLower c = c := by
  unfold Char.toLower
  rw [if_neg (by omega)]

theorem lowerEq_false_head {c : Char} {t : Str} {d : Char} {s : Str}
    (h : Char.toLower c ≠ d) : lowerEq (c :: t) (d :: s) = false := by
  unfold lowerEq
  rw [List.map_cons, beq_eq_false_iff_ne]
  intro heq
  injection heq with h1 _
  exact h h1

/-- A string headed by a digit or a dot fails all three of the
`inf`/`infinity`/`nan` literal checks of `float()`. -/
theorem lowerEq_literals_false {c : Char} {t : Str} (h : c.toNat < 65) (hi : c.toNat ≠ 105)
    (hn : c.toNat ≠ 110) :
    lowerEq (c :: t) "inf".data = false ∧ lowerEq (c :: t) "infinity".data = false ∧
    lowerEq (c :: t) "nan".data = false := by
  have hl := toLower_of_lt h
  refine ⟨?_, ?_, ?_⟩ <;> apply lowerEq_false_head <;> rw [hl]
  · exact fun he => hi (by rw [he]; rfl)
  · exact fun he => hi (by rw [he]; rfl)
  · exact fun he => hn (by rw [he]; rfl)

theorem replicate_all_digits (k : Nat) :
    (List.replicate k '0').all (fun c => (digitVal? c).isSome) = true := by
  rw [List.all_eq_true]
  intro c hc
  rw [List.eq_of_mem_replicate hc]
  decide

/-- `parsePyFloat` recovers exactly the decimal that `decRepr` prints. -/
theorem parsePyFloat_decRepr (d : Dec) : parsePyFloat (decRepr d) = some (.fin d) := by
  obtain ⟨m, e⟩ := d
  set ds2 : Str := List.replicate (e + 1 - (natDec m.natAbs).length) '0' ++ natDec m.natAbs
    with hds2
  have hall2 : ds2.all (fun c => (digitVal? c).isSome) = true := by
    rw [hds2, List.all_append, Bool.and_eq_true]
    exact ⟨replicate_all_digits _, natDec_all_digits _⟩
  have hval2 : digitsValFrom 0 ds2 = m.natAbs := by
    rw [hds2, digitsValFrom_append, digitsValFrom_replicate_zero, natDec_val]
  have hlen2 : e + 1 ≤ ds2.length := by
    rw [hds2, List.length_append, List.length_replicate]
    have := natDec_ne_nil m.natAbs
    have hpos : 0 < (natDec m.natAbs).length := List.length_pos.mpr this
    omega
  set A : Str := ds2.take (ds2.length - e) with hA
  set B : Str := ds2.drop (ds2.length - e) with hB
  have hAB : A ++ B = ds2 := by rw [hA, hB]; exact List.take_append_drop ..
  have hAlen : A.length = ds2.length - e := by
    rw [hA, List.length_take]
    omega
  have hBlen : B.length = e := by
    rw [hB, List.length_drop]
    omega
  have hAall : A.all (fun c => (digitVal? c).isSome) = true := by
    rw [← hAB, List.all_append, Bool.and_eq_true] at hall2
    exact hall2.1
  have hBall : B.all (fun c => (digitVal? c).isSome) = true := by
    rw [← hAB, List.all_append, Bool.and_eq_true] at hall2
    exact hall2.2
  obtain ⟨a0, A', hA'⟩ : ∃ a0 A', A = a0 :: A' := by
    cases hAc : A with
    | nil =>
      have : A.length = 0 := by rw [hAc]; rfl
      omega
    | cons a0 A' => exact ⟨a0, A', rfl⟩
  have ha0 : (digitVal? a0).isSome = true := by
    rw [hA', List.all_cons, Bool.and_eq_true] at hAall
    exact hAall.1
  have ha0n := digit_toNat ha0
  -- the body after the optional sign
  have hbody : ∀ sgn : Int, sgn = 1 ∨ sgn = -1 →
      (match scanDigits (A ++ '.' :: B) 0 0 with
        | (ip, ni, rest1) =>
          match rest1 with
          | '.' :: t =>
            match scanDigits t 0 0 with
            | (fp, nf, rest2) =>
              if (ni + nf == 0) = true then none
              else parseExpPart (sgn * ((ip : Int) * (10 : Int) ^ nf + fp)) nf rest2
          | _ => if (ni == 0) = true then none
            else parseExpPart (sgn * ip) 0 rest1) =
        some (.fin ⟨sgn * m.natAbs, e⟩) := by
    intro sgn _
    rw [scanDigits_eq A 0 0 ('.' :: B) hAall (by
      intro c u hcu
      injection hcu with h1 _
      subst h1
      decide)]
    dsimp only
    have hmant : sgn * ((digitsValFrom 0 A : Int) * (10 : Int) ^ (0 + B.length) +
        (digitsValFrom 0 B : Int)) = sgn * m.natAbs := by
      have hsplit : digitsValFrom 0 A * 10 ^ B.length + digitsValFrom 0 B = m.natAbs := by
        rw [← hval2, ← hAB, digitsValFrom_append, digitsValFrom_acc B (digitsValFrom 0 A)]
      rw [Nat.zero_add]
      have hcast : (digitsValFrom 0 A : Int) * (10 : Int) ^ B.length +
          (digitsValFrom 0 B : Int) =
          ((digitsValFrom 0 A * 10 ^ B.length + digitsValFrom 0 B : Nat) : Int) := by
        push_cast
        ring
      rw [hcast, hsplit]
    split
    · rename_i t heq
      injection heq with h1 h2
      subst h2
      rw [scanDigits_all B 0 0 hBall]
      dsimp only
      rw [if_neg (by rw [hA']; simp)]
      unfold parseExpPart
      dsimp only
      rw [Nat.zero_add, hBlen] at hmant ⊢
      rw [hmant]
    · rename_i hne
      exact absurd rfl (hne B)
  by_cases hm : m < 0
  · have hrepr : decRepr ⟨m, e⟩ = '-' :: (A ++ '.' :: B) := by
      unfold decRepr
      rw [if_pos hm]
      rfl
    rw [hrepr]
    unfold parsePyFloat
    have hstrip : stripL ('-' :: (A ++ '.' :: B)) = '-' :: (A ++ '.' :: B) := by
      apply stripL_of_all_not_ws
      rw [List.all_cons, Bool.and_eq_true]
      refine ⟨by decide, ?_⟩
      rw [List.all_append, Bool.and_eq_true]
      refine ⟨all_imp hAall (fun c hc => by rw [digit_not_ws hc]; rfl), ?_⟩
      rw [List.all_cons, Bool.and_eq_true]
      exact ⟨by decide, all_imp hBall (fun c hc => by rw [digit_not_ws hc]; rfl)⟩
    rw [hstrip, parseSign_neg]
    dsimp only
    rw [hA', List.cons_append]
    rcases lowerEq_literals_false (c := a0) (t := A' ++ '.' :: B) (by omega) (by omega)
      (by omega) with ⟨hf1, hf2, hf3⟩
    rw [hf1, hf2, hf3]
    rw [if_neg (by decide), if_neg (by decide)]
    rw [← List.cons_append, ← hA']
    have hb := hbody (-1) (Or.inr rfl)
    have hmm : (-1 : Int) * m.natAbs = m := by omega
    rw [hmm] at hb
    exact hb
  · have hrepr : decRepr ⟨m, e⟩ = A ++ '.' :: B := by
      unfold decRepr
      rw [if_neg hm]
      rfl
    rw [hrepr]
    unfold parsePyFloat
    have hstrip : stripL (A ++ '.' :: B) = A ++ '.' :: B := by
      apply stripL_of_all_not_ws
      rw [List.all_append, Bool.and_eq_true]
      refine ⟨all_imp hAall (fun c hc => by rw [digit_not_ws hc]; rfl), ?_⟩
      rw [List.all_cons, Bool.and_eq_true]
      exact ⟨by decide, all_imp hBall (fun c hc => by rw [digit_not_ws hc]; rfl)⟩
    rw [hstrip]
    rw [parseSign_digit_head (by rw [hA']; rfl) ha0]
    dsimp only
    rw [hA', List.cons_append]
    rcases lowerEq_literals_false (c := a0) (t := A' ++ '.' :: B) (by omega) (by omega)
      (by omega) with ⟨hf1, hf2, hf3⟩
    rw [hf1, hf2, hf3]
    rw [if_neg (by decide), if_neg (by decide)]
    rw [← List.cons_append, ← hA']
    have hb := hbody 1 (Or.inl rfl)
    have hmm : (1 : Int) * m.natAbs = m := by omega
    rw [hmm] at hb
    exact hb

/-! ### Lemmas: the total orders used by `sorted` -/

theorem char_toNat_inj {a b : Char} (h : a.toNat = b.toNat) : a = b := by
  have h2 := congrArg Char.ofNat h
  rwa [Char.ofNat_toNat, Char.ofNat_toNat] at h2

theorem lexLtB_irrefl : ∀ l : Str, lexLtB l l = false := by
  intro l
  induction l with
  | nil => rfl
  | cons c cs ih =>
    show lexLtB (c :: cs) (c :: cs) = false
    rw [lexLtB, if_pos (by simp)]
    exact ih

theorem lexLtB_asymm : ∀ {a b : Str}, lexLtB a b = true → lexLtB b a = false := by
  intro a
  induction a with
  | nil =>
    intro b h
    cases b with
    | nil => simpa [lexLtB] using h
    | cons c cs => rfl
  | cons x xs ih =>
    intro b h
    cases b with
    | nil => simp [lexLtB] at h
    | cons y ys =>
      rw [lexLtB] at h ⊢
      by_cases hxy : x = y
      · subst hxy
        rw [if_pos (by simp)] at h ⊢
        exact ih h
      · rw [if_neg (by simpa using hxy)] at h
        rw [if_neg (by simpa using fun he => hxy he.symm)]
        unfold chLtB at h ⊢
        simp only [decide_eq_true_eq] at h
        simpa using by omega

theorem lexLtB_trans : ∀ {a b c : Str}, lexLtB a b = true → lexLtB b c = true →
    lexLtB a c = true := by
  intro a
  induction a with
  | nil =>
    intro b c hab hbc
    cases b with
    | nil => simp [lexLtB] at hab
    | cons y ys =>
      cases c with
      | nil => simp [lexLtB] at hbc
      | cons z zs => rfl
  | cons x xs ih =>
    intro b c hab hbc
    cases b with
    | nil => simp [lexLtB] at hab
    | cons y ys =>
      cases c with
      | nil => simp [lexLtB] at hbc
      | cons z zs =>
        rw [lexLtB] at hab hbc ⊢
        by_cases hxy : x = y
        · subst hxy
          rw [if_pos (by simp)] at hab
          by_cases hyz : x = z
          · subst hyz
            rw [if_pos (by simp)] at hbc ⊢
            exact ih hab hbc
          · rw [if_neg (by simpa using hyz)] at hbc ⊢
            exact hbc
        · rw [if_neg (by simpa using hxy)] at hab
          by_cases hyz : y = z
          · subst hyz
            rw [if_neg (by simpa using hxy)]
            exact hab
          · rw [if_neg (by simpa using hyz)] at hbc
            by_cases hxz : x = z
            · subst hxz
              unfold chLtB at hab hbc
              simp only [decide_eq_true_eq] at hab hbc
              omega
            · rw [if_neg (by simpa using hxz)]
              unfold chLtB at hab hbc ⊢
              simp only [decide_eq_true_eq] at hab hbc ⊢
              omega

theorem lexLtB_connex : ∀ {a b : Str}, lexLtB a b = false → lexLtB b a = false → a = b := by
  intro a
  induction a with
  | nil =>
    intro b hab _
    cases b with
    | nil => rfl
    | cons y ys => simp [lexLtB] at hab
  | cons x xs ih =>
    intro b hab hba
    cases b with
    | nil => simp [lexLtB] at hba
    | cons y ys =>
      rw [lexLtB] at hab hba
      by_cases hxy : x = y
      · subst hxy
        rw [if_pos (by simp)] at hab hba
        rw [ih hab hba]
      · rw [if_neg (by simpa using hxy)] at hab
        rw [if_neg (by simpa using fun he => hxy he.symm)] at hba
        unfold chLtB at hab hba
        simp only [decide_eq_false_iff_not, decide_eq_true_eq] at hab hba
        exact absurd (char_toNat_inj (by omega)) hxy

instance : IsTotal (Str × α) keyLe where
  total p q := by
    unfold keyLe strLeB
    by_cases h : lexLtB q.1 p.1 = true
    · right
      rw [lexLtB_asymm h]
      rfl
    · left
      rw [Bool.not_eq_true] at h
      rw [h]
      rfl

instance : IsTrans (Str × α) keyLe where
  trans p q r hpq hqr := by
    unfold keyLe strLeB at hpq hqr ⊢
    rw [Bool.not_eq_eq_eq_not, Bool.not_true] at hpq hqr ⊢
    by_cases hrp : lexLtB r.1 p.1 = true
    · by_cases hpq2 : lexLtB p.1 q.1 = true
      · rw [lexLtB_trans hrp hpq2] at hqr
        cases hqr
      · rw [Bool.not_eq_true] at hpq2
        have := lexLtB_connex hpq2 hpq
        rw [← this] at hqr
        rw [hqr] at hrp
        cases hrp
    · rw [Bool.not_eq_true] at hrp
      exact hrp

theorem strLeB_total (a b : Str) : strLeB a b = true ∨ strLeB b a = true := by
  unfold strLeB
  by_cases h : lexLtB b a = true
  · right
    rw [lexLtB_asymm h]
    rfl
  · left
    rw [Bool.not_eq_true] at h
    rw [h]
    rfl

theorem strLeB_trans {a b c : Str} (hab : strLeB a b = true) (hbc : strLeB b c = true) :
    strLeB a c = true := by
  unfold strLeB at hab hbc ⊢
  rw [Bool.not_eq_eq_eq_not, Bool.not_true] at hab hbc ⊢
  by_cases hca : lexLtB c a = true
  · by_cases hab2 : lexLtB a b = true
    · rw [lexLtB_trans hca hab2] at hbc
      cases hbc
    · rw [Bool.not_eq_true] at hab2
      have heq := lexLtB_connex hab2 hab
      rw [← heq] at hbc
      rw [hbc] at hca
      cases hca
  · rw [Bool.not_eq_true] at hca
    exact hca

instance : IsTotal (RKey × MRec) rkeyLe where
  total p q := strLeB_total p.1.text q.1.text

instance : IsTrans (RKey × MRec) rkeyLe where
  trans _ _ _ hpq hqr := strLeB_trans hpq hqr

/-- The rational value of a decimal, used only to transfer order facts. -/
def Dec.toQ (d : Dec) : ℚ := (d.m : ℚ) / (10 : ℚ) ^ d.e

theorem decLtB_iff {a b : Dec} : decLtB a b = true ↔ a.toQ < b.toQ := by
  unfold decLtB Dec.toQ
  rw [decide_eq_true_iff]
  rw [div_lt_div_iff (by positivity) (by positivity)]
  constructor <;> intro h
  · exact_mod_cast h
  · exact_mod_cast h

theorem decEqvB_iff {a b : Dec} : decEqvB a b = true ↔ a.toQ = b.toQ := by
  unfold decEqvB Dec.toQ
  rw [beq_iff_eq]
  rw [div_eq_div_iff (by positivity) (by positivity)]
  constructor <;> intro h
  · exact_mod_cast h
  · exact_mod_cast h

theorem finfEqB_refl (a : FinF) : finfEqB a a = true := by
  cases a with
  | ninf => rfl
  | pinf => rfl
  | fin d => exact decEqvB_iff.mpr rfl

theorem finfEqB_symm {a b : FinF} (h : finfEqB a b = true) : finfEqB b a = true := by
  cases a <;> cases b <;> simp_all [finfEqB] <;>
    exact decEqvB_iff.mpr (decEqvB_iff.mp (by assumption)).symm

theorem finfEqB_trans {a b c : FinF} (h1 : finfEqB a b = true) (h2 : finfEqB b c = true) :
    finfEqB a c = true := by
  cases a <;> cases b <;> cases c <;> simp_all [finfEqB] <;>
    exact decEqvB_iff.mpr ((decEqvB_iff.mp (by assumption)).trans (decEqvB_iff.mp (by assumption)))

theorem finfLtB_asymm {a b : FinF} (h : finfLtB a b = true) : finfLtB b a = false := by
  cases a <;> cases b <;> simp_all [finfLtB]
  · rename_i d1 d2
    rw [decLtB_iff] at h
    rw [← Bool.not_eq_true, decLtB_iff]
    exact not_lt.mpr (le_of_lt h)

theorem finfLtB_trans {a b c : FinF} (h1 : finfLtB a b = true) (h2 : finfLtB b c = true) :
    finfLtB a c = true := by
  cases a <;> cases b <;> cases c <;> simp_all [finfLtB]
  rw [decLtB_iff] at h1 h2 ⊢
  exact h1.trans h2

theorem finfLtB_of_eqv_lt {a b c : FinF} (he : finfEqB a b = true) (h : finfLtB b c = true) :
    finfLtB a c = true := by
  cases a <;> cases b <;> cases c <;> simp_all [finfLtB, finfEqB]
  rw [decEqvB_iff] at he
  rw [decLtB_iff] at h ⊢
  rw [he]
  exact h

theorem finfLtB_of_lt_eqv {a b c : FinF} (h : finfLtB a b = true) (he : finfEqB b c = true) :
    finfLtB a c = true := by
  cases a <;> cases b <;> cases c <;> simp_all [finfLtB, finfEqB]
  rw [decEqvB_iff] at he
  rw [decLtB_iff] at h ⊢
  rw [← he]
  exact h

theorem finf_trichotomy {a b : FinF} (h1 : finfLtB a b = false) (h2 : finfLtB b a = false) :
    finfEqB a b = true := by
  cases a <;> cases b <;> simp_all [finfLtB, finfEqB]
  rename_i d1 d2
  rw [← Bool.not_eq_true, decLtB_iff] at h1 h2
  rw [decEqvB_iff]
  exact le_antisymm (not_lt.mp h2) (not_lt.mp h1)

theorem finf_eqv_lt_false {a b : FinF} (he : finfEqB a b = true) : finfLtB a b = false := by
  cases a <;> cases b <;> simp_all [finfLtB, finfEqB]
  rw [decEqvB_iff] at he
  rw [← Bool.not_eq_true, decLtB_iff, he]
  exact lt_irrefl _

theorem finfEqB_congr_right {a b : FinF} (h : finfEqB a b = true) (c : FinF) :
    finfEqB c a = finfEqB c b := by
  cases hx : finfEqB c a with
  | true => exact (finfEqB_trans hx h).symm
  | false =>
    cases hy : finfEqB c b with
    | true => rw [← hx, finfEqB_trans hy (finfEqB_symm h)]
    | false => rfl

theorem finfLtB_congr_right {a b : FinF} (h : finfEqB a b = true) (c : FinF) :
    finfLtB c a = finfLtB c b := by
  cases hx : finfLtB c a with
  | true => exact (finfLtB_of_lt_eqv hx h).symm
  | false =>
    cases hy : finfLtB c b with
    | true => rw [← hx, finfLtB_of_lt_eqv hy (finfEqB_symm h)]
    | false => rfl

theorem rpLtB_asymm {p q : FinF × REnt} (h : rpLtB p q = true) : rpLtB q p = false := by
  unfold rpLtB at h ⊢
  by_cases he : finfEqB p.1 q.1 = true
  · rw [if_pos he] at h
    rw [if_pos (finfEqB_symm he), lexLtB_asymm h]
  · rw [if_neg he] at h
    have hne : finfEqB q.1 p.1 = false := by
      cases hx : finfEqB q.1 p.1 with
      | true => exact absurd (finfEqB_symm hx) (by simpa using he)
      | false => rfl
    rw [hne]
    simp only [if_false, Bool.false_eq_true]
    exact finfLtB_asymm h

theorem rpLtB_trans {p q r : FinF × REnt} (h1 : rpLtB p q = true) (h2 : rpLtB q r = true) :
    rpLtB p r = true := by
  unfold rpLtB at h1 h2 ⊢
  by_cases e1 : finfEqB p.1 q.1 = true <;> by_cases e2 : finfEqB q.1 r.1 = true
  · rw [if_pos e1] at h1
    rw [if_pos e2] at h2
    rw [if_pos (finfEqB_trans e1 e2)]
    exact lexLtB_trans h1 h2
  · rw [if_pos e1] at h1
    rw [if_neg e2] at h2
    have hne : finfEqB p.1 r.1 = false := by
      cases hx : finfEqB p.1 r.1 with
      | true => exact absurd (finfEqB_trans (finfEqB_symm e1) hx) (by simpa using e2)
      | false => rfl
    rw [hne]
    simp only [if_false, Bool.false_eq_true]
    exact finfLtB_of_eqv_lt e1 h2
  · rw [if_neg e1] at h1
    rw [if_pos e2] at h2
    have hne : finfEqB p.1 r.1 = false := by
      cases hx : finfEqB p.1 r.1 with
      | true => exact absurd (finfEqB_trans hx (finfEqB_symm e2)) (by simpa using e1)
      | false => rfl
    rw [hne]
    simp only [if_false, Bool.false_eq_true]
    exact finfLtB_of_lt_eqv h1 e2
  · rw [if_neg e1] at h1
    rw [if_neg e2] at h2
    have hlt := finfLtB_trans h1 h2
    have hne : finfEqB p.1 r.1 = false := by
      cases hx : finfEqB p.1 r.1 with
      | true =>
        have := finfLtB_of_eqv_lt (finfEqB_symm hx) h1
        rw [finfLtB_asymm h2] at this
        cases this
      | false => rfl
    rw [hne]
    simp only [if_false, Bool.false_eq_true]
    exact hlt

/-- Two entries neither of which sorts below the other are interchangeable
on the left of the comparison. -/
theorem rpLtB_congr_left {p q : FinF × REnt} (h1 : rpLtB p q = false) (h2 : rpLtB q p = false)
    (r : FinF × REnt) : rpLtB r p = rpLtB r q := by
  unfold rpLtB at h1 h2 ⊢
  by_cases he : finfEqB p.1 q.1 = true
  · rw [if_pos he] at h1
    rw [if_pos (finfEqB_symm he)] at h2
    have htxt : p.2.text = q.2.text := lexLtB_connex h1 h2
    rw [htxt, finfEqB_congr_right (finfEqB_symm he) r.1, finfLtB_congr_right (finfEqB_symm he) r.1]
  · rw [if_neg he] at h1
    have hne : finfEqB q.1 p.1 = false := by
      cases hx : finfEqB q.1 p.1 with
      | true => exact absurd (finfEqB_symm hx) (by simpa using he)
      | false => rfl
    rw [hne] at h2
    simp only [if_false, Bool.false_eq_true] at h2
    exact absurd (finf_trichotomy h1 h2) (by simpa using he)

instance : IsTotal (FinF × REnt) rpLe where
  total p q := by
    unfold rpLe
    by_cases h : rpLtB q p = true
    · right
      exact rpLtB_asymm h
    · left
      rw [Bool.not_eq_true] at h
      exact h

instance : IsTrans (FinF × REnt) rpLe where
  trans p q r hpq hqr := by
    unfold rpLe at hpq hqr ⊢
    by_cases hrp : rpLtB r p = true
    · by_cases hpq2 : rpLtB p q = true
      · rw [rpLtB_trans hrp hpq2] at hqr
        cases hqr
      · rw [Bool.not_eq_true] at hpq2
        rw [← rpLtB_congr_left hpq2 hpq r] at hqr
        rw [hqr] at hrp
        cases hrp
    · rw [Bool.not_eq_true] at hrp
      exact hrp

/-! ### Lemmas: association lists as Python dicts -/

theorem strEqB_iff (a b : Str) : strEqB a b = true ↔ a = b := by
  unfold strEqB
  exact beq_iff_eq

theorem rkEqB_iff (a b : RKey) : rkEqB a b = true ↔ a.text = b.text := by
  unfold rkEqB
  exact beq_iff_eq

theorem luB_eq_none_iff {keq : κ → κ → Bool} :
    ∀ {t : List (κ × α)} {q : κ},
      luB keq t q = none ↔ ∀ p ∈ t, keq p.1 q = false := by
  intro t q
  induction t with
  | nil => simp [luB]
  | cons p ps ih =>
    rw [luB]
    by_cases h : keq p.1 q = true
    · rw [if_pos h]
      simp only [List.mem_cons]
      constructor
      · intro hc; cases hc
      · intro hall
        rw [hall p (Or.inl rfl)] at h
        cases h
    · rw [if_neg h, ih]
      simp only [List.mem_cons]
      constructor
      · intro hall p2 hp2
        rcases hp2 with he | hm
        · subst he
          exact Bool.not_eq_true _ |>.mp h
        · exact hall p2 hm
      · intro hall p2 hp2
        exact hall p2 (Or.inr hp2)

theorem luB_append {keq : κ → κ → Bool} {t s : List (κ × α)} {q : κ} :
    luB keq (t ++ s) q = match luB keq t q with
      | some v => some v
      | none => luB keq s q := by
  induction t with
  | nil => rfl
  | cons p ps ih =>
    rw [List.cons_append, luB, luB]
    by_cases h : keq p.1 q = true
    · rw [if_pos h, if_pos h]
    · rw [if_neg h, if_neg h, ih]

theorem setB_absent {keq : κ → κ → Bool} :
    ∀ {t : List (κ × α)} {k : κ} {v : α}, luB keq t k = none →
      setB keq k v t = t ++ [(k, v)] := by
  intro t
  induction t with
  | nil => intro k v _; rfl
  | cons p ps ih =>
    intro k v h
    rw [luB] at h
    by_cases hp : keq p.1 k = true
    · rw [if_pos hp] at h; cases h
    · rw [if_neg hp] at h
      rw [setB, if_neg hp, List.cons_append, ih h]

/-- Looking up after a dict assignment, for key equalities induced by a
projection `fk`. -/
theorem luB_setB {fk : κ → β} [DecidableEq β]
    (hk : ∀ a b : κ, keq a b = true ↔ fk a = fk b) :
    ∀ (t : List (κ × α)) (k q : κ) (v : α),
      luB keq (setB keq k v t) q =
        if fk k = fk q then some v else luB keq t q := by
  intro t
  induction t with
  | nil =>
    intro k q v
    show (if keq k q = true then some v else none) = if fk k = fk q then some v else none
    by_cases h : fk k = fk q
    · rw [if_pos ((hk k q).mpr h), if_pos h]
    · have hkq : keq k q = false := by
        cases hx : keq k q with
        | true => exact absurd ((hk ..).mp hx) h
        | false => rfl
      rw [hkq, if_neg h]
      simp
  | cons p ps ih =>
    intro k q v
    rw [setB]
    by_cases hp : keq p.1 k = true
    · rw [if_pos hp]
      have hfk : fk p.1 = fk k := (hk ..).mp hp
      show (if keq p.1 q = true then some v else luB keq ps q) =
        if fk k = fk q then some v else
          (if keq p.1 q = true then some p.2 else luB keq ps q)
      by_cases hq : fk k = fk q
      · rw [if_pos ((hk ..).mpr (hfk.trans hq)), if_pos hq]
      · have hpq : keq p.1 q = false := by
          cases hx : keq p.1 q with
          | true => exact absurd (hfk.symm.trans ((hk ..).mp hx)) hq
          | false => rfl
        rw [hpq, if_neg hq]
        simp
    · rw [if_neg hp]
      show (if keq p.1 q = true then some p.2 else luB keq (setB keq k v ps) q) =
        if fk k = fk q then some v else
          (if keq p.1 q = true then some p.2 else luB keq ps q)
      by_cases hpq : keq p.1 q = true
      · rw [if_pos hpq]
        by_cases hq2 : fk k = fk q
        · exact absurd ((hk ..).mpr (((hk ..).mp hpq).trans hq2.symm)) hp
        · rw [if_neg hq2, if_pos hpq]
      · rw [if_neg hpq, ih k q v]
        by_cases hq2 : fk k = fk q
        · rw [if_pos hq2, if_pos hq2]
        · rw [if_neg hq2, if_neg hq2, if_neg hpq]

theorem luB_of_mem_nodup {fk : κ → β} [DecidableEq β]
    (hk : ∀ a b : κ, keq a b = true ↔ fk a = fk b) :
    ∀ {t : List (κ × α)} {p : κ × α},
      t.Pairwise (fun a b => keq a.1 b.1 = false) → p ∈ t →
      luB keq t p.1 = some p.2 := by
  intro t
  induction t with
  | nil => intro p _ hp; cases hp
  | cons q qs ih =>
    intro p hnd hp
    rw [List.pairwise_cons] at hnd
    rw [luB]
    rcases List.mem_cons.mp hp with he | hm
    · subst he
      rw [if_pos ((hk ..).mpr rfl)]
    · have : keq q.1 p.1 = false := hnd.1 p hm
      rw [this]
      simp only [Bool.false_eq_true, if_false]
      exact ih hnd.2 hm

theorem luB_eq_some_elim {keq : κ → κ → Bool} :
    ∀ {t : List (κ × α)} {q : κ} {v : α}, luB keq t q = some v →
      ∃ p, p ∈ t ∧ keq p.1 q = true ∧ p.2 = v := by
  intro t
  induction t with
  | nil => intro q v hx; cases hx
  | cons r rs ih =>
    intro q v hx
    rw [luB] at hx
    by_cases hr : keq r.1 q = true
    · rw [if_pos hr] at hx
      injection hx with hx
      exact ⟨r, List.mem_cons_self _ _, hr, hx⟩
    · rw [if_neg hr] at hx
      rcases ih hx with ⟨p, h1, h2, h3⟩
      exact ⟨p, List.mem_cons_of_mem _ h1, h2, h3⟩

theorem luB_eq_some_of_mem {fk : κ → β} [DecidableEq β]
    (hk : ∀ a b : κ, keq a b = true ↔ fk a = fk b) :
    ∀ {t : List (κ × α)} {p : κ × α} {q : κ},
      t.Pairwise (fun a b => keq a.1 b.1 = false) → p ∈ t → keq p.1 q = true →
      luB keq t q = some p.2 := by
  intro t
  induction t with
  | nil => intro p q _ hp _; cases hp
  | cons r rs ih =>
    intro p q hnd hp hq
    rw [List.pairwise_cons] at hnd
    rw [luB]
    rcases List.mem_cons.mp hp with he | hm
    · subst he
      rw [if_pos hq]
    · have hr : keq r.1 q = false := by
        cases hx : keq r.1 q with
        | true =>
          have : keq r.1 p.1 = true := by
            rw [hk]
            exact ((hk ..).mp hx).trans ((hk ..).mp hq).symm
          rw [hnd.1 p hm] at this
          cases this
        | false => rfl
      rw [hr]
      simp only [Bool.false_eq_true, if_false]
      exact ih hnd.2 hm hq

/-- On duplicate-free dicts, lookups are invariant under permutation. -/
theorem luB_perm {fk : κ → β} [DecidableEq β]
    (hk : ∀ a b : κ, keq a b = true ↔ fk a = fk b)
    {t1 t2 : List (κ × α)} (hnd : t1.Pairwise (fun a b => keq a.1 b.1 = false))
    (hp : t1.Perm t2) (q : κ) : luB keq t1 q = luB keq t2 q := by
  have hnd2 : t2.Pairwise (fun a b => keq a.1 b.1 = false) :=
    (hp.pairwise_iff (fun {a b} h => by
      rw [← Bool.not_eq_true] at h ⊢
      intro hc
      exact h ((hk ..).mpr ((hk ..).mp hc).symm))).mp hnd
  cases hx : luB keq t1 q with
  | none =>
    rw [luB_eq_none_iff] at hx
    symm
    rw [luB_eq_none_iff]
    intro p hp2
    exact hx p (hp.mem_iff.mpr hp2)
  | some v =>
    rcases luB_eq_some_elim hx with ⟨p, hpmem, hpk, hpv⟩
    rw [← hpv]
    exact (luB_eq_some_of_mem hk hnd2 (hp.mem_iff.mp hpmem) hpk).symm

theorem nodKeys_perm {keq : κ → κ → Bool} {fk : κ → β} [DecidableEq β]
    (hk : ∀ a b : κ, keq a b = true ↔ fk a = fk b)
    {t1 t2 : List (κ × α)} (hp : t1.Perm t2) (hnd : NodKeys keq t1) : NodKeys keq t2 :=
  (hp.pairwise_iff (fun {a b} h => by
    rw [← Bool.not_eq_true] at h ⊢
    intro hc
    exact h ((hk ..).mpr ((hk ..).mp hc).symm))).mp hnd

theorem mem_setB {keq : κ → κ → Bool} :
    ∀ {t : List (κ × α)} {k : κ} {v : α} {r : κ × α}, r ∈ setB keq k v t →
      (∃ s ∈ t, r.1 = s.1) ∨ r = (k, v) := by
  intro t
  induction t with
  | nil =>
    intro k v r hr
    rcases List.mem_singleton.mp hr with h
    exact Or.inr h
  | cons p ps ih =>
    intro k v r hr
    rw [setB] at hr
    by_cases hp : keq p.1 k = true
    · rw [if_pos hp] at hr
      rcases List.mem_cons.mp hr with he | hm
      · exact Or.inl ⟨p, List.mem_cons_self _ _, by rw [he]⟩
      · exact Or.inl ⟨r, List.mem_cons_of_mem _ hm, rfl⟩
    · rw [if_neg hp] at hr
      rcases List.mem_cons.mp hr with he | hm
      · exact Or.inl ⟨p, List.mem_cons_self _ _, by rw [he]⟩
      · rcases ih hm with ⟨s, hs1, hs2⟩ | he
        · exact Or.inl ⟨s, List.mem_cons_of_mem _ hs1, hs2⟩
        · exact Or.inr he

theorem nodKeys_setB {keq : κ → κ → Bool} {fk : κ → β} [DecidableEq β]
    (hk : ∀ a b : κ, keq a b = true ↔ fk a = fk b) :
    ∀ {t : List (κ × α)} (k : κ) (v : α), NodKeys keq t → NodKeys keq (setB keq k v t) := by
  intro t
  induction t with
  | nil => intro k v _; exact List.pairwise_singleton _ _
  | cons p ps ih =>
    intro k v hnd
    unfold NodKeys at hnd ⊢
    rw [List.pairwise_cons] at hnd
    rw [setB]
    by_cases hp : keq p.1 k = true
    · rw [if_pos hp, List.pairwise_cons]
      exact ⟨hnd.1, hnd.2⟩
    · rw [if_neg hp, List.pairwise_cons]
      constructor
      · intro r hr
        rcases mem_setB hr with ⟨s, hs1, hs2⟩ | he
        · rw [hs2]
          exact hnd.1 s hs1
        · rw [he]
          exact Bool.not_eq_true _ |>.mp hp
      · exact ih k v hnd.2

theorem match_opt_true {o : Option α} {f : α → Bool} :
    (match o with | some v => f v | none => false) = true ↔
      ∃ v, o = some v ∧ f v = true := by
  cases o <;> simp

theorem alEqB_char {keq : κ → κ → Bool} {veq : α → α → Bool} {t1 t2 : List (κ × α)} :
    alEqB keq veq t1 t2 = true ↔
      (∀ p ∈ t1, ∃ v, luB keq t2 p.1 = some v ∧ veq p.2 v = true) ∧
      (∀ p ∈ t2, ∃ v, luB keq t1 p.1 = some v ∧ veq v p.2 = true) := by
  unfold alEqB
  rw [Bool.and_eq_true, List.all_eq_true, List.all_eq_true]
  constructor
  · intro ⟨h1, h2⟩
    exact ⟨fun p hp => match_opt_true.mp (h1 p hp), fun p hp => match_opt_true.mp (h2 p hp)⟩
  · intro ⟨h1, h2⟩
    exact ⟨fun p hp => match_opt_true.mpr (h1 p hp), fun p hp => match_opt_true.mpr (h2 p hp)⟩

/-- A duplicate-free dict equals (as a Python dict) any permutation of
itself, given reflexivity of the value equality on its values. -/
theorem alEqB_of_perm {keq : κ → κ → Bool} {veq : α → α → Bool} {fk : κ → β} [DecidableEq β]
    (hk : ∀ a b : κ, keq a b = true ↔ fk a = fk b)
    {t1 t2 : List (κ × α)} (hnd : NodKeys keq t1) (hp : t1.Perm t2)
    (hv : ∀ p ∈ t1, veq p.2 p.2 = true) : alEqB keq veq t1 t2 = true := by
  rw [alEqB_char]
  constructor
  · intro p hp1
    refine ⟨p.2, ?_, hv p hp1⟩
    rw [← luB_perm hk hnd hp]
    exact luB_of_mem_nodup hk hnd hp1
  · intro p hp2
    have hp1 : p ∈ t1 := hp.mem_iff.mpr hp2
    exact ⟨p.2, luB_of_mem_nodup hk hnd hp1, hv p hp1⟩

theorem foldl_setB_fresh {keq : κ → κ → Bool} {fk : κ → β} [DecidableEq β]
    (hk : ∀ a b : κ, keq a b = true ↔ fk a = fk b) :
    ∀ (ps acc : List (κ × α)), NodKeys keq (acc ++ ps) →
      ps.foldl (fun t p => setB keq p.1 p.2 t) acc = acc ++ ps := by
  intro ps
  induction ps with
  | nil => intro acc _; simp
  | cons p ps ih =>
    intro acc hnd
    have hfresh : luB keq acc p.1 = none := by
      rw [luB_eq_none_iff]
      intro a ha
      unfold NodKeys at hnd
      rw [List.pairwise_append] at hnd
      exact hnd.2.2 a ha p (List.mem_cons_self _ _)
    show List.foldl _ (setB keq p.1 p.2 acc) ps = _
    rw [setB_absent hfresh]
    have hnd2 : NodKeys keq ((acc ++ [p]) ++ ps) := by
      rw [List.append_assoc, List.singleton_append]
      exact hnd
    rw [ih (acc ++ [p]) hnd2, List.append_assoc, List.singleton_append]

theorem appendB_present {keq : κ → κ → Bool} {t : List (κ × List α)} {k : κ} {l : List α}
    (h : luB keq t k = some l) (x : α) :
    appendB keq k x t = setB keq k (l ++ [x]) t := by
  unfold appendB
  rw [h]

theorem appendB_absent {keq : κ → κ → Bool} {t : List (κ × List α)} {k : κ}
    (h : luB keq t k = none) (x : α) :
    appendB keq k x t = t ++ [(k, [x])] := by
  unfold appendB
  rw [h]

/-! ### Claim C7 -/

/-- C7: calling `write` on a `Result` table with no records fails before
anything is written: the source hits an IndexError deriving the header from
`list(self.keys())[0]`, the failure mode the spec names `EmptyTableError`. -/
theorem C7_empty_result_write_fails : Result.write [] = .error .emptyTable := rfl

/-! ### Claim C5 -/

/-- C5 counterexample: the claim asserts that, for every component, looking
up an absent top-level key creates and stores an empty container.  `Query`
is a plain dict subclass with no `__missing__`, so the lookup raises
KeyError (modelled as `none`) instead of creating anything. -/
theorem C5_query_lookup_raises : Query.getItem [] "q".data = none := rfl

/-- C5 amended: the four components that define `__missing__`
(ProbabilisticRelevance, Relevance, Result, Run) auto-create, store and
return an empty container of their shape on an absent top-level key, but
`Query` raises KeyError (`none`) rather than auto-vivifying. -/
theorem C5_auto_vivification_amended :
    (∀ (t : PRT) (q : Str), luB strEqB t q = none →
      ProbabilisticRelevance.getItem t q = ([], t ++ [(q, [])]) ∧
      luB strEqB (t ++ [(q, [])]) q = some []) ∧
    (∀ (t : RelT) (q : Str), luB strEqB t q = none →
      Relevance.getItem t q = ([], t ++ [(q, [])]) ∧
      luB strEqB (t ++ [(q, [])]) q = some []) ∧
    (∀ (t : ResT) (k : RKey), luB rkEqB t k = none →
      Result.getItem t k = ([], t ++ [(k, [])]) ∧
      luB rkEqB (t ++ [(k, [])]) k = some []) ∧
    (∀ (t : RunT) (q : Str), luB strEqB t q = none →
      Run.getItem t q = ([], t ++ [(q, [])]) ∧
      luB strEqB (t ++ [(q, [])]) q = some []) ∧
    (∀ (t : QueryT) (q : Str), luB strEqB t q = none → Query.getItem t q = none) := by
  refine ⟨?_, ?_, ?_, ?_, ?_⟩
  · intro t q h
    refine ⟨?_, ?_⟩
    · unfold ProbabilisticRelevance.getItem
      rw [h]
    · rw [luB_append, h]
      show luB strEqB [(q, [])] q = _
      rw [luB, if_pos ((strEqB_iff q q).mpr rfl)]
  · intro t q h
    refine ⟨?_, ?_⟩
    · unfold Relevance.getItem
      rw [h]
    · rw [luB_append, h]
      show luB strEqB [(q, [])] q = _
      rw [luB, if_pos ((strEqB_iff q q).mpr rfl)]
  · intro t k h
    refine ⟨?_, ?_⟩
    · unfold Result.getItem
      rw [h]
    · rw [luB_append, h]
      show luB rkEqB [(k, [])] k = _
      rw [luB, if_pos ((rkEqB_iff k k).mpr rfl)]
  · intro t q h
    refine ⟨?_, ?_⟩
    · unfold Run.getItem
      rw [h]
    · rw [luB_append, h]
      show luB strEqB [(q, [])] q = _
      rw [luB, if_pos ((strEqB_iff q q).mpr rfl)]
  · intro t q h
    unfold Query.getItem
    exact h

/-- C5 witness: the amended auto-vivification at a concrete table and key. -/
theorem C5_auto_vivification_amended_witness :
    Run.getItem [("a".data, [])] "x".data = ([], [("a".data, []), ("x".data, [])]) ∧
    Query.getItem [] "q".data = none :=
  ⟨(C5_auto_vivification_amended.2.2.2.1 [("a".data, [])] "x".data (by decide)).1,
    C5_auto_vivification_amended.2.2.2.2 [] "q".data rfl⟩

/-! ### Claim C10 -/

theorem readFoldE_split {f : T → L → Except T T} :
    ∀ (pre rest : List L) (t0 : T),
      readFoldE f t0 (pre ++ rest) =
        match readFoldE f t0 pre with
        | .ok t1 => readFoldE f t1 rest
        | .error t2 => .error t2 := by
  intro pre
  induction pre with
  | nil => intro rest t0; rfl
  | cons x xs ih =>
    intro rest t0
    rw [List.cons_append]
    show (match f t0 x with
        | .ok t2 => readFoldE f t2 (xs ++ rest)
        | .error t2 => .error t2) =
      match (match f t0 x with
        | .ok t2 => readFoldE f t2 xs
        | .error t2 => .error t2) with
      | .ok t1 => readFoldE f t1 rest
      | .error t2 => .error t2
    cases hx : f t0 x with
    | ok t2 =>
      dsimp only
      exact ih rest t2
    | error t2 => rfl

theorem query_readLine_error {t t2 : QueryT} {line : Str}
    (h : Query.readLine t line = .error t2) : t2 = t := by
  unfold Query.readLine at h
  split at h
  · cases h
  · injection h with h
    exact h.symm

theorem prel_readLine_error {t t2 : PRT} {line : Str}
    (h : ProbabilisticRelevance.readLine t line = .error t2) : t2 = t := by
  unfold ProbabilisticRelevance.readLine at h
  split at h
  · split at h
    · cases h
    · injection h with h
      exact h.symm
  · injection h with h
    exact h.symm

theorem rel_readLine_error {t t2 : RelT} {line : Str}
    (h : Relevance.readLine t line = .error t2) : t2 = t := by
  unfold Relevance.readLine at h
  split at h
  · split at h
    · cases h
    · injection h with h
      exact h.symm
  · injection h with h
    exact h.symm

theorem luB_key_congr {keq : κ → κ → Bool} {fk : κ → β} [DecidableEq β]
    (hk : ∀ a b : κ, keq a b = true ↔ fk a = fk b) {k k' : κ} (he : fk k = fk k') :
    ∀ (t : List (κ × α)), luB keq t k = luB keq t k' := by
  intro t
  induction t with
  | nil => rfl
  | cons p ps ih =>
    rw [luB, luB]
    by_cases hp : keq p.1 k = true
    · rw [if_pos hp, if_pos ((hk ..).mpr (((hk ..).mp hp).trans he))]
    · have hp2 : keq p.1 k' = false := by
        cases hx : keq p.1 k' with
        | true => exact absurd ((hk ..).mpr (((hk ..).mp hx).trans he.symm)) hp
        | false => rfl
      rw [if_neg hp, hp2]
      simp only [Bool.false_eq_true, if_false]
      exact ih

/-- Entries already present (topic keys and their measure names) are
preserved by the row-processing steps of `Result.read`. -/
def resMono (t1 t2 : ResT) : Prop :=
  ∀ k r, luB rkEqB t1 k = some r → ∃ r2, luB rkEqB t2 k = some r2 ∧
    ∀ m, (luB strEqB r m).isSome = true → (luB strEqB r2 m).isSome = true

theorem resMono_refl (t : ResT) : resMono t t :=
  fun _ r h => ⟨r, h, fun _ hm => hm⟩

theorem resMono_trans {t1 t2 t3 : ResT} (h12 : resMono t1 t2) (h23 : resMono t2 t3) :
    resMono t1 t3 := by
  intro k r h
  rcases h12 k r h with ⟨r2, hr2, hm2⟩
  rcases h23 k r2 hr2 with ⟨r3, hr3, hm3⟩
  exact ⟨r3, hr3, fun m hm => hm3 m (hm2 m hm)⟩

theorem resMono_setMeas (t : ResT) (k : RKey) (m : Str) (v : Option PyF) :
    resMono t (Result.setMeas t k m v) := by
  intro k' r h
  unfold Result.setMeas
  cases hx : luB rkEqB t k with
  | none =>
    refine ⟨r, ?_, fun _ hm => hm⟩
    rw [luB_append, h]
  | some r0 =>
    rw [luB_setB rkEqB_iff]
    by_cases he : k.text = k'.text
    · have hr0 : r = r0 := by
        have hx2 : luB rkEqB t k' = some r0 := (luB_key_congr rkEqB_iff he t).symm.trans hx
        rw [h] at hx2
        exact Option.some.inj hx2
      subst hr0
      refine ⟨setB strEqB m v r, by rw [if_pos he], ?_⟩
      intro m' hm'
      rw [luB_setB strEqB_iff]
      by_cases hmm : m = m'
      · rw [if_pos hmm]
        rfl
      · rw [if_neg hmm]
        exact hm'
    · exact ⟨r, by rw [if_neg he]; exact h, fun _ hm => hm⟩

theorem resMono_vivify (t : ResT) (k : RKey) : resMono t (Result.vivify t k) := by
  intro k' r h
  unfold Result.vivify
  cases hx : luB rkEqB t k with
  | none =>
    refine ⟨r, ?_, fun _ hm => hm⟩
    rw [luB_append, h]
  | some r0 => exact ⟨r, h, fun _ hm => hm⟩

theorem measSteps_mono {k : RKey} :
    ∀ (ms : List (Str × Str)) (t t2 : ResT),
      (Result.measSteps k t ms = .ok t2 ∨ Result.measSteps k t ms = .error t2) →
      resMono t t2 := by
  intro ms
  induction ms with
  | nil =>
    intro t t2 h
    rcases h with h | h
    · injection h with h
      rw [h]
      exact resMono_refl _
    · cases h
  | cons p ps ih =>
    intro t t2 h
    obtain ⟨m, s⟩ := p
    unfold Result.measSteps at h
    rcases h with h | h
    · split at h
      · cases h
      · exact resMono_trans (resMono_setMeas t k m none) (ih _ _ (Or.inl h))
      · exact resMono_trans (resMono_setMeas t k m _) (ih _ _ (Or.inl h))
    · split at h
      · injection h with h
        rw [h]
        exact resMono_refl _
      · exact resMono_trans (resMono_setMeas t k m none) (ih _ _ (Or.inr h))
      · exact resMono_trans (resMono_setMeas t k m _) (ih _ _ (Or.inr h))

theorem readRow_eval_err {header : List Str} {row : List Str} (t : ResT)
    (hcond : row.length ≠ header.length ∨
      luB strEqB (header.zip row) "topic".data = none ∨
      luB strEqB (header.zip row) "runid".data = none) :
    Result.readRow header t row = .error t := by
  unfold Result.readRow
  by_cases hlen : row.length ≠ header.length
  · rw [if_pos hlen]
  · rw [if_neg hlen]
    show (match luB strEqB (header.zip row) "topic".data,
        luB strEqB (header.zip row) "runid".data with
      | some tp, some rn =>
        Result.measSteps ⟨tp, some (rstripL rn)⟩ (Result.vivify t ⟨tp, some (rstripL rn)⟩)
          ((header.zip row).filter
            (fun p => !(p.1 == "topic".data) && !(p.1 == "runid".data)))
      | _, _ => Except.error t) = Except.error t
    rcases hcond with hc | hc | hc
    · exact absurd hc hlen
    · rw [hc]
    · cases htp : luB strEqB (header.zip row) "topic".data with
      | none => rfl
      | some tp => rw [hc]

theorem readRow_eval {header row : List Str} (hlen : ¬row.length ≠ header.length) {tp rn : Str}
    (htp : luB strEqB (header.zip row) "topic".data = some tp)
    (hrn : luB strEqB (header.zip row) "runid".data = some rn) (t : ResT) :
    Result.readRow header t row =
      Result.measSteps ⟨tp, some (rstripL rn)⟩
        (Result.vivify t ⟨tp, some (rstripL rn)⟩)
        ((header.zip row).filter
          (fun p => !(p.1 == "topic".data) && !(p.1 == "runid".data))) := by
  unfold Result.readRow
  rw [if_neg hlen]
  show (match luB strEqB (header.zip row) "topic".data,
      luB strEqB (header.zip row) "runid".data with
    | some tp, some rn =>
      Result.measSteps ⟨tp, some (rstripL rn)⟩ (Result.vivify t ⟨tp, some (rstripL rn)⟩)
        ((header.zip row).filter
          (fun p => !(p.1 == "topic".data) && !(p.1 == "runid".data)))
    | _, _ => Except.error t) = _
  rw [htp, hrn]

theorem readRow_mono {header : List Str} {t t2 : ResT} {row : List Str}
    (h : Result.readRow header t row = .ok t2 ∨ Result.readRow header t row = .error t2) :
    resMono t t2 := by
  by_cases hlen : row.length ≠ header.length
  · rw [readRow_eval_err t (Or.inl hlen)] at h
    rcases h with h | h
    · cases h
    · injection h with h
      rw [h]
      exact resMono_refl _
  · cases htp : luB strEqB (header.zip row) "topic".data with
    | none =>
      rw [readRow_eval_err t (Or.inr (Or.inl htp))] at h
      rcases h with h | h
      · cases h
      · injection h with h
        rw [h]
        exact resMono_refl _
    | some tp =>
      cases hrn : luB strEqB (header.zip row) "runid".data with
      | none =>
        rw [readRow_eval_err t (Or.inr (Or.inr hrn))] at h
        rcases h with h | h
        · cases h
        · injection h with h
          rw [h]
          exact resMono_refl _
      | some rn =>
        rw [readRow_eval hlen htp hrn] at h
        exact resMono_trans (resMono_vivify t ⟨tp, some (rstripL rn)⟩) (measSteps_mono _ _ _ h)

theorem Run.collect_error {bad : Str} (hbad : Run.parseLine bad = none) :
    ∀ (lines : List Str), bad ∈ lines → ∀ g, Run.collect g lines = none := by
  intro lines
  induction lines with
  | nil => intro h; cases h
  | cons l ls ih =>
    intro hmem g
    rcases List.mem_cons.mp hmem with he | hm
    · subst he
      unfold Run.collect
      rw [hbad]
    · unfold Run.collect
      cases hx : Run.parseLine l with
      | none => rfl
      | some p => exact ih hm _

theorem Result.read_cons (t0 : ResT) (header : List Str) (rows : List (List Str)) :
    Result.read t0 (header :: rows) = readFoldE (Result.readRow header) t0 rows := rfl

/-- C10 counterexample: a malformed second line makes `Run.read` fail with
the table left EMPTY — the entry parsed from the first line does not remain
(the first pass buffers into a local dict before the table is touched),
while the claim asserts every component keeps the earlier entries. -/
theorem C10_run_read_atomic :
    Run.read ([] : RunT) ["1 Q0 d 1 2.5 r".data, "x".data] = .error [] ∧
    Run.read ([] : RunT) ["1 Q0 d 1 2.5 r".data] =
      .ok [("1".data, [⟨"d".data, some ("2.5".data, "Q0".data, "r".data)⟩])] := by
  constructor
  · decide
  · decide

/-- C10 amended: a parse failure leaves Query, ProbabilisticRelevance and
Relevance tables exactly as populated by the preceding lines, and leaves a
Result table with at least the previously read topics and measure names
(the failing row may update values first); `Run.read`, however, parses the
whole file into a local buffer before touching the table, so on a malformed
line it raises with the table unchanged. -/
theorem C10_partial_read_amended :
    (∀ (t0 t1 t2 : QueryT) (pre : List Str) (bad : Str) (rest : List Str),
      Query.read t0 pre = .ok t1 → Query.readLine t1 bad = .error t2 →
      Query.read t0 (pre ++ bad :: rest) = .error t1) ∧
    (∀ (t0 t1 t2 : PRT) (pre : List Str) (bad : Str) (rest : List Str),
      ProbabilisticRelevance.read t0 pre = .ok t1 →
      ProbabilisticRelevance.readLine t1 bad = .error t2 →
      ProbabilisticRelevance.read t0 (pre ++ bad :: rest) = .error t1) ∧
    (∀ (t0 t1 t2 : RelT) (pre : List Str) (bad : Str) (rest : List Str),
      Relevance.read t0 pre = .ok t1 → Relevance.readLine t1 bad = .error t2 →
      Relevance.read t0 (pre ++ bad :: rest) = .error t1) ∧
    (∀ (t0 t1 t2 : ResT) (header : List Str) (pre : List (List Str)) (bad : List Str)
      (rest : List (List Str)),
      Result.read t0 (header :: pre) = .ok t1 →
      Result.readRow header t1 bad = .error t2 →
      Result.read t0 (header :: (pre ++ bad :: rest)) = .error t2 ∧ resMono t1 t2) ∧
    (∀ (t0 : RunT) (lines : List Str) (bad : Str), bad ∈ lines →
      Run.parseLine bad = none → Run.read t0 lines = .error t0) := by
  refine ⟨?_, ?_, ?_, ?_, ?_⟩
  · intro t0 t1 t2 pre bad rest h1 h2
    unfold Query.read at h1 ⊢
    rw [readFoldE_split, h1]
    show readFoldE Query.readLine t1 (bad :: rest) = _
    unfold readFoldE
    rw [h2, query_readLine_error h2]
  · intro t0 t1 t2 pre bad rest h1 h2
    unfold ProbabilisticRelevance.read at h1 ⊢
    rw [readFoldE_split, h1]
    show readFoldE ProbabilisticRelevance.readLine t1 (bad :: rest) = _
    unfold readFoldE
    rw [h2, prel_readLine_error h2]
  · intro t0 t1 t2 pre bad rest h1 h2
    unfold Relevance.read at h1 ⊢
    rw [readFoldE_split, h1]
    show readFoldE Relevance.readLine t1 (bad :: rest) = _
    unfold readFoldE
    rw [h2, rel_readLine_error h2]
  · intro t0 t1 t2 header pre bad rest h1 h2
    rw [Result.read_cons] at h1 ⊢
    constructor
    · rw [readFoldE_split, h1]
      show readFoldE (Result.readRow header) t1 (bad :: rest) = _
      unfold readFoldE
      rw [h2]
    · exact readRow_mono (Or.inr h2)
  · intro t0 lines bad hmem hbad
    unfold Run.read
    rw [Run.collect_error hbad lines hmem []]

/-- C10 witness: the amended non-atomicity at a concrete two-line file. -/
theorem C10_partial_read_amended_witness :
    Query.read [] (["a:b".data] ++ "x".data :: []) = .error [("a".data, "b".data)] :=
  C10_partial_read_amended.1 [] [("a".data, "b".data)] [("a".data, "b".data)]
    ["a:b".data] "x".data [] (by decide) (by decide)


/-! ### Claim C4 -/

/-- `Run.writeBlock` positionally: starting the counter at `r`, the block
pairs each stored entry with the consecutive ranks `r, r+1, …` in stored
sequence order. -/
theorem writeBlock_eq_zipWith (q : Str) :
    ∀ (es : List REnt) (r : Nat),
      Run.writeBlock q r es =
        List.zipWith (Run.entryLine q) (List.range' r es.length) es := by
  intro es
  induction es with
  | nil => intro r; rfl
  | cons e es ih =>
    intro r
    show Run.entryLine q r e :: Run.writeBlock q (r + 1) es = _
    rw [List.length_cons, List.range'_succ, List.zipWith_cons_cons, ih (r + 1)]

/-- C4: for every Run table and every query stored in it, `Run.write` emits
that query's block as the stored entries in sequence order (never re-sorted)
zipped with the freshly regenerated 1-based rank counter `1, 2, 3, …`
(each rendered by `Run.entryLine` as the decimal `natDec rank ++ ".0"`,
i.e. `1.0, 2.0, 3.0, …`); the stored entries carry no rank at all, so no
rank value from the input file can influence the output. -/
theorem C4_run_rank_regeneration (t : RunT) (q : Str) (es : List REnt)
    (h : luB strEqB t q = some es) :
    ∃ pre post,
      Run.write t = pre ++ Run.writeBlock q 1 es ++ post ∧
      Run.writeBlock q 1 es =
        List.zipWith (Run.entryLine q) (List.range' 1 es.length) es := by
  rcases luB_eq_some_elim h with ⟨p, hmem, hkey, hval⟩
  have hq : p.1 = q := (strEqB_iff ..).mp hkey
  have hmem2 : p ∈ t.insertionSort keyLe := (List.perm_insertionSort keyLe t).symm.subset hmem
  rcases List.append_of_mem hmem2 with ⟨l1, l2, hsplit⟩
  refine ⟨l1.flatMap (fun r => Run.writeBlock r.1 1 r.2),
    l2.flatMap (fun r => Run.writeBlock r.1 1 r.2), ?_, writeBlock_eq_zipWith q es 1⟩
  unfold Run.write
  rw [hsplit, List.flatMap_append, List.flatMap_cons, hq, hval, List.append_assoc]

/-- C4 witness: a two-entry query block at query `"1"`. -/
theorem C4_run_rank_regeneration_witness :
    ∃ pre post,
      Run.write [("1".data,
          [⟨"b".data, some ("9.1".data, "Q0".data, "r".data)⟩,
           ⟨"a".data, some ("2.5".data, "Q0".data, "r".data)⟩])] =
        pre ++ Run.writeBlock "1".data 1
          [⟨"b".data, some ("9.1".data, "Q0".data, "r".data)⟩,
           ⟨"a".data, some ("2.5".data, "Q0".data, "r".data)⟩] ++ post ∧
      Run.writeBlock "1".data 1
          [⟨"b".data, some ("9.1".data, "Q0".data, "r".data)⟩,
           ⟨"a".data, some ("2.5".data, "Q0".data, "r".data)⟩] =
        List.zipWith (Run.entryLine "1".data) (List.range' 1 2)
          [⟨"b".data, some ("9.1".data, "Q0".data, "r".data)⟩,
           ⟨"a".data, some ("2.5".data, "Q0".data, "r".data)⟩] :=
  C4_run_rank_regeneration _ _ _ (by decide)

/-! ### Claims C3 and C9: order of the stored sequences built by Run.read -/

theorem finfLtB_neg (x y : FinF) : finfLtB (finfNeg x) (finfNeg y) = finfLtB y x := by
  cases x <;> cases y <;> try rfl
  rename_i a b
  show decLtB ⟨-a.m, a.e⟩ ⟨-b.m, b.e⟩ = decLtB b a
  unfold decLtB
  rw [decide_eq_decide]
  show -a.m * (10 : Int) ^ b.e < -b.m * (10 : Int) ^ a.e ↔ _
  rw [neg_mul, neg_mul]
  exact neg_lt_neg_iff

theorem finfEqB_neg (x y : FinF) : finfEqB (finfNeg x) (finfNeg y) = finfEqB x y := by
  cases x <;> cases y <;> try rfl
  rename_i a b
  show decEqvB ⟨-a.m, a.e⟩ ⟨-b.m, b.e⟩ = decEqvB a b
  unfold decEqvB
  rw [Bool.eq_iff_iff, beq_iff_eq, beq_iff_eq]
  show -a.m * (10 : Int) ^ b.e = -b.m * (10 : Int) ^ a.e ↔ _
  rw [neg_mul, neg_mul]
  exact neg_inj

/-- The invariant of every pair `[-float(score), document_id(...)]` built by
`Run.read`'s first pass: the sort key is the negated parsed score of the
stored score text. -/
def runGoodPair (pr : FinF × REnt) : Prop :=
  ∃ s k r v, pr.2.attrs = some (s, k, r) ∧ parseRunScore s = some v ∧ pr.1 = finfNeg v

theorem mem_setB_val {keq : κ → κ → Bool} :
    ∀ {t : List (κ × α)} {k : κ} {v : α} {r : κ × α}, r ∈ setB keq k v t →
      r ∈ t ∨ r.2 = v := by
  intro t
  induction t with
  | nil =>
    intro k v r hr
    rw [List.mem_singleton.mp hr]
    exact Or.inr rfl
  | cons p ps ih =>
    intro k v r hr
    rw [setB] at hr
    by_cases hp : keq p.1 k = true
    · rw [if_pos hp] at hr
      rcases List.mem_cons.mp hr with he | hm
      · rw [he]
        exact Or.inr rfl
      · exact Or.inl (List.mem_cons_of_mem _ hm)
    · rw [if_neg hp] at hr
      rcases List.mem_cons.mp hr with he | hm
      · rw [he]
        exact Or.inl (List.mem_cons_self _ _)
      · rcases ih hm with h1 | h2
        · exact Or.inl (List.mem_cons_of_mem _ h1)
        · exact Or.inr h2

theorem runGood_appendB {g : List (Str × List (FinF × REnt))} {q : Str} {x : FinF × REnt}
    (hg : ∀ p ∈ g, ∀ pr ∈ p.2, runGoodPair pr) (hx : runGoodPair x) :
    ∀ p ∈ appendB strEqB q x g, ∀ pr ∈ p.2, runGoodPair pr := by
  intro p hp pr hpr
  cases hl : luB strEqB g q with
  | some l =>
    rw [appendB_present hl] at hp
    rcases mem_setB_val hp with hpg | hpv
    · exact hg p hpg pr hpr
    · rw [hpv] at hpr
      rcases List.mem_append.mp hpr with h1 | h2
      · rcases luB_eq_some_elim hl with ⟨s, hs1, _, hs3⟩
        refine hg s hs1 pr ?_
        rw [hs3]
        exact h1
      · rw [List.mem_singleton.mp h2]
        exact hx
  | none =>
    rw [appendB_absent hl] at hp
    rcases List.mem_append.mp hp with h1 | h2
    · exact hg p h1 pr hpr
    · rw [List.mem_singleton.mp h2] at hpr
      rw [List.mem_singleton.mp hpr]
      exact hx

theorem nodKeys_appendB {g : List (Str × List α)} {q : Str} (x : α)
    (hnd : NodKeys strEqB g) : NodKeys strEqB (appendB strEqB q x g) := by
  cases hl : luB strEqB g q with
  | some l =>
    rw [appendB_present hl]
    exact nodKeys_setB strEqB_iff q (l ++ [x]) hnd
  | none =>
    rw [appendB_absent hl]
    unfold NodKeys
    rw [List.pairwise_append]
    refine ⟨hnd, List.pairwise_singleton _ _, ?_⟩
    intro a ha b hb
    rw [List.mem_singleton.mp hb]
    exact luB_eq_none_iff.mp hl a ha

theorem Run.parseLine_good {line : Str} {q : Str} {kv : FinF} {en : REnt}
    (hx : Run.parseLine line = some (q, kv, en)) : runGoodPair (kv, en) := by
  unfold Run.parseLine at hx
  split at hx
  · rename_i q' k d rank score rid heq
    cases hs : parseRunScore score with
    | none =>
      rw [hs] at hx
      cases hx
    | some v =>
      rw [hs] at hx
      injection hx with hx
      injection hx with h1 hx
      injection hx with h2 h3
      refine ⟨score, k, rid, v, ?_, hs, h2.symm⟩
      rw [← h3]
  · cases hx

theorem Run.collect_good :
    ∀ (lines : List Str) (g g' : List (Str × List (FinF × REnt))),
      Run.collect g lines = some g' →
      (∀ p ∈ g, ∀ pr ∈ p.2, runGoodPair pr) →
      ∀ p ∈ g', ∀ pr ∈ p.2, runGoodPair pr := by
  intro lines
  induction lines with
  | nil =>
    intro g g' h hg
    injection h with h
    rw [← h]
    exact hg
  | cons l ls ih =>
    intro g g' h hg
    unfold Run.collect at h
    cases hx : Run.parseLine l with
    | none =>
      rw [hx] at h
      cases h
    | some tr =>
      obtain ⟨q, kv, en⟩ := tr
      rw [hx] at h
      exact ih _ _ h (runGood_appendB hg (Run.parseLine_good hx))

theorem Run.collect_nodKeys :
    ∀ (lines : List Str) (g g' : List (Str × List (FinF × REnt))),
      Run.collect g lines = some g' → NodKeys strEqB g → NodKeys strEqB g' := by
  intro lines
  induction lines with
  | nil =>
    intro g g' h hnd
    injection h with h
    rw [← h]
    exact hnd
  | cons l ls ih =>
    intro g g' h hnd
    unfold Run.collect at h
    cases hx : Run.parseLine l with
    | none =>
      rw [hx] at h
      cases h
    | some tr =>
      obtain ⟨q, kv, en⟩ := tr
      rw [hx] at h
      exact ih _ _ h (nodKeys_appendB _ hnd)

theorem Run.mergeGroups_mem :
    ∀ (g : List (Str × List (FinF × REnt))) (t0 : RunT),
      NodKeys strEqB g → (∀ p ∈ g, luB strEqB t0 p.1 = none) →
      ∀ p ∈ Run.mergeGroups t0 g,
        p ∈ t0 ∨ ∃ q prs, (q, prs) ∈ g ∧ p = (q, (prs.insertionSort rpLe).map Prod.snd) := by
  intro g
  induction g with
  | nil =>
    intro t0 _ _ p hp
    exact Or.inl hp
  | cons gr rest ih =>
    intro t0 hnd hfresh p hp
    obtain ⟨q, prs⟩ := gr
    unfold Run.mergeGroups at hp
    have hq0 : luB strEqB t0 q = none := hfresh (q, prs) (List.mem_cons_self _ _)
    have hget : getOr strEqB t0 q [] = [] := by
      unfold getOr
      rw [hq0]
      rfl
    rw [hget, List.nil_append, setB_absent hq0] at hp
    have hnd' := List.pairwise_cons.mp hnd
    have hfresh' : ∀ r ∈ rest,
        luB strEqB (t0 ++ [(q, (prs.insertionSort rpLe).map Prod.snd)]) r.1 = none := by
      intro r hr
      rw [luB_append, hfresh r (List.mem_cons_of_mem _ hr)]
      show luB strEqB [(q, (prs.insertionSort rpLe).map Prod.snd)] r.1 = none
      rw [luB, hnd'.1 r hr]
      simp only [Bool.false_eq_true, if_false]
      rfl
    rcases ih _ hnd'.2 hfresh' p hp with h1 | h2
    · rcases List.mem_append.mp h1 with ha | hb
      · exact Or.inl ha
      · rw [List.mem_singleton.mp hb]
        exact Or.inr ⟨q, prs, List.mem_cons_self _ _, rfl⟩
    · rcases h2 with ⟨q', prs', hmem, heq⟩
      exact Or.inr ⟨q', prs', List.mem_cons_of_mem _ hmem, heq⟩

/-- Every stored sequence of a table produced by `Run.read` on the empty
table is a per-query group of good pairs sorted by `[-score, document_id]`,
projected to the documents. -/
theorem Run.read_empty_block {lines : List Str} {t : RunT}
    (h : Run.read [] lines = .ok t) :
    ∀ p ∈ t, ∃ prs : List (FinF × REnt), (∀ pr ∈ prs, runGoodPair pr) ∧
      p.2 = (prs.insertionSort rpLe).map Prod.snd := by
  unfold Run.read at h
  cases hc : Run.collect [] lines with
  | none =>
    rw [hc] at h
    cases h
  | some g =>
    rw [hc] at h
    injection h with h
    intro p hp
    rw [← h] at hp
    have hnd : NodKeys strEqB g := Run.collect_nodKeys lines [] g hc List.Pairwise.nil
    have hgood := Run.collect_good lines [] g hc (by intro p hp; cases hp)
    rcases Run.mergeGroups_mem g [] hnd (by intro p _; rfl) p hp with h0 | ⟨q, prs, hmem, heq⟩
    · cases h0
    · refine ⟨prs, fun pr hpr => hgood (q, prs) hmem pr hpr, ?_⟩
      rw [heq]

/-- C3, amended: `Run.read` ignores the rank field of the input, and on
every file whose scores all parse as non-NaN floats (the domain of
`Run.read`), each stored per-query sequence is ordered by descending
parsed score (no later entry has a strictly greater score than an earlier
one); in the concrete scenario the two lines "1 Q0 docA 5 2.5 runX" and
"1 Q0 docB 1 9.1 runX" are stored with docB first, and written back with
the regenerated ranks 1.0 and 2.0.  A NaN score defeats the guarantee
(the counterexample theorem below). -/
theorem C3_run_orders_by_descending_score :
    (∀ (lines : List Str) (t : RunT), Run.read [] lines = .ok t →
      ∀ p ∈ t, p.2.Pairwise (fun a b =>
        ∀ sa ka ra sb kb rb va vb,
          a.attrs = some (sa, ka, ra) → b.attrs = some (sb, kb, rb) →
          parseRunScore sa = some va → parseRunScore sb = some vb →
          finfLtB va vb = false)) ∧
    Run.read [] ["1 Q0 docA 5 2.5 runX".data, "1 Q0 docB 1 9.1 runX".data] =
      .ok [("1".data,
        [⟨"docB".data, some ("9.1".data, "Q0".data, "runX".data)⟩,
         ⟨"docA".data, some ("2.5".data, "Q0".data, "runX".data)⟩])] ∧
    Run.write [("1".data,
        [⟨"docB".data, some ("9.1".data, "Q0".data, "runX".data)⟩,
         ⟨"docA".data, some ("2.5".data, "Q0".data, "runX".data)⟩])] =
      ["1 Q0 docB 1.0 9.1 runX".data, "1 Q0 docA 2.0 2.5 runX".data] := by
  refine ⟨?_, by decide, by decide⟩
  intro lines t h p hp
  rcases Run.read_empty_block h p hp with ⟨prs, hgood, heq⟩
  rw [heq, List.pairwise_map]
  have hsorted : (prs.insertionSort rpLe).Pairwise rpLe := List.sorted_insertionSort rpLe prs
  refine hsorted.imp_of_mem ?_
  intro pa pb hma hmb hr
  intro sa ka ra sb kb rb va vb h1 h2 h3 h4
  rcases hgood pa ((List.perm_insertionSort rpLe prs).subset hma) with
    ⟨sa', ka', ra', va', ha1, ha2, ha3⟩
  rcases hgood pb ((List.perm_insertionSort rpLe prs).subset hmb) with
    ⟨sb', kb', rb', vb', hb1, hb2, hb3⟩
  have hxa := ha1.symm.trans h1
  injection hxa with hxa
  injection hxa with hxa1 hxa
  injection hxa with hxa2 hxa3
  rw [hxa1] at ha2
  have hva : va' = va := by
    have := ha2.symm.trans h3
    injection this
  rw [hva] at ha3
  have hxb := hb1.symm.trans h2
  injection hxb with hxb
  injection hxb with hxb1 hxb
  injection hxb with hxb2 hxb3
  rw [hxb1] at hb2
  have hvb : vb' = vb := by
    have := hb2.symm.trans h4
    injection this
  rw [hvb] at hb3
  have hr' : rpLtB pb pa = false := hr
  unfold rpLtB at hr'
  by_cases he : finfEqB pb.1 pa.1 = true
  · rw [ha3, hb3, finfEqB_neg] at he
    exact finf_eqv_lt_false (finfEqB_symm he)
  · rw [if_neg he] at hr'
    rw [ha3, hb3, finfLtB_neg] at hr'
    exact hr'

/-- C3 witness: the descending-score guarantee applied to the concrete
scenario's table entry (docB with score 9.1 before docA with score 2.5). -/
theorem C3_run_orders_by_descending_score_witness :
    finfLtB (FinF.fin ⟨91, 1⟩) (FinF.fin ⟨25, 1⟩) = false := by
  have H := C3_run_orders_by_descending_score.1
    ["1 Q0 docA 5 2.5 runX".data, "1 Q0 docB 1 9.1 runX".data]
    [("1".data,
      [⟨"docB".data, some ("9.1".data, "Q0".data, "runX".data)⟩,
       ⟨"docA".data, some ("2.5".data, "Q0".data, "runX".data)⟩])]
    (by decide)
    ("1".data,
      [⟨"docB".data, some ("9.1".data, "Q0".data, "runX".data)⟩,
       ⟨"docA".data, some ("2.5".data, "Q0".data, "runX".data)⟩])
    (List.mem_singleton.mpr rfl)
  have H2 := (List.pairwise_cons.mp H).1
    ⟨"docA".data, some ("2.5".data, "Q0".data, "runX".data)⟩ (List.mem_singleton.mpr rfl)
  exact H2 "9.1".data "Q0".data "runX".data "2.5".data "Q0".data "runX".data
    (FinF.fin ⟨91, 1⟩) (FinF.fin ⟨25, 1⟩) rfl rfl (by decide) (by decide)

/-- C3 counterexample: the source's `float('nan')` succeeds, so the file
"1 Q0 x 1 1 r" / "1 Q0 y 1 nan r" / "1 Q0 z 1 5 r" is accepted; the NaN
pair enters `sorted(pairs)`, where every comparison against it is false,
so the sequence is stored in input order x, y, z — the score 1 entry
before the strictly greater score 5 entry, refuting the claim that every
stored per-query sequence is ordered by descending score.  The second
conjunct records that `Run.read` models this file as a read failure; the
remaining conjuncts exhibit the violation in the claim theorem's own
vocabulary: both finite scores parse, and `finfLtB` holds strictly between
the earlier entry's score 1 and the later entry's score 5. -/
theorem C3_nan_score_breaks_descending_order :
    Run.readPy [] ["1 Q0 x 1 1 r".data, "1 Q0 y 1 nan r".data, "1 Q0 z 1 5 r".data] =
      .ok [("1".data,
        [⟨"x".data, some ("1".data, "Q0".data, "r".data)⟩,
         ⟨"y".data, some ("nan".data, "Q0".data, "r".data)⟩,
         ⟨"z".data, some ("5".data, "Q0".data, "r".data)⟩])] ∧
    Run.read [] ["1 Q0 x 1 1 r".data, "1 Q0 y 1 nan r".data, "1 Q0 z 1 5 r".data] =
      .error [] ∧
    parsePyFloat "nan".data = some .nan ∧
    parseRunScore "1".data = some (FinF.fin ⟨1, 0⟩) ∧
    parseRunScore "5".data = some (FinF.fin ⟨5, 0⟩) ∧
    finfLtB (FinF.fin ⟨1, 0⟩) (FinF.fin ⟨5, 0⟩) = true := by
  decide

/-- C9, amended: in `Run.read`, on every file whose scores all parse as
non-NaN floats (the domain of `Run.read`), ties in score are broken by
ascending document-id text, not by input-line order: whenever an entry
precedes another with exactly equal parsed scores, the later document's
text is not lexicographically smaller; and reading docB before docA with
equal scores stores docA first.  A NaN score elsewhere in the query's
buffer defeats the tie-break (the counterexample theorem below). -/
theorem C9_run_ties_by_document_text :
    (∀ (lines : List Str) (t : RunT), Run.read [] lines = .ok t →
      ∀ p ∈ t, p.2.Pairwise (fun a b =>
        ∀ sa ka ra sb kb rb va vb,
          a.attrs = some (sa, ka, ra) → b.attrs = some (sb, kb, rb) →
          parseRunScore sa = some va → parseRunScore sb = some vb →
          finfEqB va vb = true → lexLtB b.text a.text = false)) ∧
    Run.read [] ["1 Q0 docB 1 2.5 r".data, "1 Q0 docA 2 2.5 r".data] =
      .ok [("1".data,
        [⟨"docA".data, some ("2.5".data, "Q0".data, "r".data)⟩,
         ⟨"docB".data, some ("2.5".data, "Q0".data, "r".data)⟩])] := by
  refine ⟨?_, by decide⟩
  intro lines t h p hp
  rcases Run.read_empty_block h p hp with ⟨prs, hgood, heq⟩
  rw [heq, List.pairwise_map]
  have hsorted : (prs.insertionSort rpLe).Pairwise rpLe := List.sorted_insertionSort rpLe prs
  refine hsorted.imp_of_mem ?_
  intro pa pb hma hmb hr
  intro sa ka ra sb kb rb va vb h1 h2 h3 h4 hveq
  rcases hgood pa ((List.perm_insertionSort rpLe prs).subset hma) with
    ⟨sa', ka', ra', va', ha1, ha2, ha3⟩
  rcases hgood pb ((List.perm_insertionSort rpLe prs).subset hmb) with
    ⟨sb', kb', rb', vb', hb1, hb2, hb3⟩
  have hxa := ha1.symm.trans h1
  injection hxa with hxa
  injection hxa with hxa1 hxa
  rw [hxa1] at ha2
  have hva : va' = va := by
    have := ha2.symm.trans h3
    injection this
  rw [hva] at ha3
  have hxb := hb1.symm.trans h2
  injection hxb with hxb
  injection hxb with hxb1 hxb
  rw [hxb1] at hb2
  have hvb : vb' = vb := by
    have := hb2.symm.trans h4
    injection this
  rw [hvb] at hb3
  have he : finfEqB pb.1 pa.1 = true := by
    rw [ha3, hb3, finfEqB_neg]
    exact finfEqB_symm hveq
  have hr' : rpLtB pb pa = false := hr
  unfold rpLtB at hr'
  rw [if_pos he] at hr'
  exact hr'

/-- C9 witness: the tie-breaking guarantee applied to the concrete
scenario's table entry (docA stored before docB at equal score 2.5). -/
theorem C9_run_ties_by_document_text_witness :
    lexLtB "docB".data "docA".data = false := by
  have H := C9_run_ties_by_document_text.1
    ["1 Q0 docB 1 2.5 r".data, "1 Q0 docA 2 2.5 r".data]
    [("1".data,
      [⟨"docA".data, some ("2.5".data, "Q0".data, "r".data)⟩,
       ⟨"docB".data, some ("2.5".data, "Q0".data, "r".data)⟩])]
    (by decide)
    ("1".data,
      [⟨"docA".data, some ("2.5".data, "Q0".data, "r".data)⟩,
       ⟨"docB".data, some ("2.5".data, "Q0".data, "r".data)⟩])
    (List.mem_singleton.mpr rfl)
  have H2 := (List.pairwise_cons.mp H).1
    ⟨"docB".data, some ("2.5".data, "Q0".data, "r".data)⟩ (List.mem_singleton.mpr rfl)
  exact H2 "2.5".data "Q0".data "r".data "2.5".data "Q0".data "r".data
    (FinF.fin ⟨25, 1⟩) (FinF.fin ⟨25, 1⟩) rfl rfl (by decide) (by decide) (by decide)

/-- C9 counterexample: the source's `float('nan')` succeeds, so the file
"1 Q0 b 1 2.5 r" / "1 Q0 n 1 nan r" / "1 Q0 a 1 2.5 r" is accepted; every
comparison against the NaN pair in `sorted(pairs)` is false, so the
sequence is stored in input order b, n, a — document b before document a
although their parsed scores are exactly equal and "a" is
lexicographically smaller, refuting the claim that ties are broken by
ascending document-id text.  The second conjunct records that `Run.read`
models this file as a read failure; the remaining conjuncts exhibit the
violation in the claim theorem's own vocabulary: the two scores parse to
`finfEqB`-equal values while `lexLtB` puts the later document's text
strictly first. -/
theorem C9_nan_score_breaks_tie_order :
    Run.readPy [] ["1 Q0 b 1 2.5 r".data, "1 Q0 n 1 nan r".data, "1 Q0 a 1 2.5 r".data] =
      .ok [("1".data,
        [⟨"b".data, some ("2.5".data, "Q0".data, "r".data)⟩,
         ⟨"n".data, some ("nan".data, "Q0".data, "r".data)⟩,
         ⟨"a".data, some ("2.5".data, "Q0".data, "r".data)⟩])] ∧
    Run.read [] ["1 Q0 b 1 2.5 r".data, "1 Q0 n 1 nan r".data, "1 Q0 a 1 2.5 r".data] =
      .error [] ∧
    parsePyFloat "nan".data = some .nan ∧
    parseRunScore "2.5".data = some (FinF.fin ⟨25, 1⟩) ∧
    finfEqB (FinF.fin ⟨25, 1⟩) (FinF.fin ⟨25, 1⟩) = true ∧
    lexLtB "a".data "b".data = true := by
  decide

/-! ### Claim C6 -/

theorem setB_map_fst {keq : κ → κ → Bool} :
    ∀ {t : List (κ × α)} {k : κ} (v : α), (∃ p ∈ t, keq p.1 k = true) →
      (setB keq k v t).map Prod.fst = t.map Prod.fst := by
  intro t
  induction t with
  | nil =>
    intro k v h
    rcases h with ⟨p, hp, _⟩
    cases hp
  | cons p ps ih =>
    intro k v h
    rw [setB]
    by_cases hp : keq p.1 k = true
    · rw [if_pos hp]
      rfl
    · rw [if_neg hp]
      rcases h with ⟨s, hs, hsk⟩
      rcases List.mem_cons.mp hs with he | hm
      · rw [he] at hsk
        exact absurd hsk hp
      · show p.1 :: (setB keq k v ps).map Prod.fst = p.1 :: ps.map Prod.fst
        rw [ih v ⟨s, hm, hsk⟩]

/-- C6 counterexample: two rows with the same topic `"1"` but different
runids `"A"` and `"B"` collapse into a single record — keyed by the first
runid, with the later row's measure value overwriting — not into two
distinct records, one per (topic, runid) pair, as the claim asserts. -/
theorem C6_result_two_runids_one_record :
    Result.read [] [["topic".data, "runid".data, "M".data],
        ["1".data, "A".data, "0.5".data], ["1".data, "B".data, "0.75".data]] =
      .ok [(⟨"1".data, some "A".data⟩, [("M".data, some (.fin ⟨75, 2⟩))])] := by
  decide

/-- C6 amended: `Result.read` groups rows by the topic text alone — the
dict key is a str subclass whose equality (and hence dict identity) ignores
`run_id` — so a row whose topic is already present updates the existing
record in place, keeping the first-stored key (and its runid) and creating
no second record; concretely, same topic under runids X then Y yields one
record keyed (topic, X) holding the last value. -/
theorem C6_result_groups_by_topic_amended :
    (∀ a b : RKey, rkEqB a b = true ↔ a.text = b.text) ∧
    (∀ (t : ResT) (k : RKey) (m : Str) (v : Option PyF) (r : MRec),
      luB rkEqB t k = some r →
      Result.vivify t k = t ∧
      (Result.setMeas t k m v).map Prod.fst = t.map Prod.fst) ∧
    Result.read [] [["topic".data, "runid".data, "M".data],
        ["2".data, "X".data, "0.5".data], ["2".data, "Y".data, "0.75".data]] =
      .ok [(⟨"2".data, some "X".data⟩, [("M".data, some (.fin ⟨75, 2⟩))])] := by
  refine ⟨rkEqB_iff, ?_, by decide⟩
  intro t k m v r h
  constructor
  · unfold Result.vivify
    rw [h]
  · unfold Result.setMeas
    rw [h]
    rcases luB_eq_some_elim h with ⟨p, hp, hpk, _⟩
    exact setB_map_fst _ ⟨p, hp, hpk⟩

/-- C6 witness: in-place update at a concrete table whose stored key has
runid `"A"`, looked up under a key with runid `"B"`. -/
theorem C6_result_groups_by_topic_amended_witness :
    Result.vivify [(⟨"1".data, some "A".data⟩, [])] ⟨"1".data, some "B".data⟩ =
      [(⟨"1".data, some "A".data⟩, [])] ∧
    (Result.setMeas [(⟨"1".data, some "A".data⟩, [])] ⟨"1".data, some "B".data⟩
        "M".data none).map Prod.fst =
      [(⟨"1".data, some "A".data⟩, ([] : MRec))].map Prod.fst :=
  C6_result_groups_by_topic_amended.2.1 _ _ _ _ [] (by decide)

/-! ### Claim C8 -/

/-- C8 counterexample: the measure value `inf` is stored as the float
infinity on read, and `'{0:.6f}'.format` renders it back as the bare
literal `inf` — a string with no decimal point at all — so not every
non-null numeric value is written with exactly 6 decimal places. -/
theorem C8_infinity_not_six_decimals :
    Result.read [] [["topic".data, "runid".data, "M".data],
        ["1".data, "r".data, "inf".data]] =
      .ok [(⟨"1".data, some "r".data⟩, [("M".data, some PyF.pinf)])] ∧
    Result.write [(⟨"1".data, some "r".data⟩, [("M".data, some PyF.pinf)])] =
      .ok [["runid".data, "topic".data, "M".data],
           ["r".data, "1".data, "inf".data]] ∧
    "inf".data.contains '.' = false := by
  refine ⟨by decide, by decide, by decide⟩

/-- C8 amended: the NaN literal round-trips to `-nan` (stored as null on
read, rendered `-nan` on write) and every non-null FINITE value is written
with exactly six decimal places (`0.5` as `0.500000`); the infinities,
however, are stored as ordinary non-null values and rendered as the bare
literals `inf` / `-inf`, with no decimal places. -/
theorem C8_nan_null_and_six_decimals_amended :
    Result.read [] [["topic".data, "runid".data, "M".data],
        ["1".data, "r".data, "nan".data]] =
      .ok [(⟨"1".data, some "r".data⟩, [("M".data, none)])] ∧
    Result.write [(⟨"1".data, some "r".data⟩, [("M".data, none)])] =
      .ok [["runid".data, "topic".data, "M".data],
           ["r".data, "1".data, "-nan".data]] ∧
    (∀ d : Dec, ∃ pre fr, format6 (.fin d) = pre ++ '.' :: fr ∧ fr.length = 6) ∧
    Result.read [] [["topic".data, "runid".data, "M".data],
        ["1".data, "r".data, "0.5".data]] =
      .ok [(⟨"1".data, some "r".data⟩, [("M".data, some (.fin ⟨5, 1⟩))])] ∧
    Result.write [(⟨"1".data, some "r".data⟩, [("M".data, some (.fin ⟨5, 1⟩))])] =
      .ok [["runid".data, "topic".data, "M".data],
           ["r".data, "1".data, "0.500000".data]] ∧
    format6 PyF.pinf = "inf".data ∧ format6 PyF.ninf = "-inf".data := by
  refine ⟨by decide, by decide, ?_, by decide, by decide, rfl, rfl⟩
  intro d
  refine ⟨(if d.m < 0 then ['-'] else []) ++
      natDec ((if d.e ≤ 6 then d.m.natAbs * 10 ^ (6 - d.e)
        else (2 * d.m.natAbs + 10 ^ (d.e - 6)) / (2 * 10 ^ (d.e - 6))) / 1000000),
    padSix (natDec ((if d.e ≤ 6 then d.m.natAbs * 10 ^ (6 - d.e)
        else (2 * d.m.natAbs + 10 ^ (d.e - 6)) / (2 * 10 ^ (d.e - 6))) % 1000000)), rfl, ?_⟩
  have hlt : ((if d.e ≤ 6 then d.m.natAbs * 10 ^ (6 - d.e)
      else (2 * d.m.natAbs + 10 ^ (d.e - 6)) / (2 * 10 ^ (d.e - 6))) % 1000000) <
      10 ^ 6 := Nat.mod_lt _ (by norm_num)
  have hlen := natDec_length_le (by norm_num) hlt
  unfold padSix
  rw [List.length_append, List.length_replicate]
  omega

/-! ### Claim C2 -/

theorem lexLt_of_le_ne {a b : Str} (h : strLeB a b = true) (hne : a ≠ b) :
    lexLtB a b = true := by
  cases hx : lexLtB a b with
  | true => rfl
  | false =>
    have hba : lexLtB b a = false := by
      cases hy : lexLtB b a with
      | false => rfl
      | true =>
        rw [strLeB, hy] at h
        exact absurd h (by decide)
    exact absurd (lexLtB_connex hx hba) hne

/-- On a duplicate-free string-keyed dict, the key sequence visited by
`for k in sorted(list(d.keys()))` is strictly ascending. -/
theorem sortedKeys_strict {α : Type} (t : List (Str × α)) (hnd : NodKeys strEqB t) :
    ((t.insertionSort keyLe).map Prod.fst).Pairwise (fun a b => lexLtB a b = true) := by
  have hs : (t.insertionSort keyLe).Pairwise keyLe := List.sorted_insertionSort keyLe t
  have hnd2 : (t.insertionSort keyLe).Pairwise (fun p q => strEqB p.1 q.1 = false) :=
    nodKeys_perm strEqB_iff (List.perm_insertionSort keyLe t).symm hnd
  rw [List.pairwise_map]
  refine (hs.and hnd2).imp ?_
  intro a b hab
  refine lexLt_of_le_ne hab.1 ?_
  intro he
  have h2 := hab.2
  rw [(strEqB_iff a.1 b.1).mpr he] at h2
  exact absurd h2 (by decide)

theorem sortedResKeys_strict (t : ResT) (hnd : NodKeys rkEqB t) :
    ((t.insertionSort rkeyLe).map (fun p => p.1.text)).Pairwise
      (fun a b => lexLtB a b = true) := by
  have hs : (t.insertionSort rkeyLe).Pairwise rkeyLe := List.sorted_insertionSort rkeyLe t
  have hnd2 : (t.insertionSort rkeyLe).Pairwise (fun p q => rkEqB p.1 q.1 = false) :=
    nodKeys_perm rkEqB_iff (List.perm_insertionSort rkeyLe t).symm hnd
  rw [List.pairwise_map]
  refine (hs.and hnd2).imp ?_
  intro a b hab
  refine lexLt_of_le_ne hab.1 ?_
  intro he
  have h2 := hab.2
  rw [(rkEqB_iff a.1 b.1).mpr he] at h2
  exact absurd h2 (by decide)

/-- C2 counterexample: two sub-key levels are NOT sorted on write.  A
Result record whose measures were inserted as B then A writes the header
and the value columns in that insertion order (B before A); and a Run
record writes its documents in stored sequence order (b before a), not
sorted by document id. -/
theorem C2_write_not_all_levels_sorted :
    Result.write [(⟨"1".data, some "r".data⟩,
        [("B".data, some (.fin ⟨5, 1⟩)), ("A".data, some (.fin ⟨5, 1⟩))])] =
      .ok [["runid".data, "topic".data, "B".data, "A".data],
           ["r".data, "1".data, "0.500000".data, "0.500000".data]] ∧
    Run.write [("1".data, [⟨"b".data, some ("1".data, "Q0".data, "r".data)⟩,
                           ⟨"a".data, some ("2".data, "Q0".data, "r".data)⟩])] =
      ["1 Q0 b 1.0 1 r".data, "1 Q0 a 2.0 2 r".data] := by
  exact ⟨by decide, by decide⟩

/-- C2 amended: on write every dict level that is iterated with
`sorted(list(keys()))` visits its keys in strictly ascending lexicographic
order — the top-level keys of all five components, the document level of
ProbabilisticRelevance, and the intent and document levels of Relevance —
and each write output is exactly the corresponding traversal; but the
measure columns of a Result row follow the first record's insertion order,
and a Run record's documents follow the stored sequence order. -/
theorem C2_sorted_write_amended :
    (∀ t : QueryT, NodKeys strEqB t →
      t.Perm (t.insertionSort keyLe) ∧
      ((t.insertionSort keyLe).map Prod.fst).Pairwise (fun a b => lexLtB a b = true) ∧
      Query.write t = (t.insertionSort keyLe).map (fun p => p.1 ++ ':' :: p.2)) ∧
    (∀ t : PRT, NodKeys strEqB t →
      ((t.insertionSort keyLe).map Prod.fst).Pairwise (fun a b => lexLtB a b = true)) ∧
    (∀ d : PRDocT, NodKeys strEqB d →
      ((d.insertionSort keyLe).map Prod.fst).Pairwise (fun a b => lexLtB a b = true)) ∧
    (∀ t : RelT, NodKeys strEqB t →
      ((t.insertionSort keyLe).map Prod.fst).Pairwise (fun a b => lexLtB a b = true)) ∧
    (∀ i : RelIntT, NodKeys strEqB i →
      ((i.insertionSort keyLe).map Prod.fst).Pairwise (fun a b => lexLtB a b = true)) ∧
    (∀ dm : RelDocT, NodKeys strEqB dm →
      ((dm.insertionSort keyLe).map Prod.fst).Pairwise (fun a b => lexLtB a b = true)) ∧
    (∀ t : ResT, NodKeys rkEqB t →
      ((t.insertionSort rkeyLe).map (fun p => p.1.text)).Pairwise
        (fun a b => lexLtB a b = true)) ∧
    (∀ (t : ResT) (rows : List (List Str)), Result.write t = .ok rows →
      ∃ k r0 rest body, t = (k, r0) :: rest ∧
        rows = ("runid".data :: "topic".data :: r0.map Prod.fst) :: body) ∧
    (∀ t : RunT, NodKeys strEqB t →
      ((t.insertionSort keyLe).map Prod.fst).Pairwise (fun a b => lexLtB a b = true)) ∧
    (∀ t : RunT,
      Run.write t = (t.insertionSort keyLe).flatMap (fun p => Run.writeBlock p.1 1 p.2)) ∧
    (∀ (q : Str) (es : List REnt),
      Run.writeBlock q 1 es = List.zipWith (Run.entryLine q) (List.range' 1 es.length) es) := by
  refine ⟨?_, fun t h => sortedKeys_strict t h, fun d h => sortedKeys_strict d h,
    fun t h => sortedKeys_strict t h, fun i h => sortedKeys_strict i h,
    fun dm h => sortedKeys_strict dm h, fun t h => sortedResKeys_strict t h, ?_,
    fun t h => sortedKeys_strict t h, fun t => rfl,
    fun q es => writeBlock_eq_zipWith q es 1⟩
  · intro t h
    exact ⟨(List.perm_insertionSort keyLe t).symm, sortedKeys_strict t h, rfl⟩
  · intro t rows h
    match t with
    | [] => cases h
    | (k, r0) :: rest =>
      have h' : (if ((k, r0) :: rest).all
            (fun p => p.2.all (fun mp => (r0.map Prod.fst).any (fun m => m == mp.1))) = true then
          (Except.ok (("runid".data :: "topic".data :: r0.map Prod.fst) ::
            (((k, r0) :: rest).insertionSort rkeyLe).map (fun p =>
              (p.1.runId.getD "_".data) :: p.1.text ::
                (r0.map Prod.fst).map (fun m =>
                  match luB strEqB p.2 m with
                  | none => []
                  | some none => "-nan".data
                  | some (some v) => format6 v))) : Except WErr (List (List Str)))
        else .error .extraField) = .ok rows := h
      by_cases hc : (((k, r0) :: rest).all
          (fun p => p.2.all (fun mp => (r0.map Prod.fst).any (fun m => m == mp.1)))) = true
      · rw [if_pos hc] at h'
        injection h' with h'
        exact ⟨k, r0, rest, _, rfl, h'.symm⟩
      · rw [if_neg hc] at h'
        cases h'

/-- C2 witness: the strictly-sorted traversal at a concrete two-entry Query
table inserted in descending key order. -/
theorem C2_sorted_write_amended_witness :
    ([("b".data, "1".data), ("a".data, "2".data)] : QueryT).Perm
      (([("b".data, "1".data), ("a".data, "2".data)] : QueryT).insertionSort keyLe) ∧
    ((([("b".data, "1".data), ("a".data, "2".data)] : QueryT).insertionSort keyLe).map
      Prod.fst).Pairwise (fun a b => lexLtB a b = true) ∧
    Query.write [("b".data, "1".data), ("a".data, "2".data)] =
      (([("b".data, "1".data), ("a".data, "2".data)] : QueryT).insertionSort keyLe).map
        (fun p => p.1 ++ ':' :: p.2) :=
  C2_sorted_write_amended.1 _ (by unfold NodKeys; decide)

/-! ### Claim C1 -/

theorem splitSep1_two {sep : Char} {l a b : Str} (h : splitSep1 sep l = [a, b]) :
    a = l.takeWhile (fun c => !(c == sep)) := by
  unfold splitSep1 at h
  cases hd : l.dropWhile (fun c => !(c == sep)) with
  | nil =>
    rw [hd] at h
    injection h with h1 h2
    cases h2
  | cons x tl =>
    rw [hd] at h
    injection h with h1 h2
    exact h1.symm

/-- The invariant of every `Query` table reachable by `read`: distinct keys,
keys free of the separator, values right-stripped. -/
def WFq (t : QueryT) : Prop :=
  NodKeys strEqB t ∧
    ∀ p ∈ t, p.1.all (fun c => !(c == ':')) = true ∧ rstripL p.2 = p.2

theorem query_readLine_wf {t0 t1 : QueryT} {l : Str}
    (h : Query.readLine t0 l = .ok t1) (hw : WFq t0) : WFq t1 := by
  unfold Query.readLine at h
  split at h
  next qid q heq =>
    injection h with h
    rw [← h]
    constructor
    · exact nodKeys_setB strEqB_iff _ _ hw.1
    · intro p hp
      constructor
      · rcases mem_setB hp with ⟨s, hs, hkey⟩ | hnew
        · rw [hkey]
          exact (hw.2 s hs).1
        · rw [hnew]
          rw [splitSep1_two heq]
          exact all_takeWhile _ _
      · rcases mem_setB_val hp with hin | hval
        · exact (hw.2 p hin).2
        · rw [hval]
          exact rstripL_idem q
  next _ =>
    cases h

theorem query_read_wf :
    ∀ (lines : List Str) (t0 t : QueryT),
      Query.read t0 lines = .ok t → WFq t0 → WFq t := by
  intro lines
  induction lines with
  | nil =>
    intro t0 t h hw
    injection h with h
    rw [← h]
    exact hw
  | cons l ls ih =>
    intro t0 t h hw
    cases hx : Query.readLine t0 l with
    | ok t1 =>
      have h2 : readFoldE Query.readLine t1 ls = .ok t := by
        unfold Query.read readFoldE at h
        rw [hx] at h
        exact h
      exact ih t1 t h2 (query_readLine_wf hx hw)
    | error t1 =>
      unfold Query.read readFoldE at h
      rw [hx] at h
      cases h

theorem Query.read_writeLines :
    ∀ (ps acc : QueryT),
      (∀ p ∈ ps, p.1.all (fun c => !(c == ':')) = true ∧ rstripL p.2 = p.2) →
      Query.read acc (ps.map (fun p => p.1 ++ ':' :: p.2)) =
        .ok (ps.foldl (fun t p => setB strEqB p.1 p.2 t) acc) := by
  intro ps
  induction ps with
  | nil =>
    intro acc _
    rfl
  | cons p ps ih =>
    intro acc hwf
    rw [List.map_cons]
    have hline : Query.readLine acc (p.1 ++ ':' :: p.2) = .ok (setB strEqB p.1 p.2 acc) := by
      unfold Query.readLine
      rw [splitSep1_exact (hwf p (List.mem_cons_self _ _)).1]
      show Except.ok (setB strEqB p.1 (rstripL p.2) acc) = _
      rw [(hwf p (List.mem_cons_self _ _)).2]
    unfold Query.read readFoldE
    rw [hline]
    exact ih (setB strEqB p.1 p.2 acc) (fun q hq => hwf q (List.mem_cons_of_mem _ hq))

/-- The `Query` round-trip: re-reading the written file yields the sorted
table, which is dict-equal to the original. -/
theorem Query_roundtrip (lines : List Str) (t : QueryT) (h : Query.read [] lines = .ok t) :
    Query.read [] (Query.write t) = .ok (t.insertionSort keyLe) ∧
    Query.eqB t (t.insertionSort keyLe) = true := by
  have hwf : WFq t := query_read_wf lines [] t h ⟨List.Pairwise.nil, by intro p hp; cases hp⟩
  have hps : ∀ p ∈ t.insertionSort keyLe,
      p.1.all (fun c => !(c == ':')) = true ∧ rstripL p.2 = p.2 :=
    fun p hp => hwf.2 p ((List.perm_insertionSort keyLe t).subset hp)
  have hnd2 : NodKeys strEqB (t.insertionSort keyLe) :=
    nodKeys_perm strEqB_iff (List.perm_insertionSort keyLe t).symm hwf.1
  constructor
  · show Query.read [] ((t.insertionSort keyLe).map (fun p => p.1 ++ ':' :: p.2)) = _
    rw [Query.read_writeLines (t.insertionSort keyLe) [] hps]
    rw [foldl_setB_fresh strEqB_iff _ [] (by rw [List.nil_append]; exact hnd2)]
    rw [List.nil_append]
  · exact alEqB_of_perm strEqB_iff hwf.1 (List.perm_insertionSort keyLe t).symm
      (fun p _ => (strEqB_iff p.2 p.2).mpr rfl)

theorem tokOk_ne_nil {t : Str} (h : tokOkB t = true) : t ≠ [] := by
  unfold tokOkB at h
  rcases Bool.and_eq_true .. |>.mp h with ⟨h1, _⟩
  intro he
  rw [he] at h1
  exact absurd h1 (by decide)

theorem tokOk_all {t : Str} (h : tokOkB t = true) : t.all (fun c => !isPyWs c) = true :=
  (Bool.and_eq_true .. |>.mp h).2

theorem all_not_ws_head {t : Str} (h : t.all (fun c => !isPyWs c) = true) :
    ∀ c u, t = c :: u → isPyWs c = false := by
  intro c u he
  rw [he, List.all_cons, Bool.and_eq_true] at h
  simpa using h.1

theorem all_not_ws_last {t : Str} (h : t.all (fun c => !isPyWs c) = true) :
    ∀ c u, t.reverse = c :: u → isPyWs c = false := by
  intro c u he
  have hc : c ∈ t := by
    rw [← List.mem_reverse, he]
    exact List.mem_cons_self _ _
  have := List.all_eq_true.mp h c hc
  simpa using this

theorem joinSep_last_shape :
    ∀ (ts : List Str) (t : Str), ts.getLast? = some t → ∃ pre, joinSep ts = pre ++ t := by
  intro ts
  induction ts with
  | nil =>
    intro t h
    cases h
  | cons t0 rest ih =>
    intro t h
    cases rest with
    | nil =>
      have h0 : some t0 = some t := (rfl : [t0].getLast? = some t0).symm.trans h
      injection h0 with h0
      exact ⟨[], by rw [← h0]; rfl⟩
    | cons t1 rest2 =>
      have h2 : (t1 :: rest2).getLast? = some t := h
      rcases ih t h2 with ⟨pre, hpre⟩
      refine ⟨t0 ++ ' ' :: pre, ?_⟩
      rw [joinSep_cons (by intro hx; cases hx), hpre, List.append_assoc, List.cons_append]

/-- Joining whitespace-free-ended tokens needs no stripping. -/
theorem stripL_joinSep_toks {ts : List Str} (hne : ts ≠ [])
    (hhead : ∀ f rest, ts = f :: rest → f ≠ [] ∧ ∀ c u, f = c :: u → isPyWs c = false)
    (hlast : ∀ l, ts.getLast? = some l → l ≠ [] ∧ ∀ c u, l.reverse = c :: u → isPyWs c = false) :
    stripL (joinSep ts) = joinSep ts := by
  match ts, hne with
  | f :: rest, _ =>
    rcases hhead f rest rfl with ⟨hf, hfh⟩
    match f, hf with
    | c0 :: u0, _ =>
      have hheadeq : ∃ w, joinSep ((c0 :: u0) :: rest) = c0 :: w := by
        cases rest with
        | nil => exact ⟨u0, rfl⟩
        | cons t1 rest2 =>
          exact ⟨u0 ++ ' ' :: joinSep (t1 :: rest2),
            by rw [joinSep_cons (by intro hx; cases hx)]; rfl⟩
      rcases hheadeq with ⟨w, hw⟩
      have hlastex : ∃ l, ((c0 :: u0) :: rest).getLast? = some l := by
        cases hx : ((c0 :: u0) :: rest).getLast? with
        | some l => exact ⟨l, rfl⟩
        | none => rw [List.getLast?_eq_none_iff] at hx; cases hx
      rcases hlastex with ⟨l, hl⟩
      rcases hlast l hl with ⟨hlne, hlrev⟩
      rcases joinSep_last_shape _ l hl with ⟨pre, hpre⟩
      match hrev : l.reverse with
      | [] =>
        rw [List.reverse_eq_nil_iff] at hrev
        exact absurd hrev hlne
      | cl :: ul =>
        have hrevj : (joinSep ((c0 :: u0) :: rest)).reverse = cl :: (ul ++ pre.reverse) := by
          rw [hpre, List.reverse_append, hrev, List.cons_append]
        exact stripL_eq_self hw (hfh c0 u0 rfl) hrevj (hlrev cl ul hrev)

theorem setB_snoc {keq : κ → κ → Bool} :
    ∀ {u : List (κ × α)} {k k0 : κ} {w v : α}, luB keq u k = none → keq k0 k = true →
      setB keq k v (u ++ [(k0, w)]) = u ++ [(k0, v)] := by
  intro u
  induction u with
  | nil =>
    intro k k0 w v _ hk
    show (if keq k0 k = true then _ else _) = _
    rw [if_pos hk]
    rfl
  | cons p ps ih =>
    intro k k0 w v hfresh hk
    rw [luB] at hfresh
    by_cases hp : keq p.1 k = true
    · rw [if_pos hp] at hfresh
      cases hfresh
    · rw [if_neg hp] at hfresh
      rw [List.cons_append]
      show (if keq p.1 k = true then _ else _) = _
      rw [if_neg hp, ih hfresh hk]
      rfl

theorem luB_snoc_self {keq : κ → κ → Bool} {u : List (κ × α)} {k : κ} {w : α}
    (hfresh : luB keq u k = none) (hk : keq k k = true) :
    luB keq (u ++ [(k, w)]) k = some w := by
  rw [luB_append, hfresh]
  show luB keq [(k, w)] k = some w
  rw [luB, hk]
  rfl

theorem luB_map_val {g : α → β} {keq : κ → κ → Bool} :
    ∀ (l : List (κ × α)) (k : κ),
      luB keq (l.map (fun p => (p.1, g p.2))) k = (luB keq l k).map g := by
  intro l
  induction l with
  | nil => intro k; rfl
  | cons p ps ih =>
    intro k
    rw [List.map_cons, luB, luB]
    by_cases hp : keq p.1 k = true
    · rw [if_pos hp, if_pos hp]
      rfl
    · rw [if_neg hp, if_neg hp]
      exact ih k

/-- The table updates performed while re-reading a written relevance file:
one `setQID` per emitted line, in emission order. -/
def qidFold (acc : List (Str × List (Str × List (Str × α)))) :
    List (Str × Str × Str × α) → List (Str × List (Str × List (Str × α)))
  | [] => acc
  | (q, i, d, v) :: rest => qidFold (setQID acc q i d v) rest

/-- The (query, intent, document, value) quadruples of a nested table, in
the nested traversal order of `write`. -/
def qidTriples (t : List (Str × List (Str × List (Str × α)))) : List (Str × Str × Str × α) :=
  t.flatMap (fun p => p.2.flatMap (fun ip => ip.2.map (fun dp => (p.1, ip.1, dp.1, dp.2))))

theorem qidFold_append {α : Type} :
    ∀ (l1 l2 : List (Str × Str × Str × α)) (acc : List (Str × List (Str × List (Str × α)))),
      qidFold acc (l1 ++ l2) = qidFold (qidFold acc l1) l2 := by
  intro l1
  induction l1 with
  | nil => intro l2 acc; rfl
  | cons e l1 ih =>
    intro l2 acc
    obtain ⟨q, i, d, v⟩ := e
    show qidFold (setQID acc q i d v) (l1 ++ l2) = _
    exact ih l2 (setQID acc q i d v)

theorem qidFold_docs {α : Type} :
    ∀ (ds dm : List (Str × α)) (t' : List (Str × List (Str × List (Str × α))))
      (q i : Str) (im' : List (Str × List (Str × α))),
      luB strEqB t' q = none → luB strEqB im' i = none →
      NodKeys strEqB (dm ++ ds) →
      qidFold (t' ++ [(q, im' ++ [(i, dm)])]) (ds.map (fun dp => (q, i, dp.1, dp.2))) =
        t' ++ [(q, im' ++ [(i, dm ++ ds)])] := by
  intro ds
  induction ds with
  | nil =>
    intro dm t' q i im' _ _ _
    show t' ++ [(q, im' ++ [(i, dm)])] = t' ++ [(q, im' ++ [(i, dm ++ [])])]
    rw [List.append_nil]
  | cons dp ds ih =>
    intro dm t' q i im' hq hi hnd
    obtain ⟨d0, v0⟩ := dp
    rw [List.map_cons]
    show qidFold (setQID (t' ++ [(q, im' ++ [(i, dm)])]) q i d0 v0) _ = _
    have h1 : getOr strEqB (t' ++ [(q, im' ++ [(i, dm)])]) q [] = im' ++ [(i, dm)] := by
      unfold getOr
      rw [luB_snoc_self hq ((strEqB_iff q q).mpr rfl)]
      rfl
    have h2 : getOr strEqB (im' ++ [(i, dm)]) i [] = dm := by
      unfold getOr
      rw [luB_snoc_self hi ((strEqB_iff i i).mpr rfl)]
      rfl
    have hstep : setQID (t' ++ [(q, im' ++ [(i, dm)])]) q i d0 v0 =
        t' ++ [(q, im' ++ [(i, dm ++ [(d0, v0)])])] := by
      show setB strEqB q
          (setB strEqB i
            (setB strEqB d0 v0
              (getOr strEqB (getOr strEqB (t' ++ [(q, im' ++ [(i, dm)])]) q []) i []))
            (getOr strEqB (t' ++ [(q, im' ++ [(i, dm)])]) q []))
          (t' ++ [(q, im' ++ [(i, dm)])]) = _
      rw [h1, h2]
      have h3 : setB strEqB d0 v0 dm = dm ++ [(d0, v0)] := by
        apply setB_absent
        rw [luB_eq_none_iff]
        intro p hp
        exact (List.pairwise_append.mp hnd).2.2 p hp (d0, v0) (List.mem_cons_self _ _)
      rw [h3, setB_snoc hi ((strEqB_iff i i).mpr rfl)]
      exact setB_snoc hq ((strEqB_iff q q).mpr rfl)
    rw [hstep]
    have hnd' : NodKeys strEqB ((dm ++ [(d0, v0)]) ++ ds) := by
      rw [List.append_assoc, List.singleton_append]
      exact hnd
    have hres := ih (dm ++ [(d0, v0)]) t' q i im' hq hi hnd'
    refine hres.trans ?_
    rw [List.append_assoc, List.singleton_append]

theorem qidFold_ints {α : Type} :
    ∀ (is : List (Str × List (Str × α))) (im' : List (Str × List (Str × α)))
      (t' : List (Str × List (Str × List (Str × α)))) (q : Str),
      luB strEqB t' q = none →
      NodKeys strEqB (im' ++ is) →
      (∀ ip ∈ is, NodKeys strEqB ip.2 ∧ ip.2 ≠ []) →
      qidFold (t' ++ [(q, im')])
        (is.flatMap (fun ip => ip.2.map (fun dp => (q, ip.1, dp.1, dp.2)))) =
        t' ++ [(q, im' ++ is)] := by
  intro is
  induction is with
  | nil =>
    intro im' t' q _ _ _
    show t' ++ [(q, im')] = t' ++ [(q, im' ++ [])]
    rw [List.append_nil]
  | cons ip is ih =>
    intro im' t' q hq hnd hwf
    obtain ⟨i0, ds0⟩ := ip
    rcases hwf (i0, ds0) (List.mem_cons_self _ _) with ⟨hndds, hdsne⟩
    match ds0, hndds, hdsne, hnd, hwf with
    | dp0 :: ds0', hndds, _, hnd, hwf =>
      obtain ⟨d0, v0⟩ := dp0
      have hi0 : luB strEqB im' i0 = none := by
        rw [luB_eq_none_iff]
        intro p hp
        exact (List.pairwise_append.mp hnd).2.2 p hp ((i0, (d0, v0) :: ds0'))
          (List.mem_cons_self _ _)
      have h1 : getOr strEqB (t' ++ [(q, im')]) q [] = im' := by
        unfold getOr
        rw [luB_snoc_self hq ((strEqB_iff q q).mpr rfl)]
        rfl
      have h2 : getOr strEqB im' i0 [] = [] := by
        unfold getOr
        rw [hi0]
        rfl
      have hstep : setQID (t' ++ [(q, im')]) q i0 d0 v0 =
          t' ++ [(q, im' ++ [(i0, [(d0, v0)])])] := by
        show setB strEqB q
            (setB strEqB i0
              (setB strEqB d0 v0
                (getOr strEqB (getOr strEqB (t' ++ [(q, im')]) q []) i0 []))
              (getOr strEqB (t' ++ [(q, im')]) q []))
            (t' ++ [(q, im')]) = _
        rw [h1, h2]
        have h3 : setB strEqB i0 (setB strEqB d0 v0 []) im' = im' ++ [(i0, [(d0, v0)])] :=
          setB_absent hi0
        rw [h3]
        exact setB_snoc hq ((strEqB_iff q q).mpr rfl)
      have hsplit : qidFold (t' ++ [(q, im')])
          (((i0, (d0, v0) :: ds0') :: is).flatMap
            (fun ip => ip.2.map (fun dp => (q, ip.1, dp.1, dp.2)))) =
          qidFold (qidFold (setQID (t' ++ [(q, im')]) q i0 d0 v0)
              (ds0'.map (fun dp => (q, i0, dp.1, dp.2))))
            (is.flatMap (fun ip => ip.2.map (fun dp => (q, ip.1, dp.1, dp.2)))) := by
        show qidFold (t' ++ [(q, im')])
            (((q, i0, d0, v0) :: ds0'.map (fun dp => (q, i0, dp.1, dp.2))) ++
              is.flatMap (fun ip => ip.2.map (fun dp => (q, ip.1, dp.1, dp.2)))) = _
        rw [List.cons_append]
        show qidFold (setQID (t' ++ [(q, im')]) q i0 d0 v0)
            (ds0'.map (fun dp => (q, i0, dp.1, dp.2)) ++
              is.flatMap (fun ip => ip.2.map (fun dp => (q, ip.1, dp.1, dp.2)))) = _
        exact qidFold_append _ _ _
      rw [hsplit, hstep]
      rw [qidFold_docs ds0' [(d0, v0)] t' q i0 im' hq hi0
        (by rw [List.singleton_append]; exact hndds)]
      have hnd2 : NodKeys strEqB ((im' ++ [(i0, (d0, v0) :: ds0')]) ++ is) := by
        rw [List.append_assoc, List.singleton_append]
        exact hnd
      have hres := ih (im' ++ [(i0, (d0, v0) :: ds0')]) t' q hq hnd2
        (fun ip hip => hwf ip (List.mem_cons_of_mem _ hip))
      have hpre : t' ++ [(q, im' ++ [(i0, [(d0, v0)] ++ ds0')])] =
          t' ++ [(q, im' ++ [(i0, (d0, v0) :: ds0')])] := by
        rw [List.singleton_append]
      rw [hpre, hres, List.append_assoc, List.singleton_append]

theorem qidFold_block {α : Type} :
    ∀ (im : List (Str × List (Str × α))) (acc : List (Str × List (Str × List (Str × α))))
      (q : Str),
      luB strEqB acc q = none → NodKeys strEqB im → im ≠ [] →
      (∀ ip ∈ im, NodKeys strEqB ip.2 ∧ ip.2 ≠ []) →
      qidFold acc (im.flatMap (fun ip => ip.2.map (fun dp => (q, ip.1, dp.1, dp.2)))) =
        acc ++ [(q, im)] := by
  intro im acc q hq hnd hne hwf
  match im, hnd, hne, hwf with
  | (i0, ds0) :: im', hnd, _, hwf =>
    rcases hwf (i0, ds0) (List.mem_cons_self _ _) with ⟨hnd0, hne0⟩
    match ds0, hnd0, hne0, hnd, hwf with
    | (d0, v0) :: ds0', hnd0, _, hnd, hwf =>
      have hstep : setQID acc q i0 d0 v0 = acc ++ [(q, [(i0, [(d0, v0)])])] := by
        have h1 : getOr strEqB acc q [] = [] := by
          unfold getOr
          rw [hq]
          rfl
        show setB strEqB q
            (setB strEqB i0
              (setB strEqB d0 v0 (getOr strEqB (getOr strEqB acc q []) i0 []))
              (getOr strEqB acc q []))
            acc = _
        rw [h1]
        exact setB_absent hq
      have hsplit : qidFold acc
          (((i0, (d0, v0) :: ds0') :: im').flatMap
            (fun ip => ip.2.map (fun dp => (q, ip.1, dp.1, dp.2)))) =
          qidFold (qidFold (setQID acc q i0 d0 v0)
              (ds0'.map (fun dp => (q, i0, dp.1, dp.2))))
            (im'.flatMap (fun ip => ip.2.map (fun dp => (q, ip.1, dp.1, dp.2)))) := by
        show qidFold acc
            (((q, i0, d0, v0) :: ds0'.map (fun dp => (q, i0, dp.1, dp.2))) ++
              im'.flatMap (fun ip => ip.2.map (fun dp => (q, ip.1, dp.1, dp.2)))) = _
        rw [List.cons_append]
        show qidFold (setQID acc q i0 d0 v0)
            (ds0'.map (fun dp => (q, i0, dp.1, dp.2)) ++
              im'.flatMap (fun ip => ip.2.map (fun dp => (q, ip.1, dp.1, dp.2)))) = _
        exact qidFold_append _ _ _
      rw [hsplit, hstep]
      have hdocs := qidFold_docs ds0' [(d0, v0)] acc q i0 [] hq rfl
        (by rw [List.singleton_append]; exact hnd0)
      rw [show (acc ++ [(q, [(i0, [(d0, v0)])])] : List (Str × List (Str × List (Str × α)))) =
        acc ++ [(q, [] ++ [(i0, [(d0, v0)])])] from rfl, hdocs]
      have hnd2 : NodKeys strEqB ([(i0, (d0, v0) :: ds0')] ++ im') := by
        rw [List.singleton_append]
        exact hnd
      have hres := qidFold_ints im' [(i0, (d0, v0) :: ds0')] acc q hq hnd2
        (fun ip hip => hwf ip (List.mem_cons_of_mem _ hip))
      have hpre : acc ++ [(q, [] ++ [(i0, [(d0, v0)] ++ ds0')])] =
          acc ++ [(q, [(i0, (d0, v0) :: ds0')])] := by
        rw [List.nil_append, List.singleton_append]
      rw [hpre, hres, List.singleton_append]

theorem qidFold_top {α : Type} :
    ∀ (ts acc : List (Str × List (Str × List (Str × α)))),
      NodKeys strEqB (acc ++ ts) →
      (∀ p ∈ ts, NodKeys strEqB p.2 ∧ p.2 ≠ [] ∧
        ∀ ip ∈ p.2, NodKeys strEqB ip.2 ∧ ip.2 ≠ []) →
      qidFold acc (qidTriples ts) = acc ++ ts := by
  intro ts
  induction ts with
  | nil =>
    intro acc _ _
    show acc = acc ++ []
    rw [List.append_nil]
  | cons p ts ih =>
    intro acc hnd hwf
    obtain ⟨q, im⟩ := p
    rcases hwf (q, im) (List.mem_cons_self _ _) with ⟨hndim, himne, hips⟩
    have hq : luB strEqB acc q = none := by
      rw [luB_eq_none_iff]
      intro a ha
      exact (List.pairwise_append.mp hnd).2.2 a ha (q, im) (List.mem_cons_self _ _)
    have hsplit : qidFold acc (qidTriples ((q, im) :: ts)) =
        qidFold (qidFold acc
            (im.flatMap (fun ip => ip.2.map (fun dp => (q, ip.1, dp.1, dp.2)))))
          (qidTriples ts) := by
      show qidFold acc
          ((im.flatMap (fun ip => ip.2.map (fun dp => (q, ip.1, dp.1, dp.2)))) ++
            qidTriples ts) = _
      exact qidFold_append _ _ _
    rw [hsplit, qidFold_block im acc q hq hndim himne hips]
    have hnd2 : NodKeys strEqB ((acc ++ [(q, im)]) ++ ts) := by
      rw [List.append_assoc, List.singleton_append]
      exact hnd
    have hres := ih (acc ++ [(q, im)]) hnd2 (fun p hp => hwf p (List.mem_cons_of_mem _ hp))
    rw [hres, List.append_assoc, List.singleton_append]

theorem setB_ne_nil {keq : κ → κ → Bool} (k : κ) (v : α) (t : List (κ × α)) :
    setB keq k v t ≠ [] := by
  cases t with
  | nil =>
    intro h
    cases h
  | cons p ps =>
    show (if keq p.1 k = true then _ else _) ≠ []
    by_cases hp : keq p.1 k = true
    · rw [if_pos hp]
      intro h
      cases h
    · rw [if_neg hp]
      intro h
      cases h

theorem getOr_cases {keq : κ → κ → Bool} (t : List (κ × α)) (k : κ) (d : α) :
    getOr keq t k d = d ∨ ∃ p ∈ t, getOr keq t k d = p.2 := by
  unfold getOr
  cases h : luB keq t k with
  | none => exact Or.inl rfl
  | some v =>
    rcases luB_eq_some_elim h with ⟨p, hp, _, hv⟩
    exact Or.inr ⟨p, hp, by rw [hv]; rfl⟩

/-- The invariant of the nested tables reachable by the relevance `read`s:
distinct whitespace-free keys at every level, no empty nested map, and `P`
on every stored value. -/
def WF3 {α : Type} (P : α → Prop) (t : List (Str × List (Str × List (Str × α)))) : Prop :=
  NodKeys strEqB t ∧ ∀ p ∈ t, tokOkB p.1 = true ∧ NodKeys strEqB p.2 ∧ p.2 ≠ [] ∧
    ∀ ip ∈ p.2, tokOkB ip.1 = true ∧ NodKeys strEqB ip.2 ∧ ip.2 ≠ [] ∧
      ∀ dp ∈ ip.2, tokOkB dp.1 = true ∧ P dp.2

theorem wf3_parts {α : Type} {P : α → Prop} {t : List (Str × List (Str × List (Str × α)))}
    {q i d : Str} {v : α} (hw : WF3 P t) (hq : tokOkB q = true) (hi : tokOkB i = true)
    (hd : tokOkB d = true) (hv : P v)
    {im : List (Str × List (Str × α))} {dm : List (Str × α)}
    (him : im = [] ∨ ∃ p ∈ t, p.2 = im)
    (hdm : dm = [] ∨ ∃ ip ∈ im, ip.2 = dm) :
    WF3 P (setB strEqB q (setB strEqB i (setB strEqB d v dm) im) t) := by
  have himwf : NodKeys strEqB im ∧ ∀ ip ∈ im, tokOkB ip.1 = true ∧
      NodKeys strEqB ip.2 ∧ ip.2 ≠ [] ∧ ∀ dp ∈ ip.2, tokOkB dp.1 = true ∧ P dp.2 := by
    rcases him with he | ⟨p0, hp0, hpe⟩
    · rw [he]
      exact ⟨List.Pairwise.nil, by intro ip hip; cases hip⟩
    · rcases hw.2 p0 hp0 with ⟨_, h1, _, h2⟩
      rw [← hpe]
      exact ⟨h1, h2⟩
  have hdmwf : NodKeys strEqB dm ∧ ∀ dp ∈ dm, tokOkB dp.1 = true ∧ P dp.2 := by
    rcases hdm with he | ⟨ip0, hip0, hie⟩
    · rw [he]
      exact ⟨List.Pairwise.nil, by intro dp hdp; cases hdp⟩
    · rcases himwf.2 ip0 hip0 with ⟨_, h2, _, h3⟩
      rw [← hie]
      exact ⟨h2, h3⟩
  have hdm2 : ∀ dp ∈ setB strEqB d v dm, tokOkB dp.1 = true ∧ P dp.2 := by
    intro dp hdp
    constructor
    · rcases mem_setB hdp with ⟨s, hs, hkey⟩ | hnew
      · rw [hkey]
        exact (hdmwf.2 s hs).1
      · rw [hnew]
        exact hd
    · rcases mem_setB_val hdp with hin | hval
      · exact (hdmwf.2 dp hin).2
      · rw [hval]
        exact hv
  have hnewim : ∀ ip ∈ setB strEqB i (setB strEqB d v dm) im, tokOkB ip.1 = true ∧
      NodKeys strEqB ip.2 ∧ ip.2 ≠ [] ∧ ∀ dp ∈ ip.2, tokOkB dp.1 = true ∧ P dp.2 := by
    intro ip hip
    refine ⟨?_, ?_⟩
    · rcases mem_setB hip with ⟨s, hs, hkey⟩ | hnew
      · rw [hkey]
        exact (himwf.2 s hs).1
      · rw [hnew]
        exact hi
    · rcases mem_setB_val hip with hin | hval
      · exact (himwf.2 ip hin).2
      · rw [hval]
        exact ⟨nodKeys_setB strEqB_iff _ _ hdmwf.1, setB_ne_nil _ _ _, hdm2⟩
  constructor
  · exact nodKeys_setB strEqB_iff _ _ hw.1
  · intro p hp
    refine ⟨?_, ?_⟩
    · rcases mem_setB hp with ⟨s, hs, hkey⟩ | hnew
      · rw [hkey]
        exact (hw.2 s hs).1
      · rw [hnew]
        exact hq
    · rcases mem_setB_val hp with hin | hval
      · exact (hw.2 p hin).2
      · rw [hval]
        exact ⟨nodKeys_setB strEqB_iff _ _ himwf.1, setB_ne_nil _ _ _, hnewim⟩

theorem wf3_setQID {α : Type} {P : α → Prop} {t : List (Str × List (Str × List (Str × α)))}
    {q i d : Str} {v : α} (hw : WF3 P t) (hq : tokOkB q = true) (hi : tokOkB i = true)
    (hd : tokOkB d = true) (hv : P v) : WF3 P (setQID t q i d v) := by
  show WF3 P (setB strEqB q
      (setB strEqB i (setB strEqB d v (getOr strEqB (getOr strEqB t q []) i []))
        (getOr strEqB t q []))
      t)
  refine wf3_parts hw hq hi hd hv ?_ ?_
  · rcases @getOr_cases _ _ strEqB t q [] with h | ⟨p, hp, hpe⟩
    · exact Or.inl h
    · exact Or.inr ⟨p, hp, hpe.symm⟩
  · rcases @getOr_cases _ _ strEqB (getOr strEqB t q []) i [] with h | ⟨p, hp, hpe⟩
    · exact Or.inl h
    · exact Or.inr ⟨p, hp, hpe.symm⟩

theorem rel_readLine_wf {t0 t1 : RelT} {l : Str}
    (h : Relevance.readLine t0 l = .ok t1) (hw : WF3 (fun _ : Int => True) t0) :
    WF3 (fun _ => True) t1 := by
  unfold Relevance.readLine at h
  split at h
  next q i d r heq =>
    cases hv : parsePyInt r with
    | none =>
      rw [hv] at h
      cases h
    | some v =>
      rw [hv] at h
      injection h with h
      rw [← h]
      have hshape := splitWsMax_shape 3 (stripL l)
        (fun c t hc => stripL_head_ws hc) (fun c t hc => stripL_last_ws hc)
      rw [heq] at hshape
      have hq : tokOkB q = true := hshape.1 q (by simp)
      have hi : tokOkB i = true := hshape.1 i (by simp)
      have hd : tokOkB d = true := hshape.1 d (by simp)
      exact wf3_setQID hw hq hi hd trivial
  next =>
    cases h

theorem rel_read_wf :
    ∀ (lines : List Str) (t0 t : RelT),
      Relevance.read t0 lines = .ok t → WF3 (fun _ : Int => True) t0 →
      WF3 (fun _ => True) t := by
  intro lines
  induction lines with
  | nil =>
    intro t0 t h hw
    injection h with h
    rw [← h]
    exact hw
  | cons l ls ih =>
    intro t0 t h hw
    cases hx : Relevance.readLine t0 l with
    | ok t1 =>
      have h2 : readFoldE Relevance.readLine t1 ls = .ok t := by
        unfold Relevance.read readFoldE at h
        rw [hx] at h
        exact h
      exact ih t1 t h2 (rel_readLine_wf hx hw)
    | error t1 =>
      unfold Relevance.read readFoldE at h
      rw [hx] at h
      cases h

theorem rel_readLine_eval {q i d : Str} {v : Int} (acc : RelT)
    (hq : tokOkB q = true) (hi : tokOkB i = true) (hd : tokOkB d = true) :
    Relevance.readLine acc (joinSep [q, i, d, intDec v]) = .ok (setQID acc q i d v) := by
  have hstrip : stripL (joinSep [q, i, d, intDec v]) = joinSep [q, i, d, intDec v] := by
    apply stripL_joinSep_toks (by intro hx; cases hx)
    · intro f rest hf
      injection hf with h1 h2
      rw [← h1]
      exact ⟨tokOk_ne_nil hq, all_not_ws_head (tokOk_all hq)⟩
    · intro lastF hl
      have h0 : some (intDec v) = some lastF :=
        (rfl : ([q, i, d, intDec v].getLast? : Option Str) = some (intDec v)).symm.trans hl
      injection h0 with h0
      rw [← h0]
      exact ⟨tokOk_ne_nil (tokOkB_intDec v), all_not_ws_last (tokOk_all (tokOkB_intDec v))⟩
  have hsplit : splitWsMax 3 (stripL (joinSep [q, i, d, intDec v])) = [q, i, d, intDec v] := by
    rw [hstrip]
    apply splitWsMax_joinSep 3 [q, i, d, intDec v] rfl
    · intro tk htk
      have htk2 : tk ∈ [q, i, d] := htk
      rcases List.mem_cons.mp htk2 with h1 | htk3
      · rw [h1]; exact hq
      rcases List.mem_cons.mp htk3 with h2 | htk4
      · rw [h2]; exact hi
      rcases List.mem_cons.mp htk4 with h3 | htk5
      · rw [h3]; exact hd
      cases htk5
    · intro c cs hlast
      have h0 : some (intDec v) = some (c :: cs) :=
        (rfl : ([q, i, d, intDec v].getLast? : Option Str) = some (intDec v)).symm.trans hlast
      injection h0 with h0
      exact all_not_ws_head (tokOk_all (tokOkB_intDec v)) c cs h0
    · intro hnil
      have h0 : some (intDec v) = some [] :=
        (rfl : ([q, i, d, intDec v].getLast? : Option Str) = some (intDec v)).symm.trans hnil
      injection h0 with h0
      exact tokOk_ne_nil (tokOkB_intDec v) h0
  unfold Relevance.readLine
  rw [hsplit]
  show (match parsePyInt (intDec v) with
    | some v2 => Except.ok (setQID acc q i d v2)
    | none => Except.error acc) = _
  rw [parsePyInt_intDec]

theorem rel_read_lines :
    ∀ (es : List (Str × Str × Str × Int)) (acc : RelT),
      (∀ e ∈ es, tokOkB e.1 = true ∧ tokOkB e.2.1 = true ∧ tokOkB e.2.2.1 = true) →
      Relevance.read acc
        (es.map (fun e => joinSep [e.1, e.2.1, e.2.2.1, intDec e.2.2.2])) =
        .ok (qidFold acc es) := by
  intro es
  induction es with
  | nil =>
    intro acc _
    rfl
  | cons e es ih =>
    intro acc hok
    obtain ⟨q, i, d, v⟩ := e
    rcases hok (q, i, d, v) (List.mem_cons_self _ _) with ⟨hq, hi, hd⟩
    rw [List.map_cons]
    unfold Relevance.read readFoldE
    rw [rel_readLine_eval acc hq hi hd]
    exact ih (setQID acc q i d v) (fun e he => hok e (List.mem_cons_of_mem _ he))

/-- One sorted level of the rebuilt table. -/
def sortIm {α : Type} (im : List (Str × List (Str × α))) : List (Str × List (Str × α)) :=
  (im.insertionSort keyLe).map (fun ip => (ip.1, ip.2.insertionSort keyLe))

/-- The fully sorted copy of a nested table: what re-reading a written
relevance file rebuilds. -/
def sortTab3 {α : Type} (t : List (Str × List (Str × List (Str × α)))) :
    List (Str × List (Str × List (Str × α))) :=
  (t.insertionSort keyLe).map (fun p => (p.1, sortIm p.2))

theorem rel_write_eq_lines (t : RelT) :
    Relevance.write t =
      (qidTriples (sortTab3 t)).map
        (fun e => joinSep [e.1, e.2.1, e.2.2.1, intDec e.2.2.2]) := by
  show (t.insertionSort keyLe).flatMap (fun p =>
      (p.2.insertionSort keyLe).flatMap (fun ip =>
        (ip.2.insertionSort keyLe).map (fun dp =>
          joinSep [p.1, ip.1, dp.1, intDec dp.2]))) = _
  unfold qidTriples sortTab3 sortIm
  rw [List.flatMap_map, List.map_flatMap]
  apply List.flatMap_congr
  intro p _
  rw [List.flatMap_map, List.map_flatMap]
  apply List.flatMap_congr
  intro ip _
  rw [List.map_map]
  rfl

theorem map_ne_nil {f : α → β} {l : List α} (h : l ≠ []) : l.map f ≠ [] := by
  cases l with
  | nil => exact absurd rfl h
  | cons a as =>
    intro hx
    cases hx

theorem nodKeys_map_val {g : α → β} {keq : κ → κ → Bool} {l : List (κ × α)}
    (h : NodKeys keq l) : NodKeys keq (l.map (fun p => (p.1, g p.2))) := by
  unfold NodKeys at *
  rw [List.pairwise_map]
  exact h.imp (fun hab => hab)

theorem insertionSort_ne_nil {r : α → α → Prop} [DecidableRel r] {l : List α} (h : l ≠ []) :
    l.insertionSort r ≠ [] := by
  intro hx
  exact h ((List.perm_insertionSort r l).symm.trans (hx ▸ List.Perm.refl _)).eq_nil

theorem wf3_sortTab3 {α : Type} {P : α → Prop} {t : List (Str × List (Str × List (Str × α)))}
    (hw : WF3 P t) : WF3 P (sortTab3 t) := by
  constructor
  · show NodKeys strEqB ((t.insertionSort keyLe).map (fun p => (p.1, sortIm p.2)))
    exact nodKeys_map_val
      (nodKeys_perm strEqB_iff (List.perm_insertionSort keyLe t).symm hw.1)
  · intro p hp
    have hp2 : p ∈ (t.insertionSort keyLe).map (fun p => (p.1, sortIm p.2)) := hp
    rcases List.mem_map.mp hp2 with ⟨p0, hp0, hpe⟩
    have hp0' := (List.perm_insertionSort keyLe t).subset hp0
    rcases hw.2 p0 hp0' with ⟨htok, hndim, hne, hips⟩
    rw [← hpe]
    refine ⟨htok, ?_, ?_, ?_⟩
    · show NodKeys strEqB
        ((p0.2.insertionSort keyLe).map (fun ip => (ip.1, ip.2.insertionSort keyLe)))
      exact nodKeys_map_val
        (nodKeys_perm strEqB_iff (List.perm_insertionSort keyLe p0.2).symm hndim)
    · show ((p0.2.insertionSort keyLe).map (fun ip => (ip.1, ip.2.insertionSort keyLe))) ≠ []
      exact map_ne_nil (insertionSort_ne_nil hne)
    · intro ip hip
      have hip2 : ip ∈ (p0.2.insertionSort keyLe).map
          (fun ip => (ip.1, ip.2.insertionSort keyLe)) := hip
      rcases List.mem_map.mp hip2 with ⟨ip0, hip0, hipe⟩
      have hip0' := (List.perm_insertionSort keyLe p0.2).subset hip0
      rcases hips ip0 hip0' with ⟨htok2, hnddm, hne2, hdps⟩
      rw [← hipe]
      refine ⟨htok2, ?_, ?_, ?_⟩
      · exact nodKeys_perm strEqB_iff (List.perm_insertionSort keyLe ip0.2).symm hnddm
      · exact insertionSort_ne_nil hne2
      · intro dp hdp
        exact hdps dp ((List.perm_insertionSort keyLe ip0.2).subset hdp)

theorem qidTriples_mem {α : Type} {t : List (Str × List (Str × List (Str × α)))}
    {e : Str × Str × Str × α} (he : e ∈ qidTriples t) :
    ∃ p ∈ t, ∃ ip ∈ p.2, ∃ dp ∈ ip.2, e = (p.1, ip.1, dp.1, dp.2) := by
  unfold qidTriples at he
  rcases List.mem_flatMap.mp he with ⟨p, hp, he2⟩
  rcases List.mem_flatMap.mp he2 with ⟨ip, hip, he3⟩
  rcases List.mem_map.mp he3 with ⟨dp, hdp, he4⟩
  exact ⟨p, hp, ip, hip, dp, hdp, he4.symm⟩

theorem alEqB_sortIm {α : Type} {veq : α → α → Bool}
    (hrefl : ∀ v : α, veq v v = true)
    (im : List (Str × List (Str × α))) (hnd : NodKeys strEqB im)
    (hnds : ∀ ip ∈ im, NodKeys strEqB ip.2) :
    alEqB strEqB (alEqB strEqB veq) im (sortIm im) = true := by
  rw [alEqB_char]
  constructor
  · intro p hp
    refine ⟨p.2.insertionSort keyLe, ?_, ?_⟩
    · show luB strEqB
        ((im.insertionSort keyLe).map (fun ip => (ip.1, List.insertionSort keyLe ip.2)))
        p.1 = _
      rw [luB_map_val (g := List.insertionSort keyLe)]
      rw [← luB_perm strEqB_iff hnd (List.perm_insertionSort keyLe im).symm]
      rw [luB_of_mem_nodup strEqB_iff hnd hp]
      rfl
    · exact alEqB_of_perm strEqB_iff (hnds p hp) (List.perm_insertionSort keyLe p.2).symm
        (fun dp _ => hrefl dp.2)
  · intro p hp
    have hp2 : p ∈ (im.insertionSort keyLe).map
        (fun ip => (ip.1, ip.2.insertionSort keyLe)) := hp
    rcases List.mem_map.mp hp2 with ⟨p0, hp0, hpe⟩
    have hp0' : p0 ∈ im := (List.perm_insertionSort keyLe im).subset hp0
    refine ⟨p0.2, ?_, ?_⟩
    · have h1 : p.1 = p0.1 := by rw [← hpe]
      rw [h1]
      exact luB_of_mem_nodup strEqB_iff hnd hp0'
    · have h2 : p.2 = p0.2.insertionSort keyLe := by rw [← hpe]
      rw [h2]
      exact alEqB_of_perm strEqB_iff (hnds p0 hp0') (List.perm_insertionSort keyLe p0.2).symm
        (fun dp _ => hrefl dp.2)

theorem alEqB_sortTab3 {α : Type} {veq : α → α → Bool}
    (hrefl : ∀ v : α, veq v v = true)
    (t : List (Str × List (Str × List (Str × α))))
    (hnd : NodKeys strEqB t)
    (hnds : ∀ p ∈ t, NodKeys strEqB p.2 ∧ ∀ ip ∈ p.2, NodKeys strEqB ip.2) :
    alEqB strEqB (alEqB strEqB (alEqB strEqB veq)) t (sortTab3 t) = true := by
  rw [alEqB_char]
  constructor
  · intro p hp
    refine ⟨sortIm p.2, ?_, ?_⟩
    · show luB strEqB ((t.insertionSort keyLe).map (fun p => (p.1, sortIm p.2))) p.1 = _
      rw [luB_map_val (g := sortIm)]
      rw [← luB_perm strEqB_iff hnd (List.perm_insertionSort keyLe t).symm]
      rw [luB_of_mem_nodup strEqB_iff hnd hp]
      rfl
    · exact alEqB_sortIm hrefl p.2 (hnds p hp).1 (hnds p hp).2
  · intro p hp
    have hp2 : p ∈ (t.insertionSort keyLe).map (fun p => (p.1, sortIm p.2)) := hp
    rcases List.mem_map.mp hp2 with ⟨p0, hp0, hpe⟩
    have hp0' : p0 ∈ t := (List.perm_insertionSort keyLe t).subset hp0
    refine ⟨p0.2, ?_, ?_⟩
    · have h1 : p.1 = p0.1 := by rw [← hpe]
      rw [h1]
      exact luB_of_mem_nodup strEqB_iff hnd hp0'
    · have h2 : p.2 = sortIm p0.2 := by rw [← hpe]
      rw [h2]
      exact alEqB_sortIm hrefl p0.2 (hnds p0 hp0').1 (hnds p0 hp0').2

/-- The `Relevance` round-trip: re-reading the written file yields the fully
sorted copy, which is dict-equal to the original. -/
theorem Relevance_roundtrip (lines : List Str) (t : RelT)
    (h : Relevance.read [] lines = .ok t) :
    Relevance.read [] (Relevance.write t) = .ok (sortTab3 t) ∧
    Relevance.eqB t (sortTab3 t) = true := by
  have hwf : WF3 (fun _ : Int => True) t :=
    rel_read_wf lines [] t h ⟨List.Pairwise.nil, by intro p hp; cases hp⟩
  have hwf2 : WF3 (fun _ : Int => True) (sortTab3 t) := wf3_sortTab3 hwf
  constructor
  · rw [rel_write_eq_lines]
    rw [rel_read_lines (qidTriples (sortTab3 t)) []
      (by
        intro e he
        rcases qidTriples_mem he with ⟨p, hp, ip, hip, dp, hdp, hee⟩
        rcases hwf2.2 p hp with ⟨h1, _, _, h4⟩
        rcases h4 ip hip with ⟨h5, _, _, h8⟩
        rw [hee]
        exact ⟨h1, h5, (h8 dp hdp).1⟩)]
    rw [qidFold_top (sortTab3 t) [] (by rw [List.nil_append]; exact hwf2.1)
      (fun p hp => ⟨(hwf2.2 p hp).2.1, (hwf2.2 p hp).2.2.1,
        fun ip hip => ⟨((hwf2.2 p hp).2.2.2 ip hip).2.1, ((hwf2.2 p hp).2.2.2 ip hip).2.2.1⟩⟩)]
    rw [List.nil_append]
  · exact alEqB_sortTab3 (fun v : Int => beq_self_eq_true v) t hwf.1
      (fun p hp => ⟨(hwf.2 p hp).2.1,
        fun ip hip => ((hwf.2 p hp).2.2.2 ip hip).2.1⟩)

theorem splitWsMax_length : ∀ (n : Nat) (l : Str), (splitWsMax n l).length ≤ n + 1 := by
  intro n
  induction n with
  | zero =>
    intro l
    show ([l] : List Str).length ≤ 1
    rfl
  | succ n ih =>
    intro l
    cases hdw : l.dropWhile (fun c => !(isPyWs c)) with
    | nil =>
      have hsp : splitWsMax (n + 1) l = [l.takeWhile (fun c => !(isPyWs c))] := by
        rw [splitWsMax, hdw]
      rw [hsp]
      show 1 ≤ n + 2
      omega
    | cons r rs =>
      have hsp : splitWsMax (n + 1) l =
          l.takeWhile (fun c => !(isPyWs c)) :: splitWsMax n ((r :: rs).dropWhile isPyWs) := by
        rw [splitWsMax, hdw]
      rw [hsp, List.length_cons]
      have := ih ((r :: rs).dropWhile isPyWs)
      omega

/-- When the split count stays below the fuel, every field (the last
included) is a nonempty whitespace-free token. -/
theorem splitWsMax_short_tokens :
    ∀ (n : Nat) (l : Str), l ≠ [] →
      (∀ c t, l = c :: t → isPyWs c = false) →
      (∀ c t, l.reverse = c :: t → isPyWs c = false) →
      (splitWsMax n l).length < n + 1 →
      ∀ tk ∈ splitWsMax n l, tokOkB tk = true := by
  intro n
  induction n with
  | zero =>
    intro l _ _ _ hlen tk _
    exact absurd hlen (by show ¬(([l] : List Str).length < 1); simp)
  | succ n ih =>
    intro l hne hhead hlast hlen tk htk
    have htokhead : tokOkB (l.takeWhile (fun c => !(isPyWs c))) = true := by
      unfold tokOkB
      rw [Bool.and_eq_true]
      constructor
      · match l, hne with
        | c :: t, _ =>
          have hc := hhead c t rfl
          have hpc : (!(isPyWs c)) = true := by rw [hc]; rfl
          rw [List.takeWhile_cons, if_pos hpc]
          rfl
      · exact all_takeWhile _ _
    cases hdw : l.dropWhile (fun c => !(isPyWs c)) with
    | nil =>
      have hsp : splitWsMax (n + 1) l = [l.takeWhile (fun c => !(isPyWs c))] := by
        rw [splitWsMax, hdw]
      rw [hsp] at htk
      rw [List.mem_singleton.mp htk]
      exact htokhead
    | cons r rs =>
      have hsp : splitWsMax (n + 1) l =
          l.takeWhile (fun c => !(isPyWs c)) :: splitWsMax n ((r :: rs).dropWhile isPyWs) := by
        rw [splitWsMax, hdw]
      rw [hsp] at htk hlen
      rcases List.mem_cons.mp htk with he | hm
      · rw [he]
        exact htokhead
      · have hsuf1 : (r :: rs) <:+ l := hdw ▸ dropWhile_suffix _ l
        have hne' : (r :: rs).dropWhile isPyWs ≠ [] := by
          intro hnil
          have hallws : ∀ a ∈ (r :: rs), isPyWs a = true := by
            intro a ha
            have := List.dropWhile_eq_nil_iff.mp hnil a ha
            simpa using this
          rcases hsuf1 with ⟨pre, hpre⟩
          have hrev : l.reverse = (r :: rs).reverse ++ pre.reverse := by
            rw [← hpre, List.reverse_append]
          match hrr : (r :: rs).reverse with
          | [] =>
            rw [List.reverse_eq_nil_iff] at hrr
            cases hrr
          | c0 :: cs0 =>
            have hc0mem : c0 ∈ (r :: rs) := by
              rw [← List.mem_reverse, hrr]
              exact List.mem_cons_self _ _
            have : l.reverse = c0 :: (cs0 ++ pre.reverse) := by
              rw [hrev, hrr, List.cons_append]
            have hcws := hlast c0 (cs0 ++ pre.reverse) this
            rw [hallws c0 hc0mem] at hcws
            cases hcws
        have hsuf2 : (r :: rs).dropWhile isPyWs <:+ l :=
          List.IsSuffix.trans (dropWhile_suffix isPyWs (r :: rs)) hsuf1
        have hhead' : ∀ c t, (r :: rs).dropWhile isPyWs = c :: t → isPyWs c = false := by
          intro c t hct
          exact dropWhile_head_false isPyWs hct
        have hlast' : ∀ c t, ((r :: rs).dropWhile isPyWs).reverse = c :: t →
            isPyWs c = false := by
          intro c t hct
          rcases hsuf2 with ⟨pre, hpre⟩
          have hrev : l.reverse = c :: (t ++ pre.reverse) := by
            rw [← hpre, List.reverse_append, hct, List.cons_append]
          exact hlast c _ hrev
        rw [List.length_cons] at hlen
        exact ih ((r :: rs).dropWhile isPyWs) hne' hhead' hlast' (by omega) tk hm

theorem decRepr_all_not_ws (d : Dec) : (decRepr d).all (fun c => !isPyWs c) = true := by
  unfold decRepr
  have hds2 : (List.replicate (d.e + 1 - (natDec d.m.natAbs).length) '0' ++
      natDec d.m.natAbs).all (fun c => !isPyWs c) = true := by
    rw [List.all_append, Bool.and_eq_true]
    constructor
    · rw [List.all_eq_true]
      intro c hc
      rw [List.eq_of_mem_replicate hc]
      decide
    · exact natDec_all_not_ws _
  rw [List.all_append, List.all_append, Bool.and_eq_true, Bool.and_eq_true]
  refine ⟨⟨?_, ?_⟩, ?_⟩
  · by_cases h : d.m < 0
    · rw [if_pos h]
      decide
    · rw [if_neg h]
      rfl
  · rw [List.all_eq_true]
    intro c hc
    exact List.all_eq_true.mp hds2 c (List.mem_of_mem_take hc)
  · rw [List.all_cons, Bool.and_eq_true]
    refine ⟨by decide, ?_⟩
    rw [List.all_eq_true]
    intro c hc
    exact List.all_eq_true.mp hds2 c (List.mem_of_mem_drop hc)

theorem pyfRepr_all_not_ws (p : PyF) : (pyfRepr p).all (fun c => !isPyWs c) = true := by
  cases p with
  | nan => decide
  | pinf => decide
  | ninf => decide
  | fin d => exact decRepr_all_not_ws d

theorem pyfRepr_ne_nil (p : PyF) : pyfRepr p ≠ [] := by
  cases p with
  | nan => decide
  | pinf => decide
  | ninf => decide
  | fin d =>
    show decRepr d ≠ []
    unfold decRepr
    intro h
    have h2 := (List.append_eq_nil.mp h).2
    cases h2

theorem parsePyFloat_pyfRepr (p : PyF) : parsePyFloat (pyfRepr p) = some p := by
  cases p with
  | nan => decide
  | pinf => decide
  | ninf => decide
  | fin d => exact parsePyFloat_decRepr d

/-- The invariant of every stored `ProbabilisticRelevance.relevance` value:
it carries its method id (a whitespace-free token) and probability. -/
def prOK (r : PRel) : Prop :=
  ∃ meth prob, r.attrs = some (meth, prob) ∧ tokOkB meth = true

/-- The invariant of every `ProbabilisticRelevance` table reachable by
`read`: distinct token keys, every intent map exactly `{'0': …}`, and
every stored relevance carrying its attributes. -/
def WFpr (t : PRT) : Prop :=
  NodKeys strEqB t ∧ ∀ p ∈ t, tokOkB p.1 = true ∧ ∃ dm, p.2 = [("0".data, dm)] ∧
    NodKeys strEqB dm ∧ dm ≠ [] ∧ ∀ dp ∈ dm, tokOkB dp.1 = true ∧ prOK dp.2

theorem wfpr_setQID {t : PRT} {q d : Str} {r : PRel} (hw : WFpr t)
    (hq : tokOkB q = true) (hd : tokOkB d = true) (hr : prOK r) :
    WFpr (setQID t q "0".data d r) := by
  cases hluB : luB strEqB t q with
  | none =>
    have hset : setQID t q "0".data d r = setB strEqB q [("0".data, [(d, r)])] t := by
      show setB strEqB q (setB strEqB "0".data (setB strEqB d r
        (getOr strEqB (getOr strEqB t q []) "0".data [])) (getOr strEqB t q [])) t = _
      have h1 : getOr strEqB t q [] = [] := by
        unfold getOr
        rw [hluB]
        rfl
      rw [h1]
      rfl
    rw [hset]
    constructor
    · exact nodKeys_setB strEqB_iff _ _ hw.1
    · intro p hp
      constructor
      · rcases mem_setB hp with ⟨s, hs, hkey⟩ | hnew
        · rw [hkey]
          exact (hw.2 s hs).1
        · rw [hnew]
          exact hq
      · rcases mem_setB_val hp with hin | hval
        · exact (hw.2 p hin).2
        · rw [hval]
          refine ⟨[(d, r)], rfl, List.pairwise_singleton _ _, ?_, ?_⟩
          · intro hx
            cases hx
          · intro dp hdp
            rw [List.mem_singleton.mp hdp]
            exact ⟨hd, hr⟩
  | some im0 =>
    rcases luB_eq_some_elim hluB with ⟨p0, hp0, hkey0, hval0⟩
    rcases hw.2 p0 hp0 with ⟨_, dm0, hdm0, hnddm0, hnedm0, hdps0⟩
    have h2 : im0 = [("0".data, dm0)] := hval0.symm.trans hdm0
    have hset : setQID t q "0".data d r =
        setB strEqB q [("0".data, setB strEqB d r dm0)] t := by
      show setB strEqB q (setB strEqB "0".data (setB strEqB d r
        (getOr strEqB (getOr strEqB t q []) "0".data [])) (getOr strEqB t q [])) t = _
      have h1 : getOr strEqB t q [] = [("0".data, dm0)] := by
        unfold getOr
        rw [hluB, h2]
        rfl
      rw [h1]
      have h3 : getOr strEqB [("0".data, dm0)] "0".data [] = dm0 := by
        unfold getOr
        rw [luB, if_pos ((strEqB_iff _ _).mpr rfl)]
        rfl
      rw [h3]
      have h4 : setB strEqB "0".data (setB strEqB d r dm0) [("0".data, dm0)] =
          [("0".data, setB strEqB d r dm0)] := by
        show (if strEqB "0".data "0".data = true then _ else _) = _
        rw [if_pos ((strEqB_iff _ _).mpr rfl)]
      rw [h4]
    rw [hset]
    constructor
    · exact nodKeys_setB strEqB_iff _ _ hw.1
    · intro p hp
      constructor
      · rcases mem_setB hp with ⟨s, hs, hkey⟩ | hnew
        · rw [hkey]
          exact (hw.2 s hs).1
        · rw [hnew]
          exact hq
      · rcases mem_setB_val hp with hin | hval
        · exact (hw.2 p hin).2
        · rw [hval]
          refine ⟨setB strEqB d r dm0, rfl, nodKeys_setB strEqB_iff _ _ hnddm0,
            setB_ne_nil _ _ _, ?_⟩
          intro dp hdp
          constructor
          · rcases mem_setB hdp with ⟨s, hs, hkey⟩ | hnew
            · rw [hkey]
              exact (hdps0 s hs).1
            · rw [hnew]
              exact hd
          · rcases mem_setB_val hdp with hin | hval2
            · exact (hdps0 dp hin).2
            · rw [hval2]
              exact hr

theorem mkRelevance_attrs {args : List Str} {r : PRel} (h : mkRelevance args = some r) :
    ∃ prob, r.attrs = some (args.getD 1 "-1".data, prob) := by
  unfold mkRelevance at h
  cases h1 : parsePyInt (args.getD 0 "0".data) with
  | none =>
    rw [h1] at h
    cases h
  | some v =>
    cases h2 : parsePyFloat (args.getD 2 "nan".data) with
    | none =>
      rw [h1, h2] at h
      cases h
    | some p =>
      rw [h1, h2] at h
      injection h with h
      exact ⟨p, by rw [← h]⟩

theorem prel_readLine_wf {t0 t1 : PRT} {l : Str}
    (h : ProbabilisticRelevance.readLine t0 l = .ok t1) (hw : WFpr t0) : WFpr t1 := by
  unfold ProbabilisticRelevance.readLine at h
  split at h
  next q d args heq =>
    cases hmk : mkRelevance args with
    | none =>
      rw [hmk] at h
      cases h
    | some r =>
      rw [hmk] at h
      injection h with h
      rw [← h]
      have hne : stripL l ≠ [] := by
        intro h0
        rw [h0] at heq
        have hlen1 : (splitWsMax 4 ([] : Str)).length = (q :: d :: args).length := by
          rw [heq]
        rw [List.length_cons, List.length_cons] at hlen1
        have h2 : (splitWsMax 4 ([] : Str)).length = 1 := rfl
        omega
      have hlen5 := splitWsMax_length 4 (stripL l)
      rw [heq, List.length_cons, List.length_cons] at hlen5
      have hshape := splitWsMax_shape 4 (stripL l)
        (fun c t hc => stripL_head_ws hc) (fun c t hc => stripL_last_ws hc)
      have hshort := splitWsMax_short_tokens 4 (stripL l) hne
        (fun c t hc => stripL_head_ws hc) (fun c t hc => stripL_last_ws hc)
      rcases mkRelevance_attrs hmk with ⟨prob, hattr⟩
      match args, hlen5, heq, hattr with
      | [], _, heq, hattr =>
        have hall := hshort (by rw [heq]; simp)
        have hq := hall q (by rw [heq]; simp)
        have hd := hall d (by rw [heq]; simp)
        exact wfpr_setQID hw hq hd ⟨"-1".data, prob, hattr, by decide⟩
      | [a0], _, heq, hattr =>
        have hall := hshort (by rw [heq]; simp)
        have hq := hall q (by rw [heq]; simp)
        have hd := hall d (by rw [heq]; simp)
        exact wfpr_setQID hw hq hd ⟨"-1".data, prob, hattr, by decide⟩
      | [a0, a1], _, heq, hattr =>
        have hall := hshort (by rw [heq]; simp)
        have hq := hall q (by rw [heq]; simp)
        have hd := hall d (by rw [heq]; simp)
        have ha1 := hall a1 (by rw [heq]; simp)
        exact wfpr_setQID hw hq hd ⟨a1, prob, hattr, ha1⟩
      | [a0, a1, a2], _, heq, hattr =>
        have h1 := hshape.1
        rw [heq] at h1
        have hdl : (q :: d :: a0 :: a1 :: a2 :: ([] : List Str)).dropLast =
            [q, d, a0, a1] := rfl
        rw [hdl] at h1
        have hq := h1 q (by simp)
        have hd := h1 d (by simp)
        have ha1 := h1 a1 (by simp)
        exact wfpr_setQID hw hq hd ⟨a1, prob, hattr, ha1⟩
      | a0 :: a1 :: a2 :: a3 :: rest, hlen5, _, _ =>
        exfalso
        simp only [List.length_cons] at hlen5
        omega
  next =>
    cases h

theorem prel_read_wf :
    ∀ (lines : List Str) (t0 t : PRT),
      ProbabilisticRelevance.read t0 lines = .ok t → WFpr t0 → WFpr t := by
  intro lines
  induction lines with
  | nil =>
    intro t0 t h hw
    injection h with h
    rw [← h]
    exact hw
  | cons l ls ih =>
    intro t0 t h hw
    cases hx : ProbabilisticRelevance.readLine t0 l with
    | ok t1 =>
      have h2 : readFoldE ProbabilisticRelevance.readLine t1 ls = .ok t := by
        unfold ProbabilisticRelevance.read readFoldE at h
        rw [hx] at h
        exact h
      exact ih t1 t h2 (prel_readLine_wf hx hw)
    | error t1 =>
      unfold ProbabilisticRelevance.read readFoldE at h
      rw [hx] at h
      cases h

theorem prel_readLine_eval {q d meth : Str} {v : Int} {prob : PyF}
    (acc : PRT) (hq : tokOkB q = true) (hd : tokOkB d = true) (hm : tokOkB meth = true) :
    ProbabilisticRelevance.readLine acc
      (joinSep [q, d, intDec v, meth, pyfRepr prob]) =
      .ok (setQID acc q "0".data d ⟨v, some (meth, prob)⟩) := by
  have hlast_ne := pyfRepr_ne_nil prob
  have hlast_all := pyfRepr_all_not_ws prob
  have hstrip : stripL (joinSep [q, d, intDec v, meth, pyfRepr prob]) =
      joinSep [q, d, intDec v, meth, pyfRepr prob] := by
    apply stripL_joinSep_toks (by intro hx; cases hx)
    · intro f rest hf
      injection hf with h1 h2
      rw [← h1]
      exact ⟨tokOk_ne_nil hq, all_not_ws_head (tokOk_all hq)⟩
    · intro lastF hl
      have h0 : some (pyfRepr prob) = some lastF :=
        (rfl : ([q, d, intDec v, meth, pyfRepr prob].getLast? : Option Str) =
          some (pyfRepr prob)).symm.trans hl
      injection h0 with h0
      rw [← h0]
      exact ⟨hlast_ne, all_not_ws_last hlast_all⟩
  have hsplit : splitWsMax 4 (stripL (joinSep [q, d, intDec v, meth, pyfRepr prob])) =
      [q, d, intDec v, meth, pyfRepr prob] := by
    rw [hstrip]
    apply splitWsMax_joinSep 4 [q, d, intDec v, meth, pyfRepr prob] rfl
    · intro tk htk
      have htk2 : tk ∈ [q, d, intDec v, meth] := htk
      rcases List.mem_cons.mp htk2 with h1 | htk3
      · rw [h1]; exact hq
      rcases List.mem_cons.mp htk3 with h2 | htk4
      · rw [h2]; exact hd
      rcases List.mem_cons.mp htk4 with h3 | htk5
      · rw [h3]; exact tokOkB_intDec v
      rcases List.mem_cons.mp htk5 with h4 | htk6
      · rw [h4]; exact hm
      cases htk6
    · intro c cs hlastq
      have h0 : some (pyfRepr prob) = some (c :: cs) :=
        (rfl : ([q, d, intDec v, meth, pyfRepr prob].getLast? : Option Str) =
          some (pyfRepr prob)).symm.trans hlastq
      injection h0 with h0
      exact all_not_ws_head hlast_all c cs h0
    · intro hnil
      have h0 : some (pyfRepr prob) = some [] :=
        (rfl : ([q, d, intDec v, meth, pyfRepr prob].getLast? : Option Str) =
          some (pyfRepr prob)).symm.trans hnil
      injection h0 with h0
      exact hlast_ne h0
  unfold ProbabilisticRelevance.readLine
  rw [hsplit]
  show (match mkRelevance [intDec v, meth, pyfRepr prob] with
    | some r => Except.ok (setQID acc q "0".data d r)
    | none => Except.error acc) = _
  have hmk : mkRelevance [intDec v, meth, pyfRepr prob] =
      some ⟨v, some (meth, prob)⟩ := by
    unfold mkRelevance
    show (match parsePyInt (intDec v), parsePyFloat (pyfRepr prob) with
      | some v2, some p2 => some (⟨v2, some (meth, p2)⟩ : PRel)
      | _, _ => none) = _
    rw [parsePyInt_intDec, parsePyFloat_pyfRepr]
  rw [hmk]

theorem prel_read_lines :
    ∀ (es : List (Str × Str × Str × PRel)) (acc : PRT),
      (∀ e ∈ es, tokOkB e.1 = true ∧ e.2.1 = "0".data ∧ tokOkB e.2.2.1 = true ∧
        ∃ meth prob, e.2.2.2.attrs = some (meth, prob) ∧ tokOkB meth = true) →
      ProbabilisticRelevance.read acc
        (es.map (fun e => joinSep [e.1, e.2.2.1, intDec e.2.2.2.value,
          (e.2.2.2.attrs.getD ("-1".data, PyF.nan)).1,
          pyfRepr (e.2.2.2.attrs.getD ("-1".data, PyF.nan)).2])) =
        .ok (qidFold acc es) := by
  intro es
  induction es with
  | nil =>
    intro acc _
    rfl
  | cons e es ih =>
    intro acc hok
    obtain ⟨q, i, d, r⟩ := e
    rcases hok (q, i, d, r) (List.mem_cons_self _ _) with ⟨hq, hi, hd, meth, prob, hattr, hm⟩
    obtain ⟨v, attrs⟩ := r
    have hattr' : attrs = some (meth, prob) := hattr
    subst hattr'
    subst hi
    rw [List.map_cons]
    unfold ProbabilisticRelevance.read readFoldE
    have hline : ProbabilisticRelevance.readLine acc
        ((fun e : Str × Str × Str × PRel => joinSep [e.1, e.2.2.1, intDec e.2.2.2.value,
          (e.2.2.2.attrs.getD ("-1".data, PyF.nan)).1,
          pyfRepr (e.2.2.2.attrs.getD ("-1".data, PyF.nan)).2])
          (q, "0".data, d, (⟨v, some (meth, prob)⟩ : PRel))) =
        .ok (setQID acc q "0".data d ⟨v, some (meth, prob)⟩) :=
      prel_readLine_eval acc hq hd hm
    rw [hline]
    exact ih (setQID acc q "0".data d ⟨v, some (meth, prob)⟩)
      (fun e he => hok e (List.mem_cons_of_mem _ he))

/-- The (query, '0', document, relevance) traversal of
`ProbabilisticRelevance.write`. -/
def prTriples (t : PRT) : List (Str × Str × Str × PRel) :=
  (t.insertionSort keyLe).flatMap (fun p =>
    ((getOr strEqB p.2 "0".data []).insertionSort keyLe).map
      (fun dp => (p.1, "0".data, dp.1, dp.2)))

theorem prel_write_eq_lines (t : PRT) :
    ProbabilisticRelevance.write t =
      (prTriples t).map (fun e => joinSep [e.1, e.2.2.1, intDec e.2.2.2.value,
        (e.2.2.2.attrs.getD ("-1".data, PyF.nan)).1,
        pyfRepr (e.2.2.2.attrs.getD ("-1".data, PyF.nan)).2]) := by
  show (t.insertionSort keyLe).flatMap (fun p =>
      ((getOr strEqB p.2 "0".data []).insertionSort keyLe).map (fun dp =>
        joinSep [p.1, dp.1, intDec dp.2.value,
          (dp.2.attrs.getD ("-1".data, PyF.nan)).1,
          pyfRepr (dp.2.attrs.getD ("-1".data, PyF.nan)).2])) = _
  unfold prTriples
  rw [List.map_flatMap]
  apply List.flatMap_congr
  intro p _
  rw [List.map_map]
  rfl

theorem prTriples_eq_qidTriples (t : PRT) (hw : WFpr t) :
    prTriples t = qidTriples (sortTab3 t) := by
  unfold prTriples qidTriples sortTab3
  rw [List.flatMap_map]
  apply List.flatMap_congr
  intro p hp
  rcases hw.2 p ((List.perm_insertionSort keyLe t).subset hp) with ⟨_, dm, hdm, _⟩
  show ((getOr strEqB p.2 "0".data []).insertionSort keyLe).map
      (fun dp => (p.1, "0".data, dp.1, dp.2)) =
    (sortIm p.2).flatMap (fun ip => ip.2.map (fun dp => (p.1, ip.1, dp.1, dp.2)))
  rw [hdm]
  have h3 : getOr strEqB [("0".data, dm)] "0".data [] = dm := by
    unfold getOr
    rw [luB, if_pos ((strEqB_iff _ _).mpr rfl)]
    rfl
  rw [h3]
  have h4 : sortIm [("0".data, dm)] = [("0".data, dm.insertionSort keyLe)] := rfl
  rw [h4]
  rw [List.flatMap_cons, List.flatMap_nil, List.append_nil]

/-- The `ProbabilisticRelevance` round-trip. -/
theorem ProbabilisticRelevance_roundtrip (lines : List Str) (t : PRT)
    (h : ProbabilisticRelevance.read [] lines = .ok t) :
    ProbabilisticRelevance.read [] (ProbabilisticRelevance.write t) = .ok (sortTab3 t) ∧
    ProbabilisticRelevance.eqB t (sortTab3 t) = true := by
  have hwf : WFpr t := prel_read_wf lines [] t h
    ⟨List.Pairwise.nil, by intro p hp; cases hp⟩
  have hwf3 : WF3 prOK t := by
    refine ⟨hwf.1, ?_⟩
    intro p hp
    rcases hwf.2 p hp with ⟨htok, dm, hdm, hnd, hne, hdps⟩
    refine ⟨htok, ?_, ?_, ?_⟩
    · rw [hdm]
      exact List.pairwise_singleton _ _
    · rw [hdm]
      intro hx
      cases hx
    · rw [hdm]
      intro ip hip
      rw [List.mem_singleton.mp hip]
      exact ⟨(by decide : tokOkB "0".data = true), hnd, hne, hdps⟩
  have hwf3s : WF3 prOK (sortTab3 t) := wf3_sortTab3 hwf3
  have hsing : ∀ p ∈ sortTab3 t, ∀ ip ∈ p.2, ip.1 = "0".data := by
    intro p hp ip hip
    have hp2 : p ∈ (t.insertionSort keyLe).map (fun p => (p.1, sortIm p.2)) := hp
    rcases List.mem_map.mp hp2 with ⟨p0, hp0, hpe⟩
    rcases hwf.2 p0 ((List.perm_insertionSort keyLe t).subset hp0) with ⟨_, dm, hdm, _⟩
    have hps : p.2 = sortIm p0.2 := by rw [← hpe]
    rw [hps, hdm] at hip
    have h4 : sortIm [("0".data, dm)] = [("0".data, dm.insertionSort keyLe)] := rfl
    rw [h4] at hip
    rw [List.mem_singleton.mp hip]
  constructor
  · rw [prel_write_eq_lines, prTriples_eq_qidTriples t hwf]
    rw [prel_read_lines (qidTriples (sortTab3 t)) []
      (by
        intro e he
        rcases qidTriples_mem he with ⟨p, hp, ip, hip, dp, hdp, hee⟩
        rcases hwf3s.2 p hp with ⟨h1, _, _, h4⟩
        rcases h4 ip hip with ⟨_, _, _, h8⟩
        rcases (h8 dp hdp).2 with ⟨meth, prob, hattr, hm⟩
        rw [hee]
        exact ⟨h1, hsing p hp ip hip, (h8 dp hdp).1, meth, prob, hattr, hm⟩)]
    rw [qidFold_top (sortTab3 t) [] (by rw [List.nil_append]; exact hwf3s.1)
      (fun p hp => ⟨(hwf3s.2 p hp).2.1, (hwf3s.2 p hp).2.2.1,
        fun ip hip => ⟨((hwf3s.2 p hp).2.2.2 ip hip).2.1,
          ((hwf3s.2 p hp).2.2.2 ip hip).2.2.1⟩⟩)]
    rw [List.nil_append]
  · exact alEqB_sortTab3 (fun r : PRel => beq_self_eq_true r.value) t hwf3.1
      (fun p hp => ⟨(hwf3.2 p hp).2.1, fun ip hip => ((hwf3.2 p hp).2.2.2 ip hip).2.1⟩)

/-- The sort key a stored Run entry regenerates on re-read: the negated
parsed score of its stored score text. -/
def entKey (en : REnt) : FinF :=
  match en.attrs with
  | some (s, _, _) =>
    match parseRunScore s with
    | some v => finfNeg v
    | none => FinF.pinf
  | none => FinF.pinf

/-- The invariant of every Run entry stored by `read`: full attributes with
parseable score and whitespace-free tokens (the run id may hold inner
whitespace but starts and ends with none). -/
def runEntOK (en : REnt) : Prop :=
  ∃ s k r v, en.attrs = some (s, k, r) ∧ parseRunScore s = some v ∧
    tokOkB en.text = true ∧ tokOkB k = true ∧ tokOkB s = true ∧
    r ≠ [] ∧ (∀ c cs, r = c :: cs → isPyWs c = false) ∧
    (∀ c cs, r.reverse = c :: cs → isPyWs c = false)

/-- The invariant of every `Run` table reachable by `read`. -/
def WFrun (t : RunT) : Prop :=
  NodKeys strEqB t ∧ ∀ p ∈ t, tokOkB p.1 = true ∧ p.2 ≠ [] ∧
    (p.2.map (fun en => (entKey en, en))).Pairwise rpLe ∧
    ∀ en ∈ p.2, runEntOK en

theorem Run.parseLine_wf {line q : Str} {kv : FinF} {en : REnt}
    (hx : Run.parseLine line = some (q, kv, en)) :
    tokOkB q = true ∧ runEntOK en ∧ kv = entKey en := by
  unfold Run.parseLine at hx
  split at hx
  next q' k d rank score rid heq =>
    cases hs : parseRunScore score with
    | none =>
      rw [hs] at hx
      cases hx
    | some v =>
      rw [hs] at hx
      injection hx with hx
      injection hx with h1 hx
      injection hx with h2 h3
      have hne : stripL line ≠ [] := by
        intro h0
        rw [h0] at heq
        have hlen1 : (splitWsMax 5 ([] : Str)).length =
            ([q', k, d, rank, score, rid] : List Str).length := by rw [heq]
        have h2' : (splitWsMax 5 ([] : Str)).length = 1 := rfl
        simp at hlen1
        omega
      have hshape := splitWsMax_shape 5 (stripL line)
        (fun c t hc => stripL_head_ws hc) (fun c t hc => stripL_last_ws hc)
      rw [heq] at hshape
      have hdl : ([q', k, d, rank, score, rid] : List Str).dropLast =
          [q', k, d, rank, score] := rfl
      rw [hdl] at hshape
      have hq := hshape.1 q' (by simp)
      have hk := hshape.1 k (by simp)
      have hd := hshape.1 d (by simp)
      have hsc := hshape.1 score (by simp)
      have hlast := hshape.2 rid rfl hne
      refine ⟨h1 ▸ hq, ?_, ?_⟩
      · rw [← h3]
        exact ⟨score, k, rid, v, rfl, hs, hd, hk, hsc, hlast.1, hlast.2.1, hlast.2.2⟩
      · rw [← h2, ← h3]
        show finfNeg v = (match parseRunScore score with
          | some v2 => finfNeg v2
          | none => FinF.pinf)
        rw [hs]
  next =>
    cases hx

theorem appendB_inv (P : κ → Prop) (Q : α → Prop) {keq : κ → κ → Bool}
    {g : List (κ × List α)} {q : κ} {x : α}
    (hg : ∀ p ∈ g, P p.1 ∧ p.2 ≠ [] ∧ ∀ a ∈ p.2, Q a) (hq : P q) (hx : Q x) :
    ∀ p ∈ appendB keq q x g, P p.1 ∧ p.2 ≠ [] ∧ ∀ a ∈ p.2, Q a := by
  intro p hp
  cases hl : luB keq g q with
  | some l =>
    rw [appendB_present hl] at hp
    refine ⟨?_, ?_, ?_⟩
    · rcases mem_setB hp with ⟨s, hs, hkey⟩ | hnew
      · rw [hkey]
        exact (hg s hs).1
      · rw [hnew]
        exact hq
    · rcases mem_setB_val hp with hin | hval
      · exact (hg p hin).2.1
      · rw [hval]
        intro hnil
        cases (List.append_eq_nil.mp hnil).2
    · intro a ha
      rcases mem_setB_val hp with hin | hval
      · exact (hg p hin).2.2 a ha
      · rw [hval] at ha
        rcases List.mem_append.mp ha with h1 | h2
        · rcases luB_eq_some_elim hl with ⟨s, hs1, _, hs3⟩
          refine (hg s hs1).2.2 a ?_
          rw [hs3]
          exact h1
        · rw [List.mem_singleton.mp h2]
          exact hx
  | none =>
    rw [appendB_absent hl] at hp
    rcases List.mem_append.mp hp with h1 | h2
    · exact hg p h1
    · rw [List.mem_singleton.mp h2]
      refine ⟨hq, ?_, ?_⟩
      · intro hx2
        cases hx2
      · intro a ha
        rw [List.mem_singleton.mp ha]
        exact hx

theorem Run.collect_wf :
    ∀ (lines : List Str) (g g' : List (Str × List (FinF × REnt))),
      Run.collect g lines = some g' →
      (∀ p ∈ g, tokOkB p.1 = true ∧ p.2 ≠ [] ∧
        ∀ pr ∈ p.2, runEntOK pr.2 ∧ pr.1 = entKey pr.2) →
      ∀ p ∈ g', tokOkB p.1 = true ∧ p.2 ≠ [] ∧
        ∀ pr ∈ p.2, runEntOK pr.2 ∧ pr.1 = entKey pr.2 := by
  intro lines
  induction lines with
  | nil =>
    intro g g' h hg
    injection h with h
    rw [← h]
    exact hg
  | cons l ls ih =>
    intro g g' h hg
    unfold Run.collect at h
    cases hx : Run.parseLine l with
    | none =>
      rw [hx] at h
      cases h
    | some tr =>
      obtain ⟨q, kv, en⟩ := tr
      rw [hx] at h
      rcases Run.parseLine_wf hx with ⟨hq, hen, hkv⟩
      exact ih _ _ h (appendB_inv (fun k => tokOkB k = true)
        (fun pr : FinF × REnt => runEntOK pr.2 ∧ pr.1 = entKey pr.2) hg hq ⟨hen, hkv⟩)

theorem Run.mergeGroups_fresh :
    ∀ (g : List (Str × List (FinF × REnt))) (t0 : RunT),
      NodKeys strEqB g → (∀ p ∈ g, luB strEqB t0 p.1 = none) →
      Run.mergeGroups t0 g =
        t0 ++ g.map (fun p => (p.1, (p.2.insertionSort rpLe).map Prod.snd)) := by
  intro g
  induction g with
  | nil =>
    intro t0 _ _
    show t0 = t0 ++ []
    rw [List.append_nil]
  | cons gr rest ih =>
    intro t0 hnd hfresh
    obtain ⟨q, prs⟩ := gr
    have hq0 : luB strEqB t0 q = none := hfresh (q, prs) (List.mem_cons_self _ _)
    have hget : getOr strEqB t0 q [] = [] := by
      unfold getOr
      rw [hq0]
      rfl
    show Run.mergeGroups
      (setB strEqB q (getOr strEqB t0 q [] ++ (prs.insertionSort rpLe).map Prod.snd) t0)
      rest = _
    rw [hget, List.nil_append, setB_absent hq0]
    have hnd' := List.pairwise_cons.mp hnd
    have hfresh' : ∀ r ∈ rest,
        luB strEqB (t0 ++ [(q, (prs.insertionSort rpLe).map Prod.snd)]) r.1 = none := by
      intro r hr
      rw [luB_append, hfresh r (List.mem_cons_of_mem _ hr)]
      show luB strEqB [(q, (prs.insertionSort rpLe).map Prod.snd)] r.1 = none
      rw [luB, hnd'.1 r hr]
      simp only [Bool.false_eq_true, if_false]
      rfl
    rw [ih _ hnd'.2 hfresh', List.append_assoc, List.singleton_append, List.map_cons]

/-- The per-query stored sequence rebuilt from a collected group. -/
def groupEnts (prs : List (FinF × REnt)) : List REnt := (prs.insertionSort rpLe).map Prod.snd

/-- The pairs `[-float(score), document_id]` regenerated from stored entries. -/
def entPairs (es : List REnt) : List (FinF × REnt) := es.map (fun en => (entKey en, en))

theorem Run.read_wfrun {lines : List Str} {t : RunT} (h : Run.read [] lines = .ok t) :
    WFrun t := by
  unfold Run.read at h
  cases hc : Run.collect [] lines with
  | none =>
    rw [hc] at h
    cases h
  | some g =>
    rw [hc] at h
    injection h with h
    have hnd : NodKeys strEqB g := Run.collect_nodKeys lines [] g hc List.Pairwise.nil
    have hwfg := Run.collect_wf lines [] g hc (by intro p hp; cases hp)
    rw [← h]
    rw [Run.mergeGroups_fresh g [] hnd (by intro p _; rfl), List.nil_append]
    have hfn : (fun p : Str × List (FinF × REnt) =>
        (p.1, (p.2.insertionSort rpLe).map Prod.snd)) =
        (fun p : Str × List (FinF × REnt) => (p.1, groupEnts p.2)) := rfl
    rw [hfn]
    constructor
    · exact nodKeys_map_val hnd
    · intro p hp
      rcases List.mem_map.mp hp with ⟨p0, hp0, hpe⟩
      rcases hwfg p0 hp0 with ⟨htok, hne, hprs⟩
      rw [← hpe]
      refine ⟨htok, ?_, ?_, ?_⟩
      · show groupEnts p0.2 ≠ []
        unfold groupEnts
        exact map_ne_nil (insertionSort_ne_nil hne)
      · show ((groupEnts p0.2).map (fun en => (entKey en, en))).Pairwise rpLe
        unfold groupEnts
        rw [List.map_map]
        have hmc : (p0.2.insertionSort rpLe).map
            ((fun en => (entKey en, en)) ∘ Prod.snd) =
            (p0.2.insertionSort rpLe).map (fun pr => pr) := by
          apply List.map_congr_left
          intro pr hpr
          have hpr0 : pr ∈ p0.2 := (List.perm_insertionSort rpLe p0.2).subset hpr
          show (entKey pr.2, pr.2) = pr
          rw [← (hprs pr hpr0).2]
        rw [hmc, List.map_id']
        exact List.sorted_insertionSort rpLe p0.2
      · intro en hen
        have hen2 : en ∈ groupEnts p0.2 := hen
        unfold groupEnts at hen2
        rcases List.mem_map.mp hen2 with ⟨pr, hpr, hpe2⟩
        rw [← hpe2]
        exact (hprs pr ((List.perm_insertionSort rpLe p0.2).subset hpr)).1

theorem Run.parseLine_entryLine {q : Str} {rank : Nat} {en : REnt}
    (hq : tokOkB q = true) (hen : runEntOK en) :
    Run.parseLine (Run.entryLine q rank en) = some (q, entKey en, en) := by
  rcases hen with ⟨s, k, r, v, hattr, hs, htext, hk, hsc, hrne, hrhead, hrrev⟩
  have hline : Run.entryLine q rank en =
      joinSep [q, k, en.text, natDec rank ++ ".0".data, s, r] := by
    unfold Run.entryLine
    rw [hattr]
  rw [hline]
  have hrank : tokOkB (natDec rank ++ ".0".data) = true := by
    unfold tokOkB
    rw [Bool.and_eq_true]
    constructor
    · cases hnd : natDec rank with
      | nil => exact absurd hnd (natDec_ne_nil rank)
      | cons c cs =>
        rfl
    · rw [List.all_append, Bool.and_eq_true]
      exact ⟨natDec_all_not_ws rank, by decide⟩
  have hstrip : stripL (joinSep [q, k, en.text, natDec rank ++ ".0".data, s, r]) =
      joinSep [q, k, en.text, natDec rank ++ ".0".data, s, r] := by
    apply stripL_joinSep_toks (by intro hx; cases hx)
    · intro f rest hf
      injection hf with h1 h2
      rw [← h1]
      exact ⟨tokOk_ne_nil hq, all_not_ws_head (tokOk_all hq)⟩
    · intro lastF hl
      have h0 : some r = some lastF :=
        (rfl : (([q, k, en.text, natDec rank ++ ".0".data, s, r] : List Str).getLast? :
          Option Str) = some r).symm.trans hl
      injection h0 with h0
      rw [← h0]
      exact ⟨hrne, hrrev⟩
  have hsplit : splitWsMax 5 (stripL (joinSep [q, k, en.text, natDec rank ++ ".0".data, s, r])) =
      [q, k, en.text, natDec rank ++ ".0".data, s, r] := by
    rw [hstrip]
    apply splitWsMax_joinSep 5 [q, k, en.text, natDec rank ++ ".0".data, s, r] rfl
    · intro tk htk
      have htk2 : tk ∈ [q, k, en.text, natDec rank ++ ".0".data, s] := htk
      rcases List.mem_cons.mp htk2 with h1 | htk3
      · rw [h1]; exact hq
      rcases List.mem_cons.mp htk3 with h2 | htk4
      · rw [h2]; exact hk
      rcases List.mem_cons.mp htk4 with h3 | htk5
      · rw [h3]; exact htext
      rcases List.mem_cons.mp htk5 with h4 | htk6
      · rw [h4]; exact hrank
      rcases List.mem_cons.mp htk6 with h5 | htk7
      · rw [h5]; exact hsc
      cases htk7
    · intro c cs hlastq
      have h0 : some r = some (c :: cs) :=
        (rfl : (([q, k, en.text, natDec rank ++ ".0".data, s, r] : List Str).getLast? :
          Option Str) = some r).symm.trans hlastq
      injection h0 with h0
      exact hrhead c cs h0
    · intro hnil
      have h0 : some r = some [] :=
        (rfl : (([q, k, en.text, natDec rank ++ ".0".data, s, r] : List Str).getLast? :
          Option Str) = some r).symm.trans hnil
      injection h0 with h0
      exact hrne h0
  unfold Run.parseLine
  rw [hsplit]
  show (match parseRunScore s with
    | some v2 => some (q, finfNeg v2, (⟨en.text, some (s, k, r)⟩ : REnt))
    | none => none) = _
  rw [hs]
  have hen2 : (⟨en.text, some (s, k, r)⟩ : REnt) = en := by
    have h0 : en.attrs = some (s, k, r) := hattr
    obtain ⟨tx, a0⟩ := en
    have h1 : a0 = some (s, k, r) := h0
    rw [h1]
  have hkey : entKey en = finfNeg v := by
    show (match en.attrs with
      | some (s2, _, _) =>
        match parseRunScore s2 with
        | some v2 => finfNeg v2
        | none => FinF.pinf
      | none => FinF.pinf) = finfNeg v
    rw [hattr]
    show (match parseRunScore s with
      | some v2 => finfNeg v2
      | none => FinF.pinf) = finfNeg v
    rw [hs]
  rw [hen2, hkey]

theorem Run.collect_cons_some {line : Str} {q : Str} {kv : FinF} {en : REnt}
    (h : Run.parseLine line = some (q, kv, en))
    (g : List (Str × List (FinF × REnt))) (rest : List Str) :
    Run.collect g (line :: rest) = Run.collect (appendB strEqB q (kv, en) g) rest := by
  show (match Run.parseLine line with
    | some (q2, kv2, en2) => Run.collect (appendB strEqB q2 (kv2, en2) g) rest
    | none => none) = _
  rw [h]

theorem Run.collect_block :
    ∀ (es : List REnt) (rank : Nat) (g : List (Str × List (FinF × REnt)))
      (acc : List (FinF × REnt)) (q : Str) (rest : List Str),
      tokOkB q = true → (∀ en ∈ es, runEntOK en) → luB strEqB g q = none →
      Run.collect (g ++ [(q, acc)]) (Run.writeBlock q rank es ++ rest) =
        Run.collect (g ++ [(q, acc ++ entPairs es)]) rest := by
  intro es
  induction es with
  | nil =>
    intro rank g acc q rest _ _ _
    show Run.collect (g ++ [(q, acc)]) ([] ++ rest) = _
    rw [List.nil_append]
    show _ = Run.collect (g ++ [(q, acc ++ [])]) rest
    rw [List.append_nil]
  | cons en es ih =>
    intro rank g acc q rest hq hens hfresh
    show Run.collect (g ++ [(q, acc)])
      (Run.entryLine q rank en :: (Run.writeBlock q (rank + 1) es ++ rest)) = _
    rw [Run.collect_cons_some (Run.parseLine_entryLine hq (hens en (List.mem_cons_self _ _)))]
    have happ : appendB strEqB q (entKey en, en) (g ++ [(q, acc)]) =
        g ++ [(q, acc ++ [(entKey en, en)])] := by
      rw [appendB_present (luB_snoc_self hfresh ((strEqB_iff q q).mpr rfl))]
      exact setB_snoc hfresh ((strEqB_iff q q).mpr rfl)
    rw [happ]
    rw [ih (rank + 1) g (acc ++ [(entKey en, en)]) q rest hq
      (fun e he => hens e (List.mem_cons_of_mem _ he)) hfresh]
    have hlist : (acc ++ [(entKey en, en)]) ++ entPairs es = acc ++ entPairs (en :: es) := by
      rw [List.append_assoc, List.singleton_append]
      rfl
    rw [hlist]

theorem Run.collect_blocks :
    ∀ (ts : RunT) (g : List (Str × List (FinF × REnt))),
      (∀ p ∈ ts, tokOkB p.1 = true ∧ p.2 ≠ [] ∧ ∀ en ∈ p.2, runEntOK en) →
      NodKeys strEqB ts →
      (∀ p ∈ ts, luB strEqB g p.1 = none) →
      Run.collect g (ts.flatMap (fun p => Run.writeBlock p.1 1 p.2)) =
        some (g ++ ts.map (fun p => (p.1, entPairs p.2))) := by
  intro ts
  induction ts with
  | nil =>
    intro g _ _ _
    show some g = some (g ++ [])
    rw [List.append_nil]
  | cons p ts ih =>
    intro g hwf hnd hfresh
    obtain ⟨q, es⟩ := p
    rcases hwf (q, es) (List.mem_cons_self _ _) with ⟨hq, hne, hens⟩
    match es, hne, hens with
    | e0 :: es', _, hens =>
      show Run.collect g ((Run.entryLine q 1 e0 :: Run.writeBlock q 2 es') ++
          ts.flatMap (fun p => Run.writeBlock p.1 1 p.2)) = _
      rw [List.cons_append]
      rw [Run.collect_cons_some (Run.parseLine_entryLine hq (hens e0 (List.mem_cons_self _ _)))]
      have hq0 : luB strEqB g q = none := hfresh (q, e0 :: es') (List.mem_cons_self _ _)
      rw [appendB_absent hq0]
      rw [Run.collect_block es' 2 g [(entKey e0, e0)] q _ hq
        (fun en hen => hens en (List.mem_cons_of_mem _ hen)) hq0]
      have hnd' := List.pairwise_cons.mp hnd
      have hfresh' : ∀ p ∈ ts,
          luB strEqB (g ++ [(q, [(entKey e0, e0)] ++ entPairs es')]) p.1 = none := by
        intro p hp
        rw [luB_append, hfresh p (List.mem_cons_of_mem _ hp)]
        show luB strEqB [(q, [(entKey e0, e0)] ++ entPairs es')] p.1 = none
        rw [luB, hnd'.1 p hp]
        simp only [Bool.false_eq_true, if_false]
        rfl
      rw [ih _ (fun p hp => hwf p (List.mem_cons_of_mem _ hp)) hnd'.2 hfresh']
      have hlist : ([(entKey e0, e0)] : List (FinF × REnt)) ++ entPairs es' =
          entPairs (e0 :: es') := by
        rw [List.singleton_append]
        rfl
      rw [hlist, List.append_assoc, List.singleton_append, List.map_cons]

/-- The `Run` round-trip: re-reading the written file yields the table
sorted by query, with every stored sequence reproduced exactly. -/
theorem Run_roundtrip (lines : List Str) (t : RunT) (h : Run.read [] lines = .ok t) :
    Run.read [] (Run.write t) = .ok (t.insertionSort keyLe) ∧
    Run.eqB t (t.insertionSort keyLe) = true := by
  have hwf : WFrun t := Run.read_wfrun h
  have hndS : NodKeys strEqB (t.insertionSort keyLe) :=
    nodKeys_perm strEqB_iff (List.perm_insertionSort keyLe t).symm hwf.1
  have hwfS : ∀ p ∈ t.insertionSort keyLe,
      tokOkB p.1 = true ∧ p.2 ≠ [] ∧ ∀ en ∈ p.2, runEntOK en := by
    intro p hp
    have hp' := (List.perm_insertionSort keyLe t).subset hp
    exact ⟨(hwf.2 p hp').1, (hwf.2 p hp').2.1, fun en hen => (hwf.2 p hp').2.2.2 en hen⟩
  constructor
  · unfold Run.read
    rw [show Run.write t = (t.insertionSort keyLe).flatMap
      (fun p => Run.writeBlock p.1 1 p.2) from rfl]
    rw [Run.collect_blocks (t.insertionSort keyLe) [] hwfS hndS (by intro p _; rfl)]
    rw [List.nil_append]
    show Except.ok (Run.mergeGroups []
      ((t.insertionSort keyLe).map (fun p => (p.1, entPairs p.2)))) = _
    have hfnG : (fun p : Str × List REnt => (p.1, entPairs p.2)) =
        (fun p : Str × List REnt => (p.1, (fun es : List REnt => entPairs es) p.2)) := rfl
    have hndG : NodKeys strEqB ((t.insertionSort keyLe).map
        (fun p => (p.1, entPairs p.2))) := by
      rw [hfnG]
      exact nodKeys_map_val hndS
    rw [Run.mergeGroups_fresh _ [] hndG (by intro p _; rfl), List.nil_append]
    rw [List.map_map]
    have hmc : (t.insertionSort keyLe).map
        ((fun p : Str × List (FinF × REnt) => (p.1, (p.2.insertionSort rpLe).map Prod.snd)) ∘
          (fun p : Str × List REnt => (p.1, entPairs p.2))) =
        (t.insertionSort keyLe).map (fun p => p) := by
      apply List.map_congr_left
      intro p hp
      have hp' := (List.perm_insertionSort keyLe t).subset hp
      have hsorted : ((p.2.map (fun en => (entKey en, en))).insertionSort rpLe) =
          p.2.map (fun en => (entKey en, en)) :=
        List.Sorted.insertionSort_eq ((hwf.2 p hp').2.2.1)
      show (p.1, ((entPairs p.2).insertionSort rpLe).map Prod.snd) = p
      unfold entPairs
      rw [hsorted, List.map_map]
      rw [show (Prod.snd ∘ (fun en : REnt => (entKey en, en))) = (fun en : REnt => en)
        from rfl]
      rw [List.map_id']
    rw [hmc, List.map_id']
  · exact alEqB_of_perm strEqB_iff hwf.1 (List.perm_insertionSort keyLe t).symm
      (fun p _ => beq_self_eq_true _)

/-- C1 counterexample: the Result round-trip fails. A measure value with
seven significant decimals is truncated to six by `'{0:.6f}'.format` on
write, so re-reading yields a different float and the tables are not equal
under Result's value-level equality. -/
theorem C1_result_roundtrip_fails :
    Result.read [] [["topic".data, "runid".data, "M".data],
        ["1".data, "r".data, "0.1234567".data]] =
      .ok [(⟨"1".data, some "r".data⟩, [("M".data, some (.fin ⟨1234567, 7⟩))])] ∧
    Result.write [(⟨"1".data, some "r".data⟩, [("M".data, some (.fin ⟨1234567, 7⟩))])] =
      .ok [["runid".data, "topic".data, "M".data],
           ["r".data, "1".data, "0.123457".data]] ∧
    Result.read [] [["runid".data, "topic".data, "M".data],
        ["r".data, "1".data, "0.123457".data]] =
      .ok [(⟨"1".data, some "r".data⟩, [("M".data, some (.fin ⟨123457, 6⟩))])] ∧
    Result.eqB [(⟨"1".data, some "r".data⟩, [("M".data, some (.fin ⟨1234567, 7⟩))])]
      [(⟨"1".data, some "r".data⟩, [("M".data, some (.fin ⟨123457, 6⟩))])] = false := by
  refine ⟨by decide, by decide, by decide, by decide⟩

/-- C1 amended: the write-then-read round-trip holds, up to value-level
equality ignoring insertion order, for Query, ProbabilisticRelevance,
Relevance and Run — every table populated by `read` from an empty table
re-reads from its written file as an equal table (the sorted copy) — but
not for Result, whose six-decimal formatting can lose precision. -/
theorem C1_roundtrip_amended :
    (∀ (lines : List Str) (t : QueryT), Query.read [] lines = .ok t →
      Query.read [] (Query.write t) = .ok (t.insertionSort keyLe) ∧
      Query.eqB t (t.insertionSort keyLe) = true) ∧
    (∀ (lines : List Str) (t : PRT), ProbabilisticRelevance.read [] lines = .ok t →
      ProbabilisticRelevance.read [] (ProbabilisticRelevance.write t) = .ok (sortTab3 t) ∧
      ProbabilisticRelevance.eqB t (sortTab3 t) = true) ∧
    (∀ (lines : List Str) (t : RelT), Relevance.read [] lines = .ok t →
      Relevance.read [] (Relevance.write t) = .ok (sortTab3 t) ∧
      Relevance.eqB t (sortTab3 t) = true) ∧
    (∀ (lines : List Str) (t : RunT), Run.read [] lines = .ok t →
      Run.read [] (Run.write t) = .ok (t.insertionSort keyLe) ∧
      Run.eqB t (t.insertionSort keyLe) = true) :=
  ⟨Query_roundtrip, ProbabilisticRelevance_roundtrip, Relevance_roundtrip, Run_roundtrip⟩

/-- C1 witness: the Query round-trip at a concrete two-line file read in
descending key order. -/
theorem C1_roundtrip_amended_witness :
    Query.read [] (Query.write [("b".data, "x".data), ("a".data, "y".data)]) =
      .ok (([("b".data, "x".data), ("a".data, "y".data)] : QueryT).insertionSort keyLe) ∧
    Query.eqB [("b".data, "x".data), ("a".data, "y".data)]
      (([("b".data, "x".data), ("a".data, "y".data)] : QueryT).insertionSort keyLe) = true :=
  C1_roundtrip_amended.1 ["b:x".data, "a:y".data] _ (by decide)
